import Mathlib

set_option maxHeartbeats 1000000

/- Verification development for the chat client in src/App.tsx: the
   markdown-to-HTML rendering pipeline (parseMarkdown, the bare-URL
   auto-linking step, sanitizeHtml, formatMessageText), the WebSocket
   messaging client (connectWebSocket handlers, handleSubmit) and the
   session identity provider (getSessionId).  Strings are embedded as
   lists of Unicode characters. -/

abbrev Chars := List Char

/-! ## Generic left-to-right scan-and-replace

JavaScript `String.replace` with a global regex finds non-overlapping
matches left to right and resumes scanning after each replacement.  Each
regex stage of parseMarkdown is embedded as a matcher `TryFn` that, given
a suffix of the input, either fires (returning the replacement text and
the remaining input after the matched region) or declines, plus the
generic scanner below. -/

def TryFn : Type := Chars → Option (Chars × Chars)

/-- One fuelled scanning pass: at each position, either a match fires and
its replacement is emitted, or the current character is copied. -/
def scanF (t : TryFn) : Nat → Chars → Chars
  | 0, s => s
  | _ + 1, [] => []
  | n + 1, c :: cs =>
    match t (c :: cs) with
    | some (out, rest) => out ++ scanF t n rest
    | none => c :: scanF t n cs

def scanAll (t : TryFn) (s : Chars) : Chars := scanF t s.length s

/-- A matcher that always consumes at least one character when it fires. -/
def Consumes (t : TryFn) : Prop :=
  ∀ u o r, t u = some (o, r) → r.length < u.length

theorem scanF_fuel (t : TryFn) (ht : Consumes t) :
    ∀ (n : Nat), ∀ (m : Nat) (s : Chars), s.length ≤ n → s.length ≤ m →
      scanF t n s = scanF t m s := by
  intro n
  induction n with
  | zero =>
    intro m s hn _
    have : s = [] := List.length_eq_zero.mp (Nat.le_zero.mp hn)
    subst this
    cases m <;> simp [scanF]
  | succ n ih =>
    intro m s hn hm
    cases s with
    | nil => cases m <;> simp [scanF]
    | cons c cs =>
      cases m with
      | zero => simp at hm
      | succ m =>
        simp only [scanF]
        cases h : t (c :: cs) with
        | none =>
          have hlen : cs.length ≤ n := by simp only [List.length_cons] at hn; omega
          have hlen' : cs.length ≤ m := by simp only [List.length_cons] at hm; omega
          simp [ih m cs hlen hlen']
        | some pr =>
          obtain ⟨o, r⟩ := pr
          have hr := ht _ _ _ h
          have hlen : r.length ≤ n := by
            have := Nat.lt_of_lt_of_le hr hn
            omega
          have hlen' : r.length ≤ m := by
            have := Nat.lt_of_lt_of_le hr hm
            omega
          simp [ih m r hlen hlen']

/-- If the matcher declines on every suffix, the scan is the identity. -/
theorem scanF_noop (t : TryFn) :
    ∀ (n : Nat) (s : Chars), (∀ u, u <:+ s → t u = none) → scanF t n s = s := by
  intro n
  induction n with
  | zero => intro s _; simp [scanF]
  | succ n ih =>
    intro s h
    cases s with
    | nil => simp [scanF]
    | cons c cs =>
      have h0 : t (c :: cs) = none := h _ (List.suffix_refl _)
      simp only [scanF, h0]
      have : ∀ u, u <:+ cs → t u = none := fun u hu =>
        h u (hu.trans (List.suffix_cons c cs))
      simp [ih cs this]

theorem scanAll_noop (t : TryFn) (s : Chars)
    (h : ∀ u, u <:+ s → t u = none) : scanAll t s = s :=
  scanF_noop t s.length s h

/-- The matcher declines everywhere when its trigger character is absent. -/
theorem try_none_of_trigger {t : TryFn} {trig : Char}
    (htrig : ∀ u o r, t u = some (o, r) → trig ∈ u) {s : Chars}
    (hs : trig ∉ s) : ∀ u, u <:+ s → t u = none := by
  intro u hu
  cases h : t u with
  | none => rfl
  | some pr =>
    exact absurd (hu.subset (htrig u pr.1 pr.2 (by simpa using h))) hs

/-- Scanning skips over a region in which no match can start. -/
theorem scanF_skip (t : TryFn) (ht : Consumes t) :
    ∀ (a : Chars) (b : Chars) (n : Nat), (a ++ b).length ≤ n →
      (∀ u, u <:+ a ++ b → b.length < u.length → t u = none) →
      scanF t n (a ++ b) = a ++ scanF t b.length b := by
  intro a
  induction a with
  | nil =>
    intro b n hn _
    simpa using scanF_fuel t ht n b.length b (by simpa using hn) le_rfl
  | cons c a' ih =>
    intro b n hn h
    cases n with
    | zero => simp at hn
    | succ n =>
      have h0 : t (c :: (a' ++ b)) = none := by
        refine h _ (List.suffix_refl _) ?_
        simp [Nat.lt_succ_iff]
      have hrest : ∀ u, u <:+ a' ++ b → b.length < u.length → t u = none := by
        intro u hu hlen
        exact h u (hu.trans (by simpa using List.suffix_cons c (a' ++ b))) hlen
      have hn' : (a' ++ b).length ≤ n := by
        simp only [List.cons_append, List.length_cons] at hn
        simp only [List.length_append] at hn ⊢
        omega
      simp [scanF, h0, ih b n hn' hrest]

/-- Replacement of every occurrence of a literal pattern (non-overlapping,
left to right), as performed by a global regex over a fixed string. -/
def tryLit (pat rep : Chars) : TryFn := fun s =>
  if pat.isPrefixOf s ∧ pat ≠ [] then some (rep, s.drop pat.length) else none

theorem tryLit_consumes (pat rep : Chars) : Consumes (tryLit pat rep) := by
  intro u o r h
  simp only [tryLit] at h
  split at h
  · rename_i hc
    obtain ⟨hp, hne⟩ := hc
    cases h
    have : 0 < pat.length := List.length_pos.mpr hne
    have hle : pat.length ≤ u.length := (List.isPrefixOf_iff_prefix.mp hp).length_le
    simp [List.length_drop]
    omega
  · cases h

def replaceAll (pat rep : Chars) (s : Chars) : Chars := scanAll (tryLit pat rep) s

theorem tryLit_trigger {pat rep : Chars} {trig : Char} (h : trig ∈ pat) :
    ∀ u o r, tryLit pat rep u = some (o, r) → trig ∈ u := by
  intro u o r hu
  simp only [tryLit] at hu
  split at hu
  · rename_i hc
    exact (List.isPrefixOf_iff_prefix.mp hc.1).subset h
  · cases hu

theorem replaceAll_noop {pat : Chars} (rep : Chars) {s : Chars} {trig : Char}
    (htrig : trig ∈ pat) (hs : trig ∉ s) : replaceAll pat rep s = s :=
  scanAll_noop _ _ (try_none_of_trigger (tryLit_trigger htrig) hs)

/-! ## Data model and messaging client (src/App.tsx, lines 409-536)

JavaScript values flowing through `JSON.parse` and property access are
embedded as `JVal`; `jundef` is the `undefined` produced by reading an
absent property.  Numbers are embedded as integers (only their JS
truthiness, zero versus non-zero, is used here). -/

inductive JVal where
  | jundef : JVal
  | jnull : JVal
  | jbool (b : Bool) : JVal
  | jnum (n : Int) : JVal
  | jstr (s : Chars) : JVal
  | jarr (xs : List JVal) : JVal
  | jobj (fields : List (Chars × JVal)) : JVal

/-- JS truthiness of a value (`data.text || ...` short-circuiting). -/
def JVal.truthy : JVal → Bool
  | .jundef => false
  | .jnull => false
  | .jbool b => b
  | .jnum n => n != 0
  | .jstr s => !s.isEmpty
  | .jarr _ => true
  | .jobj _ => true

/-- Property read `data.k`: on an object the last binding of the key wins
(as after `JSON.parse`); on any other value the result is `undefined`. -/
def JVal.getField : JVal → Chars → JVal
  | .jobj fs, k =>
    match fs.reverse.find? (fun p => p.1 == k) with
    | some p => p.2
    | none => .jundef
  | _, _ => (.jundef)

/-- One conversation turn (interface MessageType, App.tsx lines 409-414).
`sources = none` embeds a message record built without a `sources` field. -/
structure MessageType where
  text : JVal
  isUser : Bool
  timestamp : Nat
  sources : Option JVal

/-- The component state owned by App plus the observable effects of the
socket: payloads passed to `ws.send`, the number of
`setTimeout(connectWebSocket, 3000)` reconnects scheduled by the close
handler, and whether the effect cleanup (teardown) has run. -/
structure AppState where
  ws : Bool
  isConnected : Bool
  messages : List MessageType
  inputValue : Chars
  isLoading : Bool
  sent : List Chars
  scheduledReconnects : Nat
  tornDown : Bool

def initState : AppState :=
  { ws := false, isConnected := false, messages := [], inputValue := [],
    isLoading := false, sent := [], scheduledReconnects := 0, tornDown := false }

def textKey : Chars := "text".toList
def messageKey : Chars := "message".toList

/-- `data.text || data.message || event.data` (App.tsx line 483). -/
def pickText (data : JVal) (raw : Chars) : JVal :=
  if (data.getField textKey).truthy then data.getField textKey
  else if (data.getField messageKey).truthy then data.getField messageKey
  else JVal.jstr raw

def sourcesKey : Chars := "sources".toList

/-- `data.sources || []` (App.tsx line 486). -/
def pickSources (data : JVal) : JVal :=
  if (data.getField sourcesKey).truthy then data.getField sourcesKey
  else JVal.jarr []

/-- The `websocket.onmessage` handler (App.tsx lines 478-498).  `parse` is
the platform `JSON.parse`, returning `none` when it throws. -/
def onMessage (parse : Chars → Option JVal) (raw : Chars) (now : Nat)
    (st : AppState) : AppState :=
  let st0 := { st with isLoading := false }
  match parse raw with
  | some data =>
    { st0 with messages := st0.messages ++
        [{ text := pickText data raw, isUser := false, timestamp := now,
           sources := some (pickSources data) }] }
  | none =>
    { st0 with messages := st0.messages ++
        [{ text := JVal.jstr raw, isUser := false, timestamp := now,
           sources := none }] }

/-- The code points JavaScript `\s` (and hence `String.trim`) accepts. -/
def isJsWs (c : Char) : Bool :=
  c == ' ' || c == '\t' || c == '\n' || c == '\u000B' || c == '\u000C' ||
  c == '\r' || c == ' ' || c == ' ' ||
  (' ' ≤ c && c ≤ ' ') || c == ' ' || c == ' ' ||
  c == ' ' || c == ' ' || c == '　' || c == '﻿'

/-- JavaScript `String.trim`. -/
def trimJs (s : Chars) : Chars :=
  ((s.dropWhile isJsWs).reverse.dropWhile isJsWs).reverse

/-- `JSON.stringify` escaping of one character inside a string literal. -/
def jsonEscapeChar (c : Char) : Chars :=
  if c = '"' then ['\\', '"']
  else if c = '\\' then ['\\', '\\']
  else if c = '\x08' then ['\\', 'b']
  else if c = '\x0C' then ['\\', 'f']
  else if c = '\n' then ['\\', 'n']
  else if c = '\r' then ['\\', 'r']
  else if c = '\t' then ['\\', 't']
  else if c.val < 32 then
    ['\\', 'u', '0', '0', (Nat.digitChar (c.toNat / 16)), (Nat.digitChar (c.toNat % 16))]
  else [c]

/-- `JSON.stringify({ query: q })` (App.tsx line 534). -/
def queryPayload (q : Chars) : Chars :=
  "\x7b\"query\":\"".toList ++ q.flatMap jsonEscapeChar ++ "\"\x7d".toList

/-- The submit handler (App.tsx lines 522-536): a guarded no-op, else it
appends the user message, sets the loading flag, sends the payload and
clears the input. -/
def handleSubmit (now : Nat) (st : AppState) : AppState :=
  if trimJs st.inputValue = [] ∨ st.ws = false ∨ st.isConnected = false then st
  else
    { st with
      messages := st.messages ++
        [{ text := JVal.jstr st.inputValue, isUser := true, timestamp := now,
           sources := none }],
      isLoading := true,
      sent := st.sent ++ [queryPayload st.inputValue],
      inputValue := [] }

inductive SocketEvent where
  | openEv : SocketEvent
  | closeEv : SocketEvent
  | errorEv : SocketEvent
deriving DecidableEq

/-- `connectWebSocket` (App.tsx lines 461-510): creates the socket,
installs the handlers and stores it via `setWs`. -/
def connectAction (st : AppState) : AppState := { st with ws := true }

/-- Dispatch of one socket event to the installed handlers:
`onopen` sets the connected flag (line 468); `onclose` clears it and
unconditionally schedules a reconnect via `setTimeout(connectWebSocket,
3000)` (lines 471-476); `onerror` only clears the loading flag (lines
500-503). -/
def stepEvent (st : AppState) : SocketEvent → AppState
  | .openEv => { st with isConnected := true }
  | .closeEv => { st with isConnected := false,
                          scheduledReconnects := st.scheduledReconnects + 1 }
  | .errorEv => { st with isLoading := false }

/-- The effect cleanup (App.tsx lines 515-519): it calls `ws.close()`
(whose close event is dispatched to `stepEvent` afterwards) and nothing
else; no timer handle is kept, so no scheduled reconnect is cancelled. -/
def teardown (st : AppState) : AppState := { st with tornDown := true }

/-- The client after mounting (connect) and a sequence of socket events. -/
def runEvents (evs : List SocketEvent) : AppState :=
  evs.foldl stepEvent (connectAction initState)

/-- Base-36 rendering of a `Math.random()` outcome `r ∈ [0,1)`:
`(0).toString(36) = "0"`, and for non-zero `r` it is `"0."` followed by
the (non-empty) list `frac` of base-36 fraction digits.  The outcome is
embedded as that digit list, the zero outcome as `[]`. -/
def mathRandomToString36 (frac : Chars) : Chars :=
  if frac = [] then ['0'] else '0' :: '.' :: frac

/-- `Math.random().toString(36).substring(2, 15)` (App.tsx line 429). -/
def generatedId (frac : Chars) : Chars :=
  ((mathRandomToString36 frac).drop 2).take 13

/-- `getSessionId` (App.tsx lines 426-433) over an explicit key-value
store (the `chatSessionId` slot of localStorage, `none` = missing) and a
random outcome; returns the result and the updated slot.  A stored empty
string is falsy, so it is treated as a miss, exactly as `if (!sessionId)`
does. -/
def getSessionId (stored : Option Chars) (frac : Chars) : Chars × Option Chars :=
  match stored with
  | some v =>
    if v = [] then
      let g := generatedId frac
      (g, some g)
    else (v, some v)
  | none =>
    let g := generatedId frac
    (g, some g)

/-! ## Claims about the messaging client and session identity -/

/-- C5: for every inbound socket payload, whether it decodes as JSON or
not, the handler appends exactly one non-user message to the conversation
store and clears the pending-response flag; when the payload is not valid
JSON the appended message's text is the raw payload and it carries no
sources. -/
theorem C5_inbound_appends_one_clears_flag :
    ∀ (parse : Chars → Option JVal) (raw : Chars) (now : Nat) (st : AppState),
      (∃ m, (onMessage parse raw now st).messages = st.messages ++ [m] ∧
        m.isUser = false ∧
        (parse raw = none → m.text = JVal.jstr raw ∧ m.sources = none)) ∧
      (onMessage parse raw now st).isLoading = false := by
  intro parse raw now st
  cases h : parse raw with
  | none =>
    refine ⟨⟨{ text := JVal.jstr raw, isUser := false, timestamp := now,
               sources := none }, ?_, rfl, fun _ => ⟨rfl, rfl⟩⟩, ?_⟩
    · simp [onMessage, h]
    · simp [onMessage, h]
  | some v =>
    refine ⟨⟨{ text := pickText v raw, isUser := false, timestamp := now,
               sources := some (pickSources v) }, ?_, rfl, fun hn => ?_⟩, ?_⟩
    · simp [onMessage, h]
    · exact Option.noConfusion hn
    · simp [onMessage, h]

theorem C5_witness :
    (∃ m, (onMessage (fun _ => none) "pong".toList 7 initState).messages =
        initState.messages ++ [m] ∧
      m.isUser = false ∧
      ((fun (_ : Chars) => (none : Option JVal)) "pong".toList = none →
        m.text = JVal.jstr "pong".toList ∧ m.sources = none)) ∧
    (onMessage (fun _ => none) "pong".toList 7 initState).isLoading = false :=
  C5_inbound_appends_one_clears_flag (fun _ => none) "pong".toList 7 initState

/-- C6: submitting is a no-op when the query is empty or whitespace-only
or the client is not connected; otherwise it encodes `{query}`, appends
exactly one user message and sets the pending-response flag.  The
hypothesis records that a connected client holds a socket object
(`setWs` runs synchronously inside `connectWebSocket`, before any open
event can fire). -/
theorem C6_handleSubmit_guard_and_send :
    ∀ (now : Nat) (st : AppState), (st.isConnected = true → st.ws = true) →
      ((trimJs st.inputValue = [] ∨ st.isConnected = false) →
        handleSubmit now st = st) ∧
      (trimJs st.inputValue ≠ [] → st.isConnected = true →
        handleSubmit now st =
          { st with
            messages := st.messages ++
              [{ text := JVal.jstr st.inputValue, isUser := true,
                 timestamp := now, sources := none }],
            isLoading := true,
            sent := st.sent ++ [queryPayload st.inputValue],
            inputValue := [] }) := by
  intro now st hws
  constructor
  · intro h
    have hg : trimJs st.inputValue = [] ∨ st.ws = false ∨ st.isConnected = false := by
      rcases h with h | h
      · exact Or.inl h
      · exact Or.inr (Or.inr h)
    simp [handleSubmit, hg]
  · intro h1 h2
    have hw : st.ws = true := hws h2
    have hg : ¬(trimJs st.inputValue = [] ∨ st.ws = false ∨ st.isConnected = false) := by
      simp [h1, hw, h2]
    simp [handleSubmit, hg]

def submitDemoState : AppState :=
  { initState with ws := true, isConnected := true, inputValue := "Hello".toList }

theorem C6_witness :
    trimJs submitDemoState.inputValue ≠ [] ∧
    handleSubmit 3 submitDemoState =
      { submitDemoState with
        messages := submitDemoState.messages ++
          [{ text := JVal.jstr submitDemoState.inputValue, isUser := true,
             timestamp := 3, sources := none }],
        isLoading := true,
        sent := submitDemoState.sent ++ [queryPayload submitDemoState.inputValue],
        inputValue := [] } :=
  ⟨by decide,
   (C6_handleSubmit_guard_and_send 3 submitDemoState (fun _ => rfl)).2 (by decide) rfl⟩

/-- C7: the claim requires that teardown cancels any pending retry timer
and that a close event observed after teardown schedules no reconnect.
The code does the opposite: the close handler unconditionally calls
`setTimeout(connectWebSocket, 3000)` and the cleanup keeps no timer
handle, so the close event fired by the teardown's own `ws.close()`
schedules one more reconnect. -/
theorem C7_close_after_teardown_schedules_reconnect :
    (stepEvent (teardown (stepEvent (connectAction initState) SocketEvent.openEv))
        SocketEvent.closeEv).scheduledReconnects = 1 ∧
    (stepEvent (teardown (stepEvent (connectAction initState) SocketEvent.openEv))
        SocketEvent.closeEv).tornDown = true :=
  ⟨rfl, rfl⟩

/-- The connection flag the claim C8 describes: true iff the most recent
event was an open with no close or transport-error event after it. -/
def lastEventOpen (evs : List SocketEvent) : Bool :=
  evs.getLast? == some SocketEvent.openEv

/-- C8 fails on the code: after [open, error] the derived flag is still
true because `onerror` never clears it, while the claim demands false. -/
theorem C8_error_leaves_flag_set :
    (runEvents [SocketEvent.openEv, SocketEvent.errorEv]).isConnected ≠
      lastEventOpen [SocketEvent.openEv, SocketEvent.errorEv] := by
  decide

/-- The flag actually derived by the handlers: the most recent open or
close event decides it, and error events leave it unchanged. -/
def lastOpenClose : Bool → List SocketEvent → Bool
  | b, [] => b
  | _, SocketEvent.openEv :: tl => lastOpenClose true tl
  | _, SocketEvent.closeEv :: tl => lastOpenClose false tl
  | b, SocketEvent.errorEv :: tl => lastOpenClose b tl

theorem foldl_stepEvent_isConnected :
    ∀ (evs : List SocketEvent) (st : AppState),
      (evs.foldl stepEvent st).isConnected = lastOpenClose st.isConnected evs := by
  intro evs
  induction evs with
  | nil => intro st; rfl
  | cons e tl ih =>
    intro st
    cases e <;> simp [List.foldl_cons, stepEvent, lastOpenClose, ih]

/-- C8 amended: for every finite sequence of open, close and
transport-error events, the derived connection flag is true iff the most
recent open-or-close event was an open; transport-error events do not
change the flag (they only clear the pending-response flag). -/
theorem C8_flag_tracks_last_open_close :
    ∀ (evs : List SocketEvent), (runEvents evs).isConnected = lastOpenClose false evs := by
  intro evs
  exact foldl_stepEvent_isConnected evs (connectAction initState)

/-- C9 fails on the code: `Math.random()` may return 0 (the ECMAScript
range is [0,1)), whose base-36 rendering is "0", so
`substring(2, 15)` yields the empty string, which is returned and
persisted. -/
theorem C9_zero_outcome_gives_empty_id :
    (getSessionId none []).1 = [] := rfl

/-- C9 amended: on a store miss a freshly generated identifier is
returned and persisted; a subsequent call returns a stored non-empty
value unchanged; and the returned value is non-empty for every random
outcome with at least one base-36 fraction digit (every outcome other
than zero). -/
theorem C9_getSessionId_fresh_stable_nonempty :
    ∀ (frac v : Chars),
      ((getSessionId none frac).1 = generatedId frac ∧
        (getSessionId none frac).2 = some (generatedId frac)) ∧
      (v ≠ [] → getSessionId (some v) frac = (v, some v)) ∧
      (frac ≠ [] → (getSessionId none frac).1 ≠ []) := by
  intro frac v
  refine ⟨⟨rfl, rfl⟩, ?_, ?_⟩
  · intro hv
    simp [getSessionId, hv]
  · intro hf
    cases frac with
    | nil => exact absurd rfl hf
    | cons a l => simp [getSessionId, generatedId, mathRandomToString36]

theorem C9_witness :
    ("xyz".toList ≠ ([] : Chars) ∧ "abc".toList ≠ ([] : Chars)) ∧
    getSessionId (some "xyz".toList) "abc".toList = ("xyz".toList, some "xyz".toList) ∧
    (getSessionId none "abc".toList).1 ≠ [] :=
  ⟨⟨by decide, by decide⟩,
   (C9_getSessionId_fresh_stable_nonempty "abc".toList "xyz".toList).2.1 (by decide),
   (C9_getSessionId_fresh_stable_nonempty "abc".toList "xyz".toList).2.2 (by decide)⟩

/-- C10: when the decoded payload's `text` field is falsy the handler
falls back to `message`, and when that is falsy too, to the raw payload
string. -/
theorem C10_falsy_text_falls_back :
    ∀ (parse : Chars → Option JVal) (raw : Chars) (now : Nat) (st : AppState)
      (v : JVal), parse raw = some v → (v.getField textKey).truthy = false →
      ∃ m, (onMessage parse raw now st).messages = st.messages ++ [m] ∧
        ((v.getField messageKey).truthy = true → m.text = v.getField messageKey) ∧
        ((v.getField messageKey).truthy = false → m.text = JVal.jstr raw) := by
  intro parse raw now st v h ht
  refine ⟨{ text := pickText v raw, isUser := false, timestamp := now,
            sources := some (pickSources v) }, ?_, ?_, ?_⟩
  · simp [onMessage, h]
  · intro hm
    simp [pickText, ht, hm]
  · intro hm
    simp [pickText, ht, hm]

def c10raw : Chars := "\x7b\"text\":\"\"\x7d".toList

def c10val : JVal := JVal.jobj [(textKey, JVal.jstr [])]

theorem C10_witness :
    (c10val.getField textKey).truthy = false ∧
    (∃ m, (onMessage (fun _ => some c10val) c10raw 7 initState).messages =
        initState.messages ++ [m] ∧
      ((c10val.getField messageKey).truthy = true →
        m.text = c10val.getField messageKey) ∧
      ((c10val.getField messageKey).truthy = false →
        m.text = JVal.jstr c10raw)) :=
  ⟨by decide,
   C10_falsy_text_falls_back (fun _ => some c10val) c10raw 7 initState c10val rfl
     (by decide)⟩

/-! ## The markdown-to-HTML pipeline (parseMarkdown, App.tsx lines 324-396)

Each `.replace(regex, ...)` stage is embedded as a matcher over suffixes
plus the generic scanner, or as a per-line map for the patterns anchored
by `^...$` with the `m` flag that cannot cross a line terminator. -/

/-- Split at the earliest occurrence of `pat`: the lazy search performed
by a `[\s\S]*?` group followed by a literal. -/
def splitAtSub (pat : Chars) : Chars → Option (Chars × Chars)
  | [] => if pat.isPrefixOf [] then some ([], []) else none
  | c :: cs =>
    if pat.isPrefixOf (c :: cs) then some ([], (c :: cs).drop pat.length)
    else
      match splitAtSub pat cs with
      | some (a, b) => some (c :: a, b)
      | none => none

/-- Matcher for `delim([\s\S]*?)delim` replaced by `pre$1post` (the code
block, bold and italic stages). -/
def tryWrap (delim pre post : Chars) : TryFn := fun s =>
  if delim.isPrefixOf s then
    match splitAtSub delim (s.drop delim.length) with
    | some (mid, rest) => some (pre ++ mid ++ post, rest)
    | none => none
  else none

/-- ```([\s\S]*?)``` → `<pre><code>$1</code></pre>` (line 330). -/
def replaceCodeBlocks (s : Chars) : Chars :=
  scanAll (tryWrap "```".toList "<pre><code>".toList "</code></pre>".toList) s

/-- \*\*([\s\S]*?)\*\* → `<strong>$1</strong>` (line 333). -/
def replaceBold (s : Chars) : Chars :=
  scanAll (tryWrap "**".toList "<strong>".toList "</strong>".toList) s

/-- \*([\s\S]*?)\* → `<em>$1</em>` (line 336). -/
def replaceItalic (s : Chars) : Chars :=
  scanAll (tryWrap "*".toList "<em>".toList "</em>".toList) s

def splitLines (s : Chars) : List Chars := s.splitOn '\n'

def joinLines (ls : List Chars) : Chars := List.intercalate ['\n'] ls

/-- A `^...$` multiline pattern that cannot match a line terminator acts
independently on each line. -/
def mapLines (f : Chars → Chars) (s : Chars) : Chars := joinLines ((splitLines s).map f)

/-- A full line matching ^([-=])\1{2,}$: three or more repetitions of one
of `-` `=`. -/
def isHrLine (l : Chars) : Bool :=
  match l with
  | c :: rest => (c == '-' || c == '=') && rest.all (fun d => d == c) && decide (2 ≤ rest.length)
  | [] => false

/-- ^([-=])\1{2,}$ (gm) → `<hr>` (line 339). -/
def replaceHr (s : Chars) : Chars :=
  mapLines (fun l => if isHrLine l then "<hr>".toList else l) s

/-- The private-use code point U+F8FF opening each glyph sequence of the
source file's emoji patterns (lines 342, 365-371 of App.tsx). -/
def glyphPUA : Char := ''

/-- The character class of the emoji stage (line 342), exactly the
distinct code points appearing between `[` and `]` in the source. -/
def emojiClass : Chars :=
  [glyphPUA, 'ü', 'è', 'Ä', 'ì', 'ä', 'à',
   'î', '•', '‚', 'ö', '°', 'Ô', '∏',
   'å', 'ú', '®', '≠', 'ê']

def tryEmoji : TryFn := fun s =>
  match s with
  | c :: cs =>
    if c ∈ emojiClass then
      some ("<span style=\"font-size: 1.2em;\">".toList ++ [c] ++ "</span>".toList, cs)
    else none
  | [] => none

/-- The emoji wrapping stage (line 342). -/
def replaceEmoji (s : Chars) : Chars := scanAll tryEmoji s

/-- ^mark (.*?)$ (gm): a line starting with the header marker has the
rest of the line wrapped (lines 345-347). -/
def headerLine (marker pre post : Chars) (l : Chars) : Chars :=
  if marker.isPrefixOf l then pre ++ l.drop marker.length ++ post else l

def replaceH3 (s : Chars) : Chars :=
  mapLines (headerLine "### ".toList "<h3>".toList "</h3>".toList) s

def replaceH2 (s : Chars) : Chars :=
  mapLines (headerLine "## ".toList "<h2>".toList "</h2>".toList) s

def replaceH1 (s : Chars) : Chars :=
  mapLines (headerLine "# ".toList "<h1>".toList "</h1>".toList) s

/-- The lazy label of \[(.*?)\]\( : the earliest `](` reachable without a
line terminator (backtracking lets the label swallow `]` characters not
followed by `(`). -/
def linkLabelSearch : Chars → Option (Chars × Chars)
  | [] => none
  | ']' :: '(' :: rest => some ([], rest)
  | c :: cs =>
    if c = '\n' then none
    else
      match linkLabelSearch cs with
      | some (a, b) => some (c :: a, b)
      | none => none

/-- The lazy URL of \((.*?)\) : up to the earliest `)` on the same line. -/
def linkUrlSearch : Chars → Option (Chars × Chars)
  | [] => none
  | ')' :: rest => some ([], rest)
  | c :: cs =>
    if c = '\n' then none
    else
      match linkUrlSearch cs with
      | some (a, b) => some (c :: a, b)
      | none => none

def tryLink : TryFn := fun s =>
  match s with
  | '[' :: cs =>
    match linkLabelSearch cs with
    | some (label, afterParen) =>
      match linkUrlSearch afterParen with
      | some (url, rest) =>
        some ("<a href=\"".toList ++ url ++
          "\" target=\"_blank\" rel=\"noopener noreferrer\" style=\"color: #2563eb; text-decoration: none;\">".toList
          ++ label ++ "</a>".toList, rest)
      | none => none
    | none => none
  | _ => none

/-- \[(.*?)\]\((.*?)\) → anchor (line 350). -/
def replaceLinks (s : Chars) : Chars := scanAll tryLink s

/-- ^>\s+(.*?)$ (gm) → `<blockquote>$1</blockquote>` (line 353).  The
greedy `\s+` may cross line terminators; the lazy group then reaches the
next end-of-line.  The scanner tracks whether the position is a line
start (string start or right after a `\n`). -/
def bqScanF : Nat → Bool → Chars → Chars
  | 0, _, s => s
  | _ + 1, _, [] => []
  | n + 1, atLS, c :: cs =>
    if atLS && c == '>' && (match cs with | d :: _ => isJsWs d | [] => false) then
      let rest := cs.dropWhile isJsWs
      let content := rest.takeWhile (fun d => d != '\n')
      let rest' := rest.dropWhile (fun d => d != '\n')
      "<blockquote>".toList ++ content ++ "</blockquote>".toList ++ bqScanF n false rest'
    else c :: bqScanF n (c == '\n') cs

def replaceBlockquote (s : Chars) : Chars := bqScanF s.length true s

def brP : Chars := "<br class=\"paragraph-break\">".toList

def brL : Chars := "<br class=\"line-break\">".toList

/-- The glyph sequences framing the projection-style patterns (the
literal characters of App.tsx lines 365, 368, 371). -/
def seq365 : Chars := [glyphPUA, 'ü', 'ì', 'ä']

def seq368 : Chars := [glyphPUA, 'ü', 'è', 'Ä']

def seq371 : Chars := [glyphPUA, 'ü', 'ì', 'à']

/-- Lazy search for `pat` immediately followed by `follow`, without
crossing a line terminator (a `.*?` group before `pat ++ follow`). -/
def findSeqThen (pat follow : Chars) : Chars → Option (Chars × Chars)
  | [] =>
    if pat.isPrefixOf ([] : Chars) && follow.isPrefixOf ([] : Chars) then some ([], [])
    else none
  | c :: cs =>
    if pat.isPrefixOf (c :: cs) && follow.isPrefixOf ((c :: cs).drop pat.length) then
      some ([], ((c :: cs).drop pat.length).drop follow.length)
    else if c = '\n' then none
    else
      match findSeqThen pat follow cs with
      | some (a, b) => some (c :: a, b)
      | none => none

/-- Matcher for `brL(start.*?end)brL` → `divPre$1</div>` (lines 365-372):
both line-break markers are consumed and dropped. -/
def tryFramed (startSeq endSeq divPre : Chars) : TryFn := fun s =>
  if brL.isPrefixOf s then
    let s1 := s.drop brL.length
    if startSeq.isPrefixOf s1 then
      match findSeqThen endSeq brL (s1.drop startSeq.length) with
      | some (mid, rest) =>
        some (divPre ++ startSeq ++ mid ++ endSeq ++ "</div>".toList, rest)
      | none => none
    else none
  else none

def projHeader365 (s : Chars) : Chars :=
  scanAll (tryFramed seq365 seq365
    "<div style=\"font-size: 1.3em; font-weight: bold; color: #4f46e5; margin: 10px 0; text-align: center;\">".toList) s

def projHeader368 (s : Chars) : Chars :=
  scanAll (tryFramed seq368 [':']
    "<div style=\"font-size: 1.1em; font-weight: bold; color: #2563eb; margin: 8px 0 4px 0;\">".toList) s

def projHeader371 (s : Chars) : Chars :=
  scanAll (tryFramed seq371 [':']
    "<div style=\"font-size: 1.1em; font-weight: bold; color: #059669; margin: 8px 0 4px 0;\">".toList) s

def isUpperAZ (c : Char) : Bool := 'A' ≤ c && c ≤ 'Z'

/-- Matcher for `brL\s*([A-Z]+):\s*brL` (line 375): both markers are
consumed; the replacement keeps only the captured word plus `:`. -/
def tryLabel375 : TryFn := fun s =>
  if brL.isPrefixOf s then
    let r1 := (s.drop brL.length).dropWhile isJsWs
    let caps := r1.takeWhile isUpperAZ
    let r2 := r1.dropWhile isUpperAZ
    if caps = [] then none
    else
      match r2 with
      | ':' :: r3 =>
        let r4 := r3.dropWhile isJsWs
        if brL.isPrefixOf r4 then
          some ("<div style=\"font-weight: bold; color: #4b5563; margin: 8px 0 4px 0;\">".toList
            ++ caps ++ ":</div>".toList, r4.drop brL.length)
        else none
      | _ => none
  else none

def statLabel375 (s : Chars) : Chars := scanAll tryLabel375 s

/-- The bullet character class `[‚Ä¢-]` of line 379 (the three literal
code points of the source plus `-`). -/
def bulletClass : Chars := ['‚', 'Ä', '¢', '-']

/-- The literal three-character bullet `‚Ä¢` (lines 380, 383). -/
def bulletLit : Chars := ['‚', 'Ä', '¢']

/-- `(.*?)(?=brL|$)`: the earliest position where the line-break marker
starts (left unconsumed — a lookahead) or the end of input; `.` cannot
cross a line terminator. -/
def lazyUntilMarkerOrEnd : Chars → Option (Chars × Chars)
  | [] => some ([], [])
  | c :: cs =>
    if brL.isPrefixOf (c :: cs) then some ([], c :: cs)
    else if c = '\n' then none
    else
      match lazyUntilMarkerOrEnd cs with
      | some (a, b) => some (c :: a, b)
      | none => none

/-- Matcher for `(brL)\s*[‚Ä¢-]\s+(.*?)(?=brL|$)` (line 379); the leading
marker (group 1) is dropped by the replacement. -/
def tryBullet379 : TryFn := fun s =>
  if brL.isPrefixOf s then
    let r1 := (s.drop brL.length).dropWhile isJsWs
    match r1 with
    | c :: r2 =>
      if c ∈ bulletClass then
        match r2 with
        | d :: _ =>
          if isJsWs d then
            match lazyUntilMarkerOrEnd (r2.dropWhile isJsWs) with
            | some (content, rest) =>
              some ("<div style=\"display: flex; margin: 4px 0 4px 12px;\"><span style=\"margin-right: 8px;\">".toList
                ++ bulletLit ++ "</span><span>".toList ++ content ++ "</span></div>".toList, rest)
            | none => none
          else none
        | [] => none
      else none
    | [] => none
  else none

def bulletLine379 (s : Chars) : Chars := scanAll tryBullet379 s

def isDigitDot (c : Char) : Bool := c.isDigit || c == '.'

/-- Matcher for `(brL)\s*‚Ä¢\s+([\d.]+)\s+-\s+(.*?)(?=brL|$)` (line 383). -/
def tryStat383 : TryFn := fun s =>
  if brL.isPrefixOf s then
    let r1 := (s.drop brL.length).dropWhile isJsWs
    if bulletLit.isPrefixOf r1 then
      let r2 := r1.drop bulletLit.length
      match r2 with
      | d :: _ =>
        if isJsWs d then
          let r3 := r2.dropWhile isJsWs
          let digits := r3.takeWhile isDigitDot
          let r4 := r3.dropWhile isDigitDot
          if digits = [] then none
          else
            match r4 with
            | e :: _ =>
              if isJsWs e then
                match r4.dropWhile isJsWs with
                | '-' :: r5 =>
                  match r5 with
                  | f :: _ =>
                    if isJsWs f then
                      match lazyUntilMarkerOrEnd (r5.dropWhile isJsWs) with
                      | some (content, rest) =>
                        some ("<div style=\"display: flex; margin: 4px 0 4px 12px;\"><span style=\"font-weight: bold; min-width: 50px;\">".toList
                          ++ digits ++ "</span><span>".toList ++ content ++ "</span></div>".toList, rest)
                      | none => none
                    else none
                  | [] => none
                | _ => none
              else none
            | [] => none
        else none
      | [] => none
    else none
  else none

def statLine383 (s : Chars) : Chars := scanAll tryStat383 s

def words387 : List Chars :=
  ["POINTS".toList, "REBOUNDS".toList, "ASSISTS".toList, "STEALS".toList,
   "BLOCKS".toList, "THREE POINTERS".toList]

/-- Matcher for `(POINTS|REBOUNDS|ASSISTS|STEALS|BLOCKS|THREE POINTERS):`
(line 387); alternatives are tried in source order. -/
def tryStatWord387 : TryFn := fun s =>
  match words387.find? (fun w => w.isPrefixOf s && ((s.drop w.length).head? == some ':')) with
  | some w =>
    some ("<div style=\"font-weight: bold; color: #4b5563; margin: 8px 0 4px 0;\">".toList
      ++ w ++ ":</div>".toList, s.drop (w.length + 1))
  | none => none

def statWords387 (s : Chars) : Chars := scanAll tryStatWord387 s

def pdiv : Chars := "<div style=\"margin: 12px 0;\"></div>".toList

def ldiv : Chars := "<div style=\"margin: 2px 0;\"></div>".toList

/-- The full parseMarkdown pipeline (App.tsx lines 324-396), stages in
source order; `if (!text) return ''` is the leading emptiness guard. -/
def parseMarkdown (s : Chars) : Chars :=
  if s = [] then []
  else
    let p1 := replaceCodeBlocks s
    let p2 := replaceBold p1
    let p3 := replaceItalic p2
    let p4 := replaceHr p3
    let p5 := replaceEmoji p4
    let p6 := replaceH3 p5
    let p7 := replaceH2 p6
    let p8 := replaceH1 p7
    let p9 := replaceLinks p8
    let p10 := replaceBlockquote p9
    let p11 := replaceAll "\n\n".toList brP p10
    let p12 := replaceAll "\n".toList brL p11
    let p13 := projHeader365 p12
    let p14 := projHeader368 p13
    let p15 := projHeader371 p14
    let p16 := statLabel375 p15
    let p17 := bulletLine379 p16
    let p18 := statLine383 p17
    let p19 := statWords387 p18
    let p20 := replaceAll brP pdiv p19
    replaceAll brL ldiv p20

/-! ## Bare-URL auto-linking (formatMessageText, App.tsx lines 538-550)

The regex `(?<!["'])(?<!href=")(https?:\/\/[^\s<]+)(?![^<]*>|[^<>]*<\/a>)`:
a lookbehind blocking a quote character right before the scheme (which
subsumes the `href="` lookbehind), a greedy run of non-space non-`<`
characters that backtracks until the trailing negative lookahead is
satisfied, and a lookahead rejecting a position followed by `>` before
any `<`, or by `</a>` before any other `<`/`>`. -/

def urlStart (s : Chars) : Option (Chars × Chars) :=
  if "https://".toList.isPrefixOf s then some ("https://".toList, s.drop 8)
  else if "http://".toList.isPrefixOf s then some ("http://".toList, s.drop 7)
  else none

/-- `[^<]*>` : a `>` occurs before any `<`. -/
def rejectGt (rest : Chars) : Bool :=
  match rest.dropWhile (fun c => c != '<' && c != '>') with
  | '>' :: _ => true
  | _ => false

/-- `[^<>]*<\/a>` : the first `<`/`>` character opens a literal `</a>`. -/
def rejectCloseA (rest : Chars) : Bool :=
  "</a>".toList.isPrefixOf (rest.dropWhile (fun c => c != '<' && c != '>'))

def urlReject (rest : Chars) : Bool := rejectGt rest || rejectCloseA rest

/-- Largest k ≥ 1 such that the lookahead accepts the position after the
first k characters of the greedy run (regex backtracking order). -/
def urlPick (run rest0 : Chars) : Nat → Option Nat
  | 0 => none
  | k + 1 =>
    if !urlReject (run.drop (k + 1) ++ rest0) then some (k + 1)
    else urlPick run rest0 k

def anchorWrap (url : Chars) : Chars :=
  "<a href=\"".toList ++ url ++
    "\" target=\"_blank\" rel=\"noopener noreferrer\" style=\"color: #2563eb; text-decoration: none;\">".toList
    ++ url ++ "</a>".toList

def tryUrl (s : Chars) : Option (Chars × Chars) :=
  match urlStart s with
  | some (sch, rest1) =>
    let run := rest1.takeWhile (fun c => !isJsWs c && c != '<')
    let rest0 := rest1.drop run.length
    match urlPick run rest0 run.length with
    | some k => some (anchorWrap (sch ++ run.take k), run.drop k ++ rest0)
    | none => none
  | none => none

def autoLinkF : Nat → Option Char → Chars → Chars
  | 0, _, s => s
  | _ + 1, _, [] => []
  | n + 1, prev, c :: cs =>
    if prev == some '"' || prev == some '\'' then c :: autoLinkF n (some c) cs
    else
      match tryUrl (c :: cs) with
      | some (out, rest) =>
        out ++ autoLinkF n ((anchorWrap []).getLast?) rest
      | none => c :: autoLinkF n (some c) cs

def autoLink (s : Chars) : Chars := autoLinkF s.length none s

/-- The text transformation applied to a message before sanitization:
parseMarkdown followed by bare-URL auto-linking (App.tsx lines 538-546). -/
def renderMessage (s : Chars) : Chars := autoLink (parseMarkdown s)

/-! ## Claims about the rendering pipeline: C4 (fenced code blocks) -/

theorem suffix_append_cases {u a b : Chars} (h : u <:+ a ++ b) :
    u <:+ b ∨ ∃ a', a' <:+ a ∧ a' ≠ [] ∧ u = a' ++ b := by
  induction a with
  | nil => exact Or.inl (by simpa using h)
  | cons x a' ih =>
    rcases List.suffix_cons_iff.mp (by simpa using h) with h1 | h1
    · exact Or.inr ⟨x :: a', List.suffix_refl _, List.cons_ne_nil x a', by simpa using h1⟩
    · rcases ih h1 with h2 | ⟨a'', ha, hne, hu⟩
      · exact Or.inl h2
      · exact Or.inr ⟨a'', ha.trans (List.suffix_cons x a'), hne, hu⟩

theorem isPrefixOf_cons_eq {p0 x : Char} {pt xs : Chars} :
    (p0 :: pt).isPrefixOf (x :: xs) = (p0 == x && pt.isPrefixOf xs) := rfl

theorem splitAtSub_eq (pat : Chars) :
    ∀ (x a b : Chars), splitAtSub pat x = some (a, b) → x = a ++ pat ++ b := by
  intro x
  induction x with
  | nil =>
    intro a b h
    simp only [splitAtSub] at h
    split at h
    · rename_i hp
      cases h
      have := List.isPrefixOf_iff_prefix.mp hp
      simp [List.prefix_nil.mp this]
    · cases h
  | cons c cs ih =>
    intro a b h
    simp only [splitAtSub] at h
    split at h
    · rename_i hp
      cases h
      obtain ⟨t, ht⟩ := List.isPrefixOf_iff_prefix.mp hp
      rw [← ht]
      simp [List.drop_left]
    · rename_i hp
      cases hrec : splitAtSub pat cs with
      | none => rw [hrec] at h; cases h
      | some pr =>
        rw [hrec] at h
        obtain ⟨a1, b1⟩ := pr
        cases h
        simpa [List.append_assoc] using ih _ _ hrec

theorem splitAtSub_append_first {p0 : Char} (pt : Chars) :
    ∀ (b c : Chars), p0 ∉ b →
      splitAtSub (p0 :: pt) (b ++ (p0 :: pt) ++ c) = some (b, c) := by
  intro b
  induction b with
  | nil =>
    intro c _
    have hp : (p0 :: pt).isPrefixOf (p0 :: pt ++ c) = true := by
      have : (p0 :: pt) <+: ((p0 :: pt) ++ c) := List.prefix_append _ _
      simpa using List.isPrefixOf_iff_prefix.mpr this
    simp only [List.nil_append, List.cons_append, splitAtSub, hp]
    simp [List.drop_left' rfl]
  | cons x b' ih =>
    intro c hb
    have hx : p0 ≠ x := fun he => hb (he ▸ List.mem_cons_self x b')
    have hb' : p0 ∉ b' := fun hm => hb (List.mem_cons_of_mem x hm)
    have hstep : (x :: b') ++ (p0 :: pt) ++ c = x :: (b' ++ (p0 :: pt) ++ c) := by
      simp [List.append_assoc]
    rw [hstep]
    have hp : (p0 :: pt).isPrefixOf (x :: (b' ++ (p0 :: pt) ++ c)) = false := by
      rw [isPrefixOf_cons_eq]
      simp [hx]
    simp only [splitAtSub, hp]
    have hrec := ih c hb'
    simp only [List.append_assoc, List.cons_append] at hrec ⊢
    simp [hrec]

theorem tryWrap_some_head {p0 : Char} {pt pre post : Chars} :
    ∀ u o r, tryWrap (p0 :: pt) pre post u = some (o, r) → u.head? = some p0 := by
  intro u o r h
  simp only [tryWrap] at h
  split at h
  · rename_i hp
    obtain ⟨t, ht⟩ := List.isPrefixOf_iff_prefix.mp hp
    rw [← ht]
    rfl
  · cases h

theorem tryWrap_trigger {p0 : Char} {pt pre post : Chars} :
    ∀ u o r, tryWrap (p0 :: pt) pre post u = some (o, r) → p0 ∈ u := by
  intro u o r h
  have := tryWrap_some_head u o r h
  cases u with
  | nil => cases this
  | cons x xs =>
    simp only [List.head?] at this
    cases this
    exact List.mem_cons_self _ _

theorem tryWrap_consumes (delim pre post : Chars) (hd : delim ≠ []) :
    Consumes (tryWrap delim pre post) := by
  intro u o r h
  simp only [tryWrap] at h
  split at h
  · rename_i hp
    cases hsp : splitAtSub delim (u.drop delim.length) with
    | none => rw [hsp] at h; cases h
    | some pr =>
      rw [hsp] at h
      obtain ⟨mid, rest⟩ := pr
      cases h
      have hdec := splitAtSub_eq delim _ _ _ hsp
      obtain ⟨t, ht⟩ := List.isPrefixOf_iff_prefix.mp hp
      have hle : delim.length ≤ u.length := by
        rw [← ht]; simp [List.length_append]
      have hlenu : u.length = delim.length + (u.drop delim.length).length := by
        simp only [List.length_drop]
        omega
      have hlend := congrArg List.length hdec
      simp only [List.length_append] at hlend
      have : 0 < delim.length := List.length_pos.mpr hd
      omega
  · cases h

/-- C4 amended, part of the pipeline that does hold: the code-block stage
itself wraps the fenced content verbatim in `<pre><code>...</code></pre>`
(the fence delimiters are consumed, the enclosed text is copied
unchanged). -/
theorem scanAll_wrap_shape (p0 : Char) (pt pre post : Chars) :
    ∀ (a b c : Chars), p0 ∉ a → p0 ∉ b →
      scanAll (tryWrap (p0 :: pt) pre post) (a ++ (p0 :: pt) ++ b ++ (p0 :: pt) ++ c) =
        a ++ pre ++ b ++ post ++ scanAll (tryWrap (p0 :: pt) pre post) c := by
  intro a b c ha hb
  have ht : Consumes (tryWrap (p0 :: pt) pre post) :=
    tryWrap_consumes _ _ _ (List.cons_ne_nil p0 pt)
  have hfire : tryWrap (p0 :: pt) pre post ((p0 :: pt) ++ (b ++ ((p0 :: pt) ++ c)))
      = some (pre ++ b ++ post, c) := by
    simp only [tryWrap]
    have hp : (p0 :: pt).isPrefixOf ((p0 :: pt) ++ (b ++ ((p0 :: pt) ++ c))) = true :=
      List.isPrefixOf_iff_prefix.mpr (List.prefix_append _ _)
    simp only [hp, List.drop_left, true_and, if_true]
    have hsp := splitAtSub_append_first pt b c hb
    simp only [List.append_assoc, List.cons_append] at hsp
    simp [hsp]
  have hT : a ++ (p0 :: pt) ++ b ++ (p0 :: pt) ++ c =
      a ++ ((p0 :: pt) ++ (b ++ ((p0 :: pt) ++ c))) := by
    simp [List.append_assoc]
  have hskip : ∀ u, u <:+ a ++ ((p0 :: pt) ++ (b ++ ((p0 :: pt) ++ c))) →
      ((p0 :: pt) ++ (b ++ ((p0 :: pt) ++ c))).length < u.length →
      tryWrap (p0 :: pt) pre post u = none := by
    intro u hu hlen
    rcases suffix_append_cases hu with h1 | ⟨a', ha', hne, rfl⟩
    · exact absurd h1.length_le (by omega)
    · cases a' with
      | nil => exact absurd rfl hne
      | cons x a'' =>
        cases heq : tryWrap (p0 :: pt) pre post
            ((x :: a'') ++ ((p0 :: pt) ++ (b ++ ((p0 :: pt) ++ c)))) with
        | none => rfl
        | some pr =>
          have hhead := tryWrap_some_head _ pr.1 pr.2 (by simpa using heq)
          simp only [List.cons_append, List.head?] at hhead
          cases hhead
          exact absurd (ha'.subset (List.mem_cons_self _ _)) (fun hm => ha hm)
  have step1 := scanF_skip (tryWrap (p0 :: pt) pre post) ht a
    ((p0 :: pt) ++ (b ++ ((p0 :: pt) ++ c)))
    (a ++ ((p0 :: pt) ++ (b ++ ((p0 :: pt) ++ c)))).length le_rfl hskip
  have step2 : scanF (tryWrap (p0 :: pt) pre post)
      ((p0 :: pt) ++ (b ++ ((p0 :: pt) ++ c))).length
      ((p0 :: pt) ++ (b ++ ((p0 :: pt) ++ c))) =
      pre ++ b ++ post ++
        scanF (tryWrap (p0 :: pt) pre post) c.length c := by
    have hlen : ((p0 :: pt) ++ (b ++ ((p0 :: pt) ++ c))).length =
        (pt ++ (b ++ ((p0 :: pt) ++ c))).length + 1 := by
      simp [List.length_append]
    have hunfold : scanF (tryWrap (p0 :: pt) pre post)
        ((pt ++ (b ++ ((p0 :: pt) ++ c))).length + 1)
        (p0 :: (pt ++ (b ++ ((p0 :: pt) ++ c)))) =
        (pre ++ b ++ post) ++ scanF (tryWrap (p0 :: pt) pre post)
          (pt ++ (b ++ ((p0 :: pt) ++ c))).length c := by
      have hfire' := hfire
      simp only [List.cons_append] at hfire'
      simp [scanF, hfire']
    have hc : c.length ≤ (pt ++ (b ++ ((p0 :: pt) ++ c))).length := by
      simp [List.length_append]
      omega
    show scanF (tryWrap (p0 :: pt) pre post)
        ((p0 :: pt) ++ (b ++ ((p0 :: pt) ++ c))).length
        (p0 :: (pt ++ (b ++ ((p0 :: pt) ++ c)))) =
      pre ++ b ++ post ++ scanF (tryWrap (p0 :: pt) pre post) c.length c
    rw [hlen, hunfold,
      scanF_fuel (tryWrap (p0 :: pt) pre post) ht _ c.length c hc le_rfl]
  rw [scanAll, hT, step1, step2, scanAll]
  simp [List.append_assoc]

/-- C4 amended, the part that holds: the code-block stage wraps the
fenced content verbatim (the fences consumed, the enclosed text copied
unchanged into `<pre><code>...</code></pre>`). -/
theorem C4_fence_wraps_content_verbatim :
    ∀ (a b c : Chars), '`' ∉ a → '`' ∉ b →
      replaceCodeBlocks (a ++ "```".toList ++ b ++ "```".toList ++ c) =
        a ++ "<pre><code>".toList ++ b ++ "</code></pre>".toList ++
          replaceCodeBlocks c := by
  intro a b c ha hb
  have h := scanAll_wrap_shape '`' "``".toList "<pre><code>".toList
    "</code></pre>".toList a b c ha hb
  exact h

theorem C4_fence_witness :
    ('`' ∉ "x ".toList ∧ '`' ∉ "let y".toList) ∧
    replaceCodeBlocks ("x ".toList ++ "```".toList ++ "let y".toList ++ "```".toList ++ "z".toList) =
      "x ".toList ++ "<pre><code>".toList ++ "let y".toList ++ "</code></pre>".toList ++
        replaceCodeBlocks "z".toList :=
  ⟨⟨by decide, by decide⟩,
   C4_fence_wraps_content_verbatim "x ".toList "let y".toList "z".toList (by decide) (by decide)⟩

/-- C4 fails as stated: the stages after the code-block stage still
rewrite recognized syntax inside the emitted code-block element — bold
markers inside a fence become a strong element nested in the code block. -/
theorem C4_later_stages_rewrite_inside_code_block :
    parseMarkdown "```**b**```".toList =
      "<pre><code><strong>b</strong></code></pre>".toList ∧
    parseMarkdown "```**b**```".toList ≠ "<pre><code>**b**</code></pre>".toList := by
  constructor
  · rfl
  · decide

/-! ## Claim C3: plain prose passes through with line-break substitution

A conservative decidable formalization of "contains no recognized
markdown syntax and none of the presentational patterns": every character
is ASCII and none of the stage trigger characters occur. -/

def mdBanned : Chars := ['`', '*', '#', '[', '>', '<', '-', '=', ':']

def mdSafeChar (c : Char) : Bool := decide (c.toNat < 128) && !(c ∈ mdBanned)

def noMarkdown (s : Chars) : Bool := s.all mdSafeChar

/-- The line-terminator structure of the input: ordinary characters,
single terminators (line breaks) and double terminators (paragraph
breaks), exactly as the two marker replacements of stage 9 pair them up
left to right. -/
inductive MdPiece where
  | ch (c : Char) : MdPiece
  | brkL : MdPiece
  | brkP : MdPiece

def pieces : Chars → List MdPiece
  | [] => []
  | c :: cs =>
    if c = '\n' then
      match cs with
      | d :: cs' => if d = '\n' then .brkP :: pieces cs' else .brkL :: pieces (d :: cs')
      | [] => [.brkL]
    else .ch c :: pieces cs

def flatPieces (f : MdPiece → Chars) : List MdPiece → Chars
  | [] => []
  | p :: ps => f p ++ flatPieces f ps

/-- State after the first line-break pass (only `\n\n` replaced). -/
def flatMid1 : MdPiece → Chars
  | .ch c => [c]
  | .brkL => ['\n']
  | .brkP => brP

/-- State after stage 9 (both markers inserted). -/
def flatMid : MdPiece → Chars
  | .ch c => [c]
  | .brkL => brL
  | .brkP => brP

/-- State after the paragraph markers become spacing divs (line 392). -/
def flatMid2 : MdPiece → Chars
  | .ch c => [c]
  | .brkL => brL
  | .brkP => pdiv

/-- Final state (line 393). -/
def flatEnd : MdPiece → Chars
  | .ch c => [c]
  | .brkL => ldiv
  | .brkP => pdiv

def goodPiece : MdPiece → Bool
  | .ch c => mdSafeChar c && (c != '\n')
  | _ => true

def goodPieces (ps : List MdPiece) : Bool := ps.all goodPiece

theorem scanF_nil (t : TryFn) (n : Nat) : scanF t n [] = [] := by
  cases n <;> rfl

theorem noMarkdown_not_mem {s : Chars} {c : Char} (h : noMarkdown s = true)
    (hc : mdSafeChar c = false) : c ∉ s := by
  intro hm
  have := List.all_eq_true.mp h c hm
  rw [hc] at this
  cases this

theorem take_of_append_le {l m : Chars} {k : Nat} (hk : k ≤ l.length) :
    (l ++ m).take k = l.take k := by
  rw [List.take_append_eq_append_take]
  simp [Nat.sub_eq_zero_of_le hk]

theorem take_of_prefix {pat y : Chars} {k : Nat} (h : pat <+: y) (hk : k ≤ pat.length) :
    pat.take k = y.take k := by
  obtain ⟨t, rfl⟩ := h
  rw [take_of_append_le hk]

theorem not_isPrefixOf_append {pat A : Chars} (x : Chars) (k : Nat)
    (hk : k ≤ A.length) (hk2 : k ≤ pat.length) (hne : pat.take k ≠ A.take k) :
    pat.isPrefixOf (A ++ x) = false := by
  cases hp : pat.isPrefixOf (A ++ x) with
  | false => rfl
  | true =>
    have := take_of_prefix (List.isPrefixOf_iff_prefix.mp hp) hk2
    rw [take_of_append_le hk] at this
    exact absurd this hne

/-- Decidable sufficient condition that no occurrence of `pat` can start
strictly inside `marker` or at its start: every non-empty suffix of the
marker disagrees with `pat` on some shared initial segment. -/
abbrev NoStartInside (pat marker : Chars) : Prop :=
  ∀ a' ∈ marker.tails, a' = [] ∨
    ∃ k, k < pat.length + 1 ∧ (k ≤ a'.length ∧ pat.take k ≠ a'.take k)

theorem tryLit_none_inside {pat marker : Chars} (hcond : NoStartInside pat marker)
    {a' : Chars} (ha : a' <:+ marker) (hne : a' ≠ []) (rep y : Chars) :
    tryLit pat rep (a' ++ y) = none := by
  rcases hcond a' ((List.mem_tails a' marker).mpr ha) with h | ⟨k, hk1, hk2, hkne⟩
  · exact absurd h hne
  · simp only [tryLit]
    rw [not_isPrefixOf_append y k hk2 (by omega) hkne]
    simp

theorem isPrefixOf_some_head {m0 : Char} {mt l : Chars}
    (h : (m0 :: mt).isPrefixOf l = true) : l.head? = some m0 := by
  obtain ⟨t, ht⟩ := List.isPrefixOf_iff_prefix.mp h
  rw [← ht]
  rfl

theorem tryLit_none_head {p0 : Char} {pt rep : Chars} {c : Char}
    (hc : c ≠ p0) (y : Chars) : tryLit (p0 :: pt) rep (c :: y) = none := by
  simp only [tryLit, isPrefixOf_cons_eq]
  have : (p0 == c) = false := by simp [Ne.symm hc]
  simp [this]

theorem mem_flatPieces {f : MdPiece → Chars} :
    ∀ {ps : List MdPiece} {c : Char}, c ∈ flatPieces f ps → ∃ p ∈ ps, c ∈ f p := by
  intro ps
  induction ps with
  | nil => intro c h; cases h
  | cons p ps' ih =>
    intro c h
    rcases List.mem_append.mp h with h1 | h1
    · exact ⟨p, List.mem_cons_self _ _, h1⟩
    · obtain ⟨q, hq, hcq⟩ := ih h1
      exact ⟨q, List.mem_cons_of_mem _ hq, hcq⟩


theorem scanF_cons_none {t : TryFn} {c : Char} {cs : Chars}
    (h : t (c :: cs) = none) (n : Nat) :
    scanF t (n + 1) (c :: cs) = c :: scanF t n cs := by
  simp [scanF, h]

theorem scanF_cons_some {t : TryFn} {c : Char} {cs out rest : Chars}
    (h : t (c :: cs) = some (out, rest)) (n : Nat) :
    scanF t (n + 1) (c :: cs) = out ++ scanF t n rest := by
  simp [scanF, h]

theorem goodPieces_head {p : MdPiece} {ps : List MdPiece}
    (h : goodPieces (p :: ps) = true) : goodPiece p = true :=
  List.all_eq_true.mp h p (List.mem_cons_self _ _)

theorem goodPieces_tail {p : MdPiece} {ps : List MdPiece}
    (h : goodPieces (p :: ps) = true) : goodPieces ps = true :=
  List.all_eq_true.mpr fun x hx => List.all_eq_true.mp h x (List.mem_cons_of_mem _ hx)

theorem goodPiece_ch_safe {c : Char} (h : goodPiece (.ch c) = true) :
    mdSafeChar c = true := by
  simp only [goodPiece, Bool.and_eq_true] at h
  exact h.1

theorem goodPiece_ch_not_newline {c : Char} (h : goodPiece (.ch c) = true) :
    c ≠ '\n' := by
  simp only [goodPiece, Bool.and_eq_true, bne_iff_ne] at h
  exact h.2

theorem safeChar_ne {c b : Char} (h : mdSafeChar c = true)
    (hb : mdSafeChar b = false) : c ≠ b := by
  intro he
  rw [he, hb] at h
  cases h

theorem flatPieces_cons (f : MdPiece → Chars) (p : MdPiece) (ps : List MdPiece) :
    flatPieces f (p :: ps) = f p ++ flatPieces f ps := rfl

/-- Stage 9, first replacement (line 358): `\n\n` pairs become paragraph
markers, left to right, exactly as the piece decomposition pairs them. -/
theorem pass1 : ∀ (n : Nat) (s : Chars), s.length ≤ n →
    scanF (tryLit "\n\n".toList brP) n s = flatPieces flatMid1 (pieces s) := by
  intro n
  induction n with
  | zero =>
    intro s hs
    have : s = [] := List.length_eq_zero.mp (Nat.le_zero.mp hs)
    subst this
    rfl
  | succ n ih =>
    intro s hs
    cases s with
    | nil => rfl
    | cons c cs =>
      by_cases hc : c = '\n'
      · subst hc
        cases cs with
        | nil =>
          have ht : tryLit "\n\n".toList brP ['\n'] = none := by decide
          rw [scanF_cons_none ht n, scanF_nil]
          rfl
        | cons d cs' =>
          by_cases hd : d = '\n'
          · subst hd
            have ht : tryLit "\n\n".toList brP ('\n' :: '\n' :: cs') = some (brP, cs') := by
              simp [tryLit, List.isPrefixOf]
            rw [scanF_cons_some ht n]
            have hlen : cs'.length ≤ n := by simp at hs; omega
            rw [ih cs' hlen]
            have hp : pieces ('\n' :: '\n' :: cs') = .brkP :: pieces cs' := by
              rw [pieces.eq_def]
              simp
            rw [hp]
            rfl
          · have ht : tryLit "\n\n".toList brP ('\n' :: d :: cs') = none := by
              have hdd : ('\n' == d) = false := by simp [Ne.symm hd]
              simp [tryLit, List.isPrefixOf, hdd]
            rw [scanF_cons_none ht n]
            have hlen : (d :: cs').length ≤ n := by
              simp only [List.length_cons] at hs ⊢
              omega
            rw [ih (d :: cs') hlen]
            have hp : pieces ('\n' :: d :: cs') = .brkL :: pieces (d :: cs') := by
              rw [pieces.eq_def]
              simp [hd]
            rw [hp]
            rfl
      · have ht : tryLit "\n\n".toList brP (c :: cs) = none := by
          rw [show "\n\n".toList = '\n' :: ['\n'] from rfl]
          exact tryLit_none_head hc cs
        rw [scanF_cons_none ht n]
        have hlen : cs.length ≤ n := by simp at hs; omega
        rw [ih cs hlen]
        have hp : pieces (c :: cs) = .ch c :: pieces cs := by
          rw [pieces.eq_def]
          simp [hc]
        rw [hp]
        rfl

/-- Stage 9, second replacement (line 360): remaining single `\n` become
line-break markers; the paragraph markers contain no `\n` and are copied
verbatim. -/
theorem pass2 : ∀ (ps : List MdPiece), goodPieces ps = true →
    ∀ (n : Nat), (flatPieces flatMid1 ps).length ≤ n →
      scanF (tryLit "\n".toList brL) n (flatPieces flatMid1 ps) =
        flatPieces flatMid ps := by
  intro ps
  induction ps with
  | nil => intro _ n _; exact scanF_nil _ n
  | cons p ps' ih =>
    intro hg n hn
    have hg' : goodPieces ps' = true := goodPieces_tail hg
    cases p with
    | ch c =>
      have hcn : c ≠ '\n' := goodPiece_ch_not_newline (goodPieces_head hg)
      have hne : flatPieces flatMid1 (.ch c :: ps') = c :: flatPieces flatMid1 ps' := rfl
      rw [hne] at hn ⊢
      cases n with
      | zero => exact absurd hn (by simp)
      | succ n =>
        have ht : tryLit "\n".toList brL (c :: flatPieces flatMid1 ps') = none := by
          rw [show "\n".toList = '\n' :: [] from rfl]
          exact tryLit_none_head hcn _
        rw [scanF_cons_none ht n]
        rw [ih hg' n (by simp at hn; omega)]
        rfl
    | brkL =>
      have hne : flatPieces flatMid1 (.brkL :: ps') = '\n' :: flatPieces flatMid1 ps' := rfl
      rw [hne] at hn ⊢
      cases n with
      | zero => exact absurd hn (by simp)
      | succ n =>
        have ht : tryLit "\n".toList brL ('\n' :: flatPieces flatMid1 ps') =
            some (brL, flatPieces flatMid1 ps') := by
          simp [tryLit, List.isPrefixOf]
        rw [scanF_cons_some ht n]
        rw [ih hg' n (by simp at hn; omega)]
        rfl
    | brkP =>
      have hne : flatPieces flatMid1 (.brkP :: ps') = brP ++ flatPieces flatMid1 ps' := rfl
      rw [hne] at hn ⊢
      have hskip : ∀ u, u <:+ brP ++ flatPieces flatMid1 ps' →
          (flatPieces flatMid1 ps').length < u.length →
          tryLit "\n".toList brL u = none := by
        intro u hu hlen
        rcases suffix_append_cases hu with h1 | ⟨a', ha', hane, rfl⟩
        · exact absurd h1.length_le (by omega)
        · exact tryLit_none_inside (by decide) ha' hane _ _
      rw [scanF_skip _ (tryLit_consumes _ _) brP _ n hn hskip]
      rw [ih hg' _ le_rfl]
      rfl

/-- The paragraph-marker replacement (line 392): paragraph markers become
spacing divs; line-break markers and safe characters are untouched. -/
theorem passP : ∀ (ps : List MdPiece), goodPieces ps = true →
    ∀ (n : Nat), (flatPieces flatMid ps).length ≤ n →
      scanF (tryLit brP pdiv) n (flatPieces flatMid ps) =
        flatPieces flatMid2 ps := by
  intro ps
  induction ps with
  | nil => intro _ n _; exact scanF_nil _ n
  | cons p ps' ih =>
    intro hg n hn
    have hg' : goodPieces ps' = true := goodPieces_tail hg
    cases p with
    | ch c =>
      have hcn : c ≠ '<' :=
        safeChar_ne (goodPiece_ch_safe (goodPieces_head hg)) (by decide)
      have hne : flatPieces flatMid (.ch c :: ps') = c :: flatPieces flatMid ps' := rfl
      rw [hne] at hn ⊢
      cases n with
      | zero => exact absurd hn (by simp)
      | succ n =>
        have ht : tryLit brP pdiv (c :: flatPieces flatMid ps') = none := by
          rw [show brP = '<' :: "br class=\"paragraph-break\">".toList from rfl]
          exact tryLit_none_head hcn _
        rw [scanF_cons_none ht n]
        rw [ih hg' n (by simp at hn; omega)]
        rfl
    | brkL =>
      have hne : flatPieces flatMid (.brkL :: ps') = brL ++ flatPieces flatMid ps' := rfl
      rw [hne] at hn ⊢
      have hskip : ∀ u, u <:+ brL ++ flatPieces flatMid ps' →
          (flatPieces flatMid ps').length < u.length →
          tryLit brP pdiv u = none := by
        intro u hu hlen
        rcases suffix_append_cases hu with h1 | ⟨a', ha', hane, rfl⟩
        · exact absurd h1.length_le (by omega)
        · exact tryLit_none_inside (by decide) ha' hane _ _
      rw [scanF_skip _ (tryLit_consumes _ _) brL _ n hn hskip]
      rw [ih hg' _ le_rfl]
      rfl
    | brkP =>
      have hne : flatPieces flatMid (.brkP :: ps') = brP ++ flatPieces flatMid ps' := rfl
      rw [hne] at hn ⊢
      have hfire : tryLit brP pdiv (brP ++ flatPieces flatMid ps') =
          some (pdiv, flatPieces flatMid ps') := by
        simp only [tryLit]
        have hp : brP.isPrefixOf (brP ++ flatPieces flatMid ps') = true :=
          List.isPrefixOf_iff_prefix.mpr (List.prefix_append _ _)
        simp [hp, List.drop_left, show brP ≠ [] by decide]
      have hfire' : tryLit brP pdiv
          ('<' :: ("br class=\"paragraph-break\">".toList ++ flatPieces flatMid ps')) =
          some (pdiv, flatPieces flatMid ps') := hfire
      have hlb : (brP ++ flatPieces flatMid ps').length =
          28 + (flatPieces flatMid ps').length := by
        have h28 : brP.length = 28 := by decide
        simp [List.length_append, h28]
      cases n with
      | zero => rw [hlb] at hn; omega
      | succ n =>
        show scanF (tryLit brP pdiv) (n + 1)
          ('<' :: ("br class=\"paragraph-break\">".toList ++ flatPieces flatMid ps')) =
          pdiv ++ flatPieces flatMid2 ps'
        rw [scanF_cons_some hfire' n]
        have hlen : (flatPieces flatMid ps').length ≤ n := by
          rw [hlb] at hn; omega
        rw [scanF_fuel _ (tryLit_consumes _ _) n (flatPieces flatMid ps').length _ hlen le_rfl]
        rw [ih hg' _ le_rfl]

/-- The line-break-marker replacement (line 393): remaining markers become
tight spacing divs; the paragraph divs are skipped verbatim. -/
theorem passL : ∀ (ps : List MdPiece), goodPieces ps = true →
    ∀ (n : Nat), (flatPieces flatMid2 ps).length ≤ n →
      scanF (tryLit brL ldiv) n (flatPieces flatMid2 ps) =
        flatPieces flatEnd ps := by
  intro ps
  induction ps with
  | nil => intro _ n _; exact scanF_nil _ n
  | cons p ps' ih =>
    intro hg n hn
    have hg' : goodPieces ps' = true := goodPieces_tail hg
    cases p with
    | ch c =>
      have hcn : c ≠ '<' :=
        safeChar_ne (goodPiece_ch_safe (goodPieces_head hg)) (by decide)
      have hne : flatPieces flatMid2 (.ch c :: ps') = c :: flatPieces flatMid2 ps' := rfl
      rw [hne] at hn ⊢
      cases n with
      | zero => exact absurd hn (by simp)
      | succ n =>
        have ht : tryLit brL ldiv (c :: flatPieces flatMid2 ps') = none := by
          rw [show brL = '<' :: "br class=\"line-break\">".toList from rfl]
          exact tryLit_none_head hcn _
        rw [scanF_cons_none ht n]
        rw [ih hg' n (by simp at hn; omega)]
        rfl
    | brkL =>
      have hne : flatPieces flatMid2 (.brkL :: ps') = brL ++ flatPieces flatMid2 ps' := rfl
      rw [hne] at hn ⊢
      have hfire : tryLit brL ldiv (brL ++ flatPieces flatMid2 ps') =
          some (ldiv, flatPieces flatMid2 ps') := by
        simp only [tryLit]
        have hp : brL.isPrefixOf (brL ++ flatPieces flatMid2 ps') = true :=
          List.isPrefixOf_iff_prefix.mpr (List.prefix_append _ _)
        simp [hp, List.drop_left, show brL ≠ [] by decide]
      have hfire' : tryLit brL ldiv
          ('<' :: ("br class=\"line-break\">".toList ++ flatPieces flatMid2 ps')) =
          some (ldiv, flatPieces flatMid2 ps') := hfire
      have hlb : (brL ++ flatPieces flatMid2 ps').length =
          23 + (flatPieces flatMid2 ps').length := by
        have h23 : brL.length = 23 := by decide
        simp [List.length_append, h23]
      cases n with
      | zero => rw [hlb] at hn; omega
      | succ n =>
        show scanF (tryLit brL ldiv) (n + 1)
          ('<' :: ("br class=\"line-break\">".toList ++ flatPieces flatMid2 ps')) =
          ldiv ++ flatPieces flatEnd ps'
        rw [scanF_cons_some hfire' n]
        have hlen : (flatPieces flatMid2 ps').length ≤ n := by
          rw [hlb] at hn; omega
        rw [scanF_fuel _ (tryLit_consumes _ _) n (flatPieces flatMid2 ps').length _ hlen le_rfl]
        rw [ih hg' _ le_rfl]
    | brkP =>
      have hne : flatPieces flatMid2 (.brkP :: ps') = pdiv ++ flatPieces flatMid2 ps' := rfl
      rw [hne] at hn ⊢
      have hskip : ∀ u, u <:+ pdiv ++ flatPieces flatMid2 ps' →
          (flatPieces flatMid2 ps').length < u.length →
          tryLit brL ldiv u = none := by
        intro u hu hlen
        rcases suffix_append_cases hu with h1 | ⟨a', ha', hane, rfl⟩
        · exact absurd h1.length_le (by omega)
        · exact tryLit_none_inside (by decide) ha' hane _ _
      rw [scanF_skip _ (tryLit_consumes _ _) pdiv _ n hn hskip]
      rw [ih hg' _ le_rfl]
      rfl

theorem scanAll_wrap_noop (p0 : Char) (pt pre post : Chars) {s : Chars}
    (hs : p0 ∉ s) : scanAll (tryWrap (p0 :: pt) pre post) s = s :=
  scanAll_noop _ _ (try_none_of_trigger tryWrap_trigger hs)

theorem replaceCodeBlocks_noop {s : Chars} (h : noMarkdown s = true) :
    replaceCodeBlocks s = s := by
  rw [replaceCodeBlocks, show "```".toList = '`' :: "``".toList from rfl]
  exact scanAll_wrap_noop _ _ _ _ (noMarkdown_not_mem h (by decide))

theorem replaceBold_noop {s : Chars} (h : noMarkdown s = true) :
    replaceBold s = s := by
  rw [replaceBold, show "**".toList = '*' :: "*".toList from rfl]
  exact scanAll_wrap_noop _ _ _ _ (noMarkdown_not_mem h (by decide))

theorem replaceItalic_noop {s : Chars} (h : noMarkdown s = true) :
    replaceItalic s = s := by
  rw [replaceItalic, show "*".toList = '*' :: "".toList from rfl]
  exact scanAll_wrap_noop _ _ _ _ (noMarkdown_not_mem h (by decide))

theorem mem_intersperse_of_mem {sep : Chars} :
    ∀ {xs : List Chars} {l : Chars}, l ∈ xs → l ∈ xs.intersperse sep := by
  intro xs
  induction xs with
  | nil => intro l h; cases h
  | cons p xs' ih =>
    intro l h
    cases xs' with
    | nil => simpa using h
    | cons q xs'' =>
      rcases List.mem_cons.mp h with rfl | h1
      · exact List.mem_cons_self _ _
      · exact List.mem_cons_of_mem _ (List.mem_cons_of_mem _ (ih h1))

theorem mem_splitOn_chars {s l : Chars} {x : Char}
    (hl : l ∈ s.splitOn '\n') (hx : x ∈ l) : x ∈ s := by
  have hs := List.intercalate_splitOn s '\n'
  rw [← hs]
  unfold List.intercalate
  exact List.mem_join.mpr ⟨l, mem_intersperse_of_mem hl, hx⟩

theorem mapLines_id {f : Chars → Chars} {s : Chars}
    (h : ∀ l ∈ s.splitOn '\n', f l = l) : mapLines f s = s := by
  unfold mapLines joinLines splitLines
  rw [List.map_congr_left h, List.map_id']
  exact List.intercalate_splitOn s '\n'

theorem replaceHr_noop {s : Chars} (h : noMarkdown s = true) : replaceHr s = s := by
  apply mapLines_id
  intro l hl
  have hline : isHrLine l = false := by
    cases l with
    | nil => rfl
    | cons c rest =>
      have hc : c ∈ s := mem_splitOn_chars hl (List.mem_cons_self _ _)
      have hsafe := List.all_eq_true.mp h c hc
      have h1 : c ≠ '-' := safeChar_ne hsafe (by decide)
      have h2 : c ≠ '=' := safeChar_ne hsafe (by decide)
      simp [isHrLine, h1, h2]
  simp [hline]

theorem headerLine_id {m0 : Char} {mt pre post l : Chars} (h : l.head? ≠ some m0) :
    headerLine (m0 :: mt) pre post l = l := by
  unfold headerLine
  cases hp : (m0 :: mt).isPrefixOf l
  · simp
  · exact absurd (isPrefixOf_some_head hp) h

theorem header_head_safe {s l : Chars} (h : noMarkdown s = true)
    (hl : l ∈ s.splitOn '\n') : l.head? ≠ some '#' := by
  cases l with
  | nil => simp
  | cons c rest =>
    have hc : c ∈ s := mem_splitOn_chars hl (List.mem_cons_self _ _)
    have hsafe := List.all_eq_true.mp h c hc
    have h1 : c ≠ '#' := safeChar_ne hsafe (by decide)
    simp [h1]

theorem replaceH3_noop {s : Chars} (h : noMarkdown s = true) : replaceH3 s = s := by
  apply mapLines_id
  intro l hl
  rw [show "### ".toList = '#' :: "## ".toList from rfl]
  exact headerLine_id (header_head_safe h hl)

theorem replaceH2_noop {s : Chars} (h : noMarkdown s = true) : replaceH2 s = s := by
  apply mapLines_id
  intro l hl
  rw [show "## ".toList = '#' :: "# ".toList from rfl]
  exact headerLine_id (header_head_safe h hl)

theorem replaceH1_noop {s : Chars} (h : noMarkdown s = true) : replaceH1 s = s := by
  apply mapLines_id
  intro l hl
  rw [show "# ".toList = '#' :: " ".toList from rfl]
  exact headerLine_id (header_head_safe h hl)

theorem replaceEmoji_noop {s : Chars} (h : noMarkdown s = true) :
    replaceEmoji s = s := by
  apply scanAll_noop
  intro u hu
  cases u with
  | nil => rfl
  | cons c cs =>
    have hc : c ∈ s := hu.subset (List.mem_cons_self _ _)
    have hsafe := List.all_eq_true.mp h c hc
    have hnm : c ∉ emojiClass := by
      intro hmem
      have hbig : ∀ x ∈ emojiClass, mdSafeChar x = false := by decide
      rw [hbig c hmem] at hsafe
      cases hsafe
    simp [tryEmoji, hnm]

theorem tryLink_some_mem : ∀ u o r, tryLink u = some (o, r) → '[' ∈ u := by
  intro u o r h
  simp only [tryLink] at h
  split at h
  · exact List.mem_cons_self _ _
  · cases h

theorem replaceLinks_noop {s : Chars} (h : noMarkdown s = true) :
    replaceLinks s = s :=
  scanAll_noop _ _
    (try_none_of_trigger tryLink_some_mem (noMarkdown_not_mem h (by decide)))

theorem bqScanF_noop : ∀ (n : Nat) (atLS : Bool) (s : Chars), '>' ∉ s →
    bqScanF n atLS s = s := by
  intro n
  induction n with
  | zero => intro _ s _; rfl
  | succ n ih =>
    intro atLS s hs
    cases s with
    | nil => rfl
    | cons c cs =>
      have hc : (c == '>') = false := by
        simp
        exact fun he => hs (he ▸ List.mem_cons_self c cs)
      have hcs : '>' ∉ cs := fun hm => hs (List.mem_cons_of_mem _ hm)
      unfold bqScanF
      simp [hc, ih _ cs hcs]

theorem replaceBlockquote_noop {s : Chars} (h : noMarkdown s = true) :
    replaceBlockquote s = s :=
  bqScanF_noop s.length true s (noMarkdown_not_mem h (by decide))

theorem noMarkdown_cons {c : Char} {cs : Chars} (h : noMarkdown (c :: cs) = true) :
    mdSafeChar c = true ∧ noMarkdown cs = true := by
  simpa [noMarkdown] using h

theorem goodPieces_cons {p : MdPiece} {ps : List MdPiece} :
    goodPieces (p :: ps) = (goodPiece p && goodPieces ps) := by
  simp [goodPieces]

theorem pieces_good : ∀ (n : Nat) (s : Chars), s.length ≤ n →
    noMarkdown s = true → goodPieces (pieces s) = true := by
  intro n
  induction n with
  | zero =>
    intro s hs _
    have : s = [] := List.length_eq_zero.mp (Nat.le_zero.mp hs)
    subst this
    rfl
  | succ n ih =>
    intro s hs hm
    cases s with
    | nil => rfl
    | cons c cs =>
      obtain ⟨hc1, hcs⟩ := noMarkdown_cons hm
      by_cases hc : c = '\n'
      · subst hc
        cases cs with
        | nil => rfl
        | cons d cs' =>
          obtain ⟨hd1, hcs'⟩ := noMarkdown_cons hcs
          by_cases hd : d = '\n'
          · subst hd
            have hp : pieces ('\n' :: '\n' :: cs') = .brkP :: pieces cs' := by
              rw [pieces.eq_def]
              simp
            rw [hp, goodPieces_cons]
            have hlen : cs'.length ≤ n := by simp at hs; omega
            simp [goodPiece, ih cs' hlen hcs']
          · have hp : pieces ('\n' :: d :: cs') = .brkL :: pieces (d :: cs') := by
              rw [pieces.eq_def]
              simp [hd]
            rw [hp, goodPieces_cons]
            have hlen : (d :: cs').length ≤ n := by
              simp only [List.length_cons] at hs ⊢
              omega
            simp [goodPiece, ih (d :: cs') hlen hcs]
      · have hp : pieces (c :: cs) = .ch c :: pieces cs := by
          rw [pieces.eq_def]
          simp [hc]
        rw [hp, goodPieces_cons]
        have hlen : cs.length ≤ n := by simp at hs; omega
        simp [goodPiece, hc1, hc, ih cs hlen hcs]

theorem flatMid_no_char {bad : Char} (hbad : mdSafeChar bad = false)
    (hL : bad ∉ brL) (hP : bad ∉ brP) {ps : List MdPiece}
    (hg : goodPieces ps = true) : bad ∉ flatPieces flatMid ps := by
  intro hm
  obtain ⟨p, hp, hcp⟩ := mem_flatPieces hm
  have hgp := List.all_eq_true.mp hg p hp
  cases p with
  | ch c =>
    have hbc : bad = c := by simpa [flatMid] using hcp
    have hc := goodPiece_ch_safe hgp
    rw [← hbc, hbad] at hc
    cases hc
  | brkL => exact hL (by simpa [flatMid] using hcp)
  | brkP => exact hP (by simpa [flatMid] using hcp)

theorem mem_of_head? {c : Char} {l : Chars} (h : l.head? = some c) : c ∈ l := by
  cases l with
  | nil => cases h
  | cons x xs =>
    simp only [List.head?] at h
    cases h
    exact List.mem_cons_self _ _

theorem tryFramed_trigger {g : Char} {startTail endSeq dp : Chars} :
    ∀ u o r, tryFramed (g :: startTail) endSeq dp u = some (o, r) → g ∈ u := by
  intro u o r h
  simp only [tryFramed] at h
  split at h
  · split at h
    · rename_i hst
      exact (List.drop_suffix _ _).subset (mem_of_head? (isPrefixOf_some_head hst))
    · cases h
  · cases h

theorem chain_mem_375 {u : Chars} {x : Char}
    (hx : x ∈ ((u.drop brL.length).dropWhile isJsWs).dropWhile isUpperAZ) : x ∈ u :=
  (List.drop_suffix _ _).subset
    ((List.dropWhile_suffix _).subset ((List.dropWhile_suffix _).subset hx))

theorem tryLabel375_trigger : ∀ u o r, tryLabel375 u = some (o, r) → ':' ∈ u := by
  intro u o r h
  simp only [tryLabel375] at h
  split at h
  · split at h
    · cases h
    · split at h
      · rename_i r3 heq
        exact chain_mem_375 (by rw [heq]; exact List.mem_cons_self _ _)
      · cases h
  · cases h

theorem tryStat383_trigger : ∀ u o r, tryStat383 u = some (o, r) → '‚' ∈ u := by
  intro u o r h
  simp only [tryStat383] at h
  split at h
  · split at h
    · rename_i hbl
      have hh := isPrefixOf_some_head hbl
      exact (List.drop_suffix _ _).subset
        ((List.dropWhile_suffix _).subset (mem_of_head? hh))
    · cases h
  · cases h

theorem tryStatWord387_trigger : ∀ u o r, tryStatWord387 u = some (o, r) → ':' ∈ u := by
  intro u o r h
  simp only [tryStatWord387] at h
  split at h
  · rename_i w heq
    have hpred := List.find?_some heq
    simp only [Bool.and_eq_true, beq_iff_eq] at hpred
    exact (List.drop_suffix _ _).subset (mem_of_head? hpred.2)
  · cases h

theorem head?_append_left {a : Chars} (x : Chars) (h : a ≠ []) :
    (a ++ x).head? = a.head? := by
  cases a with
  | nil => exact absurd rfl h
  | cons c cs => rfl

theorem suffix_singleton {c : Char} {a : Chars} (h : a <:+ [c]) (hne : a ≠ []) :
    a = [c] := by
  rcases List.suffix_cons_iff.mp h with h1 | h1
  · exact h1
  · exact absurd (List.suffix_nil.mp h1) hne

theorem brL_isPrefixOf_head {u : Chars} (h : brL.isPrefixOf u = true) :
    u.head? = some '<' := by
  rw [show brL = '<' :: "br class=\"line-break\">".toList from rfl] at h
  exact isPrefixOf_some_head h

/-- Every occurrence of the line-break marker in the marked-up string of a
good piece list is a genuine marker: the suffix starting there is the
marker followed by the flattening of a (good) piece-list suffix. -/
theorem suffix_flats_brL : ∀ (ps : List MdPiece), goodPieces ps = true →
    ∀ u, u <:+ flatPieces flatMid ps → brL.isPrefixOf u = true →
      ∃ qs, goodPieces qs = true ∧ u = brL ++ flatPieces flatMid qs := by
  intro ps
  induction ps with
  | nil =>
    intro _ u hu hbr
    have hnil : u = [] := List.suffix_nil.mp hu
    subst hnil
    exact absurd hbr (by decide)
  | cons p ps' ih =>
    intro hg u hu hbr
    have hg' := goodPieces_tail hg
    rcases suffix_append_cases (hu : u <:+ flatMid p ++ flatPieces flatMid ps') with
      h1 | ⟨a', ha', hne, rfl⟩
    · exact ih hg' u h1 hbr
    · cases p with
      | ch c =>
        have ha1 : a' = [c] := suffix_singleton (by simpa [flatMid] using ha') hne
        subst ha1
        have hhead := brL_isPrefixOf_head hbr
        rw [head?_append_left _ (by simp)] at hhead
        simp only [List.head?, Option.some.injEq] at hhead
        have hsafe := goodPiece_ch_safe (goodPieces_head hg)
        rw [hhead] at hsafe
        exact absurd hsafe (by decide)
      | brkL =>
        by_cases hfull : a' = brL
        · subst hfull
          exact ⟨ps', hg', rfl⟩
        · have htails : ∀ x ∈ brL.tails, x = [] ∨ x = brL ∨ x.head? ≠ some '<' := by
            decide
          have ha'' : a' ∈ brL.tails :=
            (List.mem_tails _ _).mpr (by simpa [flatMid] using ha')
          rcases htails a' ha'' with h1 | h1 | h1
          · exact absurd h1 hne
          · exact absurd h1 hfull
          · have hhead := brL_isPrefixOf_head hbr
            rw [head?_append_left _ hne] at hhead
            exact absurd hhead h1
      | brkP =>
        by_cases hfull : a' = brP
        · subst hfull
          have hno : brL.isPrefixOf (brP ++ flatPieces flatMid ps') = false := by
            apply not_isPrefixOf_append _ 12 (by decide) (by decide)
            decide
          rw [hno] at hbr
          cases hbr
        · have htails : ∀ x ∈ brP.tails, x = [] ∨ x = brP ∨ x.head? ≠ some '<' := by
            decide
          have ha'' : a' ∈ brP.tails :=
            (List.mem_tails _ _).mpr (by simpa [flatMid] using ha')
          rcases htails a' ha'' with h1 | h1 | h1
          · exact absurd h1 hne
          · exact absurd h1 hfull
          · have hhead := brL_isPrefixOf_head hbr
            rw [head?_append_left _ hne] at hhead
            exact absurd hhead h1

theorem flats_dropWhile_no_bullet : ∀ (qs : List MdPiece), goodPieces qs = true →
    ∀ c r, (flatPieces flatMid qs).dropWhile isJsWs = c :: r → c ∉ bulletClass := by
  intro qs
  induction qs with
  | nil =>
    intro _ c r h
    simp [flatPieces] at h
  | cons p qs' ih =>
    intro hg c r h
    have hg' := goodPieces_tail hg
    cases p with
    | ch c' =>
      have hflat : flatPieces flatMid (.ch c' :: qs') = c' :: flatPieces flatMid qs' := rfl
      rw [hflat, List.dropWhile_cons] at h
      by_cases hws : isJsWs c' = true
      · rw [if_pos hws] at h
        exact ih hg' c r h
      · rw [if_neg hws] at h
        have hcc : c' = c := by
          have := congrArg List.head? h
          simpa using this
        subst hcc
        have hsafe := goodPiece_ch_safe (goodPieces_head hg)
        intro hmem
        have hban : ∀ x ∈ bulletClass, mdSafeChar x = false := by decide
        rw [hban c' hmem] at hsafe
        cases hsafe
    | brkL =>
      have hflat : flatPieces flatMid (.brkL :: qs') =
          '<' :: ("br class=\"line-break\">".toList ++ flatPieces flatMid qs') := rfl
      rw [hflat, List.dropWhile_cons, if_neg (by decide)] at h
      have hcc : c = '<' := by
        have := congrArg List.head? h
        simpa using this.symm
      subst hcc
      decide
    | brkP =>
      have hflat : flatPieces flatMid (.brkP :: qs') =
          '<' :: ("br class=\"paragraph-break\">".toList ++ flatPieces flatMid qs') := rfl
      rw [hflat, List.dropWhile_cons, if_neg (by decide)] at h
      have hcc : c = '<' := by
        have := congrArg List.head? h
        simpa using this.symm
      subst hcc
      decide

theorem tryBullet379_none_flats {ps : List MdPiece} (hg : goodPieces ps = true) :
    ∀ u, u <:+ flatPieces flatMid ps → tryBullet379 u = none := by
  intro u hu
  cases hbr : brL.isPrefixOf u with
  | false => simp [tryBullet379, hbr]
  | true =>
    obtain ⟨qs, hqs, rfl⟩ := suffix_flats_brL ps hg u hu hbr
    cases hmatch : (flatPieces flatMid qs).dropWhile isJsWs with
    | nil => simp [tryBullet379, hbr, List.drop_left, hmatch]
    | cons c r =>
      have hnb := flats_dropWhile_no_bullet qs hqs c r hmatch
      simp [tryBullet379, hbr, List.drop_left, hmatch, hnb]

theorem projHeader365_noop {ps : List MdPiece} (hg : goodPieces ps = true) :
    projHeader365 (flatPieces flatMid ps) = flatPieces flatMid ps :=
  scanAll_noop _ _ (try_none_of_trigger tryFramed_trigger
    (flatMid_no_char (by decide) (by decide) (by decide) hg))

theorem projHeader368_noop {ps : List MdPiece} (hg : goodPieces ps = true) :
    projHeader368 (flatPieces flatMid ps) = flatPieces flatMid ps :=
  scanAll_noop _ _ (try_none_of_trigger tryFramed_trigger
    (flatMid_no_char (by decide) (by decide) (by decide) hg))

theorem projHeader371_noop {ps : List MdPiece} (hg : goodPieces ps = true) :
    projHeader371 (flatPieces flatMid ps) = flatPieces flatMid ps :=
  scanAll_noop _ _ (try_none_of_trigger tryFramed_trigger
    (flatMid_no_char (by decide) (by decide) (by decide) hg))

theorem statLabel375_noop {ps : List MdPiece} (hg : goodPieces ps = true) :
    statLabel375 (flatPieces flatMid ps) = flatPieces flatMid ps :=
  scanAll_noop _ _ (try_none_of_trigger tryLabel375_trigger
    (flatMid_no_char (by decide) (by decide) (by decide) hg))

theorem bulletLine379_noop {ps : List MdPiece} (hg : goodPieces ps = true) :
    bulletLine379 (flatPieces flatMid ps) = flatPieces flatMid ps :=
  scanAll_noop _ _ (tryBullet379_none_flats hg)

theorem statLine383_noop {ps : List MdPiece} (hg : goodPieces ps = true) :
    statLine383 (flatPieces flatMid ps) = flatPieces flatMid ps :=
  scanAll_noop _ _ (try_none_of_trigger tryStat383_trigger
    (flatMid_no_char (by decide) (by decide) (by decide) hg))

theorem statWords387_noop {ps : List MdPiece} (hg : goodPieces ps = true) :
    statWords387 (flatPieces flatMid ps) = flatPieces flatMid ps :=
  scanAll_noop _ _ (try_none_of_trigger tryStatWord387_trigger
    (flatMid_no_char (by decide) (by decide) (by decide) hg))

/-- Every `:` in the string is immediately followed by a space — true of
the rendered output of plain prose (the only colons come from the
`margin:` declarations of the spacing divs), and incompatible with the
`://` any URL match must consume. -/
def colonOkB : Chars → Bool
  | [] => true
  | c :: cs =>
    ((c != ':') || (match cs with | d :: _ => d == ' ' | [] => false)) && colonOkB cs

theorem colonOkB_tail {c : Char} {cs : Chars} (h : colonOkB (c :: cs) = true) :
    colonOkB cs = true := by
  simp only [colonOkB, Bool.and_eq_true] at h
  exact h.2

theorem colonOkB_suffix {s : Chars} (h : colonOkB s = true) :
    ∀ u, u <:+ s → colonOkB u = true := by
  induction s with
  | nil =>
    intro u hu
    rw [List.suffix_nil.mp hu]
    rfl
  | cons c cs ih =>
    intro u hu
    rcases List.suffix_cons_iff.mp hu with rfl | h1
    · exact h
    · exact ih (colonOkB_tail h) u h1

theorem colonOkB_colon_head {v : Chars} (h : colonOkB (':' :: v) = true) :
    v.head? = some ' ' := by
  simp only [colonOkB, Bool.and_eq_true] at h
  have h1 := h.1
  simp only [bne_self_eq_false, Bool.false_or] at h1
  cases v with
  | nil => cases h1
  | cons d vs =>
    simp only [beq_iff_eq] at h1
    simp [h1]

theorem colonOkB_append {B : Chars} (hB : colonOkB B = true) :
    ∀ {A : Chars}, colonOkB A = true → A.getLast? ≠ some ':' →
      colonOkB (A ++ B) = true := by
  intro A
  induction A with
  | nil => intro _ _; simpa using hB
  | cons a A' ih =>
    intro hA hlast
    cases A' with
    | nil =>
      have ha : a ≠ ':' := by
        intro he
        exact hlast (by simp [he])
      show colonOkB (a :: B) = true
      simp only [colonOkB, Bool.and_eq_true]
      exact ⟨by simp [ha], hB⟩
    | cons a2 A'' =>
      have hA' := colonOkB_tail hA
      have hlast' : (a2 :: A'').getLast? ≠ some ':' := by
        rwa [List.getLast?_cons_cons] at hlast
      have hrec := ih hA' hlast'
      have hfirst : ((a != ':') ||
          (match ((a2 :: A'') ++ B) with | d :: _ => d == ' ' | [] => false)) = true := by
        by_cases ha : a = ':'
        · subst ha
          have hsp := colonOkB_colon_head hA
          simp only [List.head?, Option.some.injEq] at hsp
          simp [hsp]
        · simp [ha]
      show colonOkB (a :: ((a2 :: A'') ++ B)) = true
      rw [show colonOkB (a :: ((a2 :: A'') ++ B)) =
        (((a != ':') || (match ((a2 :: A'') ++ B) with | d :: _ => d == ' ' | [] => false)) &&
          colonOkB ((a2 :: A'') ++ B)) from rfl]
      rw [hfirst, hrec]
      rfl

theorem colonOk_flatEnd : ∀ {ps : List MdPiece}, goodPieces ps = true →
    colonOkB (flatPieces flatEnd ps) = true := by
  intro ps
  induction ps with
  | nil => intro _; rfl
  | cons p ps' ih =>
    intro hg
    have hg' := goodPieces_tail hg
    rw [flatPieces_cons]
    cases p with
    | ch c =>
      have hc : c ≠ ':' :=
        safeChar_ne (goodPiece_ch_safe (goodPieces_head hg)) (by decide)
      apply colonOkB_append (ih hg')
      · show colonOkB [c] = true
        simp [colonOkB, hc]
      · show ([c] : Chars).getLast? ≠ some ':'
        simp
        exact hc
    | brkL =>
      apply colonOkB_append (ih hg')
      · decide
      · decide
    | brkP =>
      apply colonOkB_append (ih hg')
      · decide
      · decide

theorem tryUrl_none_of_colonOk {s : Chars} (hs : colonOkB s = true) :
    ∀ u, u <:+ s → tryUrl u = none := by
  intro u hu
  cases hstart : urlStart u with
  | none => simp [tryUrl, hstart]
  | some pr =>
    exfalso
    obtain ⟨sch, rest1⟩ := pr
    simp only [urlStart] at hstart
    split at hstart
    · rename_i hp
      obtain ⟨t, ht⟩ := List.isPrefixOf_iff_prefix.mp hp
      have hdrop : u.drop 5 = ':' :: '/' :: '/' :: t := by
        rw [← ht]
        rfl
      have hsuf : (':' :: '/' :: '/' :: t) <:+ s := by
        rw [← hdrop]
        exact (List.drop_suffix _ _).trans hu
      have hsp := colonOkB_colon_head (colonOkB_suffix hs _ hsuf)
      simp at hsp
    · split at hstart
      · rename_i hp
        obtain ⟨t, ht⟩ := List.isPrefixOf_iff_prefix.mp hp
        have hdrop : u.drop 4 = ':' :: '/' :: '/' :: t := by
          rw [← ht]
          rfl
        have hsuf : (':' :: '/' :: '/' :: t) <:+ s := by
          rw [← hdrop]
          exact (List.drop_suffix _ _).trans hu
        have hsp := colonOkB_colon_head (colonOkB_suffix hs _ hsuf)
        simp at hsp
      · cases hstart

theorem autoLinkF_noop : ∀ (n : Nat) (prev : Option Char) (s : Chars),
    (∀ u, u <:+ s → tryUrl u = none) → autoLinkF n prev s = s := by
  intro n
  induction n with
  | zero => intro _ s _; rfl
  | succ n ih =>
    intro prev s h
    cases s with
    | nil => rfl
    | cons c cs =>
      have hcs : ∀ u, u <:+ cs → tryUrl u = none := fun u hu =>
        h u (hu.trans (List.suffix_cons c cs))
      have h0 := h _ (List.suffix_refl (c :: cs))
      unfold autoLinkF
      by_cases hb : (prev == some '"' || prev == some '\'') = true
      · simp [hb, ih _ cs hcs]
      · simp only [Bool.not_eq_true] at hb
        simp [hb, h0, ih _ cs hcs]

/-- C3 fails as stated: `POINTS: 3` contains none of the markdown
constructs the claim lists (no fences, emphasis, headers, links,
blockquote or rule markers, glyphs, URLs, line terminators), yet the
stat-keyword stage (line 387) rewrites it into a styled div. -/
theorem C3_stat_keyword_rewrites_plain_text :
    renderMessage "POINTS: 3".toList ≠ "POINTS: 3".toList ∧
    renderMessage "POINTS: 3".toList =
      "<div style=\"font-weight: bold; color: #4b5563; margin: 8px 0 4px 0;\">POINTS:</div> 3".toList := by
  constructor
  · decide
  · rfl

/-- C3 amended: for every string all of whose characters are ASCII and
avoid the stage trigger characters (backtick, asterisk, hash, opening
bracket, angle brackets, dash, equals sign, colon), rendering is the
identity except that each pair of line terminators becomes a
paragraph-spacing block and each remaining line terminator a tight
line-spacing block; in particular the empty input renders empty. -/
theorem C3_plain_prose_linebreak_subst :
    ∀ s : Chars, noMarkdown s = true →
      renderMessage s = flatPieces flatEnd (pieces s) := by
  intro s h
  by_cases hs : s = []
  · subst hs
    rfl
  · have hgood : goodPieces (pieces s) = true := pieces_good s.length s le_rfl h
    have hpm : parseMarkdown s = replaceAll brL ldiv (replaceAll brP pdiv (statWords387 (statLine383 (bulletLine379 (statLabel375 (projHeader371 (projHeader368 (projHeader365 (replaceAll "\n".toList brL (replaceAll "\n\n".toList brP (replaceBlockquote (replaceLinks (replaceH1 (replaceH2 (replaceH3 (replaceEmoji (replaceHr (replaceItalic (replaceBold (replaceCodeBlocks (s))))))))))))))))))))) := by
      rw [parseMarkdown, if_neg hs]
    show autoLink (parseMarkdown s) = flatPieces flatEnd (pieces s)
    rw [hpm, replaceCodeBlocks_noop h, replaceBold_noop h, replaceItalic_noop h,
      replaceHr_noop h, replaceEmoji_noop h, replaceH3_noop h, replaceH2_noop h,
      replaceH1_noop h, replaceLinks_noop h, replaceBlockquote_noop h]
    rw [show replaceAll "\n\n".toList brP s = flatPieces flatMid1 (pieces s) from
      pass1 s.length s le_rfl]
    rw [show replaceAll "\n".toList brL (flatPieces flatMid1 (pieces s)) =
      flatPieces flatMid (pieces s) from pass2 _ hgood _ le_rfl]
    rw [projHeader365_noop hgood, projHeader368_noop hgood, projHeader371_noop hgood,
      statLabel375_noop hgood, bulletLine379_noop hgood, statLine383_noop hgood,
      statWords387_noop hgood]
    rw [show replaceAll brP pdiv (flatPieces flatMid (pieces s)) =
      flatPieces flatMid2 (pieces s) from passP _ hgood _ le_rfl]
    rw [show replaceAll brL ldiv (flatPieces flatMid2 (pieces s)) =
      flatPieces flatEnd (pieces s) from passL _ hgood _ le_rfl]
    exact autoLinkF_noop _ none _
      (tryUrl_none_of_colonOk (colonOk_flatEnd hgood))

def c3demo : Chars := "hello world\ngood\n\nbye".toList

theorem C3_witness :
    noMarkdown c3demo = true ∧
    renderMessage c3demo = flatPieces flatEnd (pieces c3demo) :=
  ⟨by decide, C3_plain_prose_linebreak_subst c3demo (by decide)⟩


/-! ### HTML fragment model

Modelled from the spec: `sanitizeHtml` (App.tsx 399-407) assigns the string to
`tempDiv.innerHTML` and reads `innerHTML` back, i.e. it round-trips the string
through the browser's HTML fragment parser and serializer.  The browser engine
is not part of src/, so the parser/serializer pair below is modelled from the
spec's description of that behaviour (spec 4.2): tag and attribute names are
lowercased, attribute values are requoted with double quotes, `& < >` in text
and `& "` in attribute values are (un)escaped via named character references,
unmatched markup is repaired (stray end tags dropped, unclosed elements closed
at the end), a `<` that does not begin a well-formed tag is literal text, void
elements take no end tag, and script elements created by fragment parsing are
marked already-started so they never execute. -/

inductive HNode where
  | text (s : Chars)
  | elem (tag : Chars) (attrs : List (Chars × Chars)) (started : Bool)
      (children : List HNode)
deriving Repr

inductive HTok where
  | htext (s : Chars)
  | hopen (tag : Chars) (attrs : List (Chars × Chars))
  | hclose (tag : Chars)
deriving Repr

def isTagChar (c : Char) : Bool := c.isAlpha || c.isDigit

def isAttrNameChar (c : Char) : Bool :=
  c.isAlpha || c.isDigit || c == '-' || c == '_'

def isHtmlWs (c : Char) : Bool :=
  c == ' ' || c == '\t' || c == '\n' || c == '\r' || c == '\x0c'

def lowerTag (s : Chars) : Chars := s.map Char.toLower

/-- Escaping of one text character when serializing. -/
def escapeTextChar (c : Char) : Chars :=
  if c = '&' then "&amp;".toList
  else if c = '<' then "&lt;".toList
  else if c = '>' then "&gt;".toList
  else [c]

def escapeText (s : Chars) : Chars := s.flatMap escapeTextChar

/-- Escaping of one attribute-value character when serializing. -/
def escapeAttrChar (c : Char) : Chars :=
  if c = '&' then "&amp;".toList
  else if c = '"' then "&quot;".toList
  else [c]

def escapeAttr (s : Chars) : Chars := s.flatMap escapeAttrChar

/-- Decoding of the four named character references recognized by the model. -/
def unescape : Chars → Chars
  | [] => []
  | c :: rest =>
    if c = '&' then
      if "amp;".toList.isPrefixOf rest then '&' :: unescape (rest.drop 4)
      else if "lt;".toList.isPrefixOf rest then '<' :: unescape (rest.drop 3)
      else if "gt;".toList.isPrefixOf rest then '>' :: unescape (rest.drop 3)
      else if "quot;".toList.isPrefixOf rest then '"' :: unescape (rest.drop 5)
      else '&' :: unescape rest
    else c :: unescape rest
termination_by s => s.length
decreasing_by
  all_goals simp [List.length_drop]
  all_goals omega

theorem unescape_nil : unescape [] = [] := by
  rw [unescape]

theorem unescape_cons_ne (c : Char) (rest : Chars) (h : c ≠ '&') :
    unescape (c :: rest) = c :: unescape rest := by
  rw [unescape]
  simp [h]

theorem unescape_amp (rest : Chars) :
    unescape ('&' :: 'a' :: 'm' :: 'p' :: ';' :: rest) = '&' :: unescape rest := by
  rw [unescape]
  simp [List.isPrefixOf]

theorem unescape_lt (rest : Chars) :
    unescape ('&' :: 'l' :: 't' :: ';' :: rest) = '<' :: unescape rest := by
  rw [unescape]
  simp [List.isPrefixOf]

theorem unescape_gt (rest : Chars) :
    unescape ('&' :: 'g' :: 't' :: ';' :: rest) = '>' :: unescape rest := by
  rw [unescape]
  simp [List.isPrefixOf]

theorem unescape_quot (rest : Chars) :
    unescape ('&' :: 'q' :: 'u' :: 'o' :: 't' :: ';' :: rest) = '"' :: unescape rest := by
  rw [unescape]
  simp [List.isPrefixOf]

theorem unescape_escapeText (s : Chars) : unescape (escapeText s) = s := by
  induction s with
  | nil => exact unescape_nil
  | cons c cs ih =>
    show unescape (escapeTextChar c ++ escapeText cs) = c :: cs
    by_cases h1 : c = '&'
    · subst h1
      show unescape ('&' :: 'a' :: 'm' :: 'p' :: ';' :: escapeText cs) = _
      rw [unescape_amp, ih]
    · by_cases h2 : c = '<'
      · subst h2
        show unescape ('&' :: 'l' :: 't' :: ';' :: escapeText cs) = _
        rw [unescape_lt, ih]
      · by_cases h3 : c = '>'
        · subst h3
          show unescape ('&' :: 'g' :: 't' :: ';' :: escapeText cs) = _
          rw [unescape_gt, ih]
        · have hc : escapeTextChar c = [c] := by
            simp [escapeTextChar, h1, h2, h3]
          rw [hc]
          show unescape (c :: escapeText cs) = c :: cs
          rw [unescape_cons_ne c _ h1, ih]

theorem unescape_escapeAttr (s : Chars) : unescape (escapeAttr s) = s := by
  induction s with
  | nil => exact unescape_nil
  | cons c cs ih =>
    show unescape (escapeAttrChar c ++ escapeAttr cs) = c :: cs
    by_cases h1 : c = '&'
    · subst h1
      show unescape ('&' :: 'a' :: 'm' :: 'p' :: ';' :: escapeAttr cs) = _
      rw [unescape_amp, ih]
    · by_cases h2 : c = '"'
      · subst h2
        show unescape ('&' :: 'q' :: 'u' :: 'o' :: 't' :: ';' :: escapeAttr cs) = _
        rw [unescape_quot, ih]
      · have hc : escapeAttrChar c = [c] := by
          simp [escapeAttrChar, h1, h2]
        rw [hc]
        show unescape (c :: escapeAttr cs) = c :: cs
        rw [unescape_cons_ne c _ h1, ih]

theorem dw_len (p : Char → Bool) (l : Chars) : (l.dropWhile p).length ≤ l.length :=
  (List.dropWhile_sublist p).length_le

theorem tw_len (p : Char → Bool) (l : Chars) : (l.takeWhile p).length ≤ l.length := by
  induction l with
  | nil => simp
  | cons c cs ih =>
    by_cases hc : p c = true
    · rw [List.takeWhile_cons_of_pos hc]
      simp only [List.length_cons]
      omega
    · rw [List.takeWhile_cons_of_neg (by simpa using hc)]
      simp

theorem dw_cons_len {p : Char → Bool} {l tail : Chars} {d : Char}
    (hx : l.dropWhile p = d :: tail) : tail.length < l.length := by
  have h1 := dw_len p l
  rw [hx] at h1
  simp only [List.length_cons] at h1
  omega

/-- Attribute-list lexer: consumes up to and including the closing `>`
of a start tag.  Only double-quoted values are accepted; a valueless
attribute gets the empty value. -/
def lexAttrs : Nat → Chars → Option (List (Chars × Chars) × Chars)
  | 0, _ => none
  | fuel + 1, s =>
    match s.dropWhile isHtmlWs with
    | [] => none
    | c :: rest =>
      if c = '>' then some ([], rest)
      else if c = '/' then
        match rest with
        | '>' :: rest2 => some ([], rest2)
        | _ => none
      else if isAttrNameChar c then
        match ((c :: rest).dropWhile isAttrNameChar).dropWhile isHtmlWs with
        | '=' :: r4 =>
          match r4.dropWhile isHtmlWs with
          | '"' :: r6 =>
            match r6.dropWhile (fun d => d != '"') with
            | '"' :: r7 =>
              match lexAttrs fuel r7 with
              | some (attrs, rest') =>
                some ((lowerTag ((c :: rest).takeWhile isAttrNameChar),
                  unescape (r6.takeWhile (fun d => d != '"'))) :: attrs, rest')
              | none => none
            | _ => none
          | _ => none
        | r3 =>
          match lexAttrs fuel r3 with
          | some (attrs, rest') =>
            some ((lowerTag ((c :: rest).takeWhile isAttrNameChar), []) :: attrs, rest')
          | none => none
      else none

/-- Tag lexer, applied to the text just after a `<`. -/
def lexTag (fuel : Nat) (s : Chars) : Option (HTok × Chars) :=
  match s with
  | [] => none
  | c :: rest =>
    if c = '/' then
      match rest.takeWhile isTagChar with
      | [] => none
      | _ :: _ =>
        match (rest.dropWhile isTagChar).dropWhile (fun d => d != '>') with
        | '>' :: r3 => some (.hclose (lowerTag (rest.takeWhile isTagChar)), r3)
        | _ => none
    else
      match (c :: rest).takeWhile isTagChar with
      | [] => none
      | _ :: _ =>
        match lexAttrs fuel ((c :: rest).dropWhile isTagChar) with
        | some (attrs, rest') =>
          some (.hopen (lowerTag ((c :: rest).takeWhile isTagChar)) attrs, rest')
        | none => none

theorem lexAttrs_le : ∀ (fuel : Nat) (s : Chars) (attrs : List (Chars × Chars)) (r : Chars),
    lexAttrs fuel s = some (attrs, r) → r.length ≤ s.length := by
  intro fuel
  induction fuel with
  | zero =>
    intro s attrs r h
    simp [lexAttrs] at h
  | succ n ih =>
    intro s attrs r h
    rw [lexAttrs] at h
    cases hds : s.dropWhile isHtmlWs with
    | nil =>
      rw [hds] at h
      simp at h
    | cons c rest =>
      rw [hds] at h
      dsimp only [] at h
      have hrest : rest.length < s.length := dw_cons_len hds
      by_cases h1 : c = '>'
      · rw [if_pos h1] at h
        cases h
        omega
      · rw [if_neg h1] at h
        by_cases h2 : c = '/'
        · rw [if_pos h2] at h
          cases rest with
          | nil => simp at h
          | cons d rest2 =>
            by_cases hd : d = '>'
            · subst hd
              simp only [] at h
              cases h
              simp only [List.length_cons] at hrest
              omega
            · rw [show (match d :: rest2 with
                  | '>' :: rest2 => some (([] : List (Chars × Chars)), rest2)
                  | _ => none) = none from by
                  cases rest2 <;> simp [hd]] at h
              simp at h
        · rw [if_neg h2] at h
          by_cases h3 : isAttrNameChar c = true
          · rw [if_pos h3] at h
            cases hr3 : ((c :: rest).dropWhile isAttrNameChar).dropWhile isHtmlWs with
            | nil =>
              rw [hr3] at h
              dsimp only [] at h
              cases hrec : lexAttrs n ([] : Chars) with
              | none => rw [hrec] at h; simp at h
              | some p =>
                rw [hrec] at h
                cases p with
                | mk a2 r2 =>
                  cases h
                  have hlen := ih _ _ _ hrec
                  simp only [List.length_nil, Nat.le_zero] at hlen
                  omega
            | cons e r4 =>
              have hr3len : r4.length < ((c :: rest).dropWhile isAttrNameChar).length + 1 := by
                have := dw_cons_len hr3
                have h5 := dw_len isAttrNameChar (c :: rest)
                omega
              have hr3len2 : (e :: r4).length ≤ rest.length + 1 := by
                have := dw_len isHtmlWs ((c :: rest).dropWhile isAttrNameChar)
                rw [hr3] at this
                have h5 := dw_len isAttrNameChar (c :: rest)
                simp only [List.length_cons] at this h5 ⊢
                omega
              rw [hr3] at h
              by_cases he : e = '='
              · subst he
                simp only [] at h
                cases hr5 : r4.dropWhile isHtmlWs with
                | nil => rw [hr5] at h; simp at h
                | cons f r6 =>
                  rw [hr5] at h
                  by_cases hf : f = '"'
                  · subst hf
                    simp only [] at h
                    cases hr6 : r6.dropWhile (fun d => d != '"') with
                    | nil => rw [hr6] at h; simp at h
                    | cons g r7 =>
                      rw [hr6] at h
                      by_cases hg : g = '"'
                      · subst hg
                        simp only [] at h
                        cases hrec : lexAttrs n r7 with
                        | none => rw [hrec] at h; simp at h
                        | some p =>
                          rw [hrec] at h
                          cases p with
                          | mk a2 r2 =>
                            cases h
                            have hle := ih _ _ _ hrec
                            have l1 : r7.length < r6.length := dw_cons_len hr6
                            have l2 : r6.length < r4.length := dw_cons_len hr5
                            simp only [List.length_cons] at hr3len2
                            omega
                      · rw [show (match g :: r7 with
                            | '"' :: r7 =>
                              match lexAttrs n r7 with
                              | some (attrs, rest') =>
                                some ((lowerTag ((c :: rest).takeWhile isAttrNameChar),
                                  unescape (r6.takeWhile (fun d => d != '"'))) :: attrs, rest')
                              | none => none
                            | _ => none) = none from by
                            cases r7 <;> simp [hg]] at h
                        simp at h
                  · rw [show (match f :: r6 with
                        | '"' :: r6 =>
                          match r6.dropWhile (fun d => d != '"') with
                          | '"' :: r7 =>
                            match lexAttrs n r7 with
                            | some (attrs, rest') =>
                              some ((lowerTag ((c :: rest).takeWhile isAttrNameChar),
                                unescape (r6.takeWhile (fun d => d != '"'))) :: attrs, rest')
                            | none => none
                          | _ => none
                        | _ => none) = none from by
                        cases r6 <;> simp [hf]] at h
                    simp at h
              · have hstep : (match e :: r4 with
                    | '=' :: r4 =>
                      match r4.dropWhile isHtmlWs with
                      | '"' :: r6 =>
                        match r6.dropWhile (fun d => d != '"') with
                        | '"' :: r7 =>
                          match lexAttrs n r7 with
                          | some (attrs, rest') =>
                            some ((lowerTag ((c :: rest).takeWhile isAttrNameChar),
                              unescape (r6.takeWhile (fun d => d != '"'))) :: attrs, rest')
                          | none => none
                        | _ => none
                      | _ => none
                    | r3 =>
                      match lexAttrs n r3 with
                      | some (attrs, rest') =>
                        some ((lowerTag ((c :: rest).takeWhile isAttrNameChar), []) :: attrs, rest')
                      | none => none) =
                    (match lexAttrs n (e :: r4) with
                      | some (attrs, rest') =>
                        some ((lowerTag ((c :: rest).takeWhile isAttrNameChar), []) :: attrs, rest')
                      | none => none) := by
                  cases r4 <;> simp [he]
                rw [hstep] at h
                cases hrec : lexAttrs n (e :: r4) with
                | none => rw [hrec] at h; simp at h
                | some p =>
                  rw [hrec] at h
                  cases p with
                  | mk a2 r2 =>
                    cases h
                    have hle := ih _ _ _ hrec
                    simp only [List.length_cons] at hle hr3len2
                    omega
          · rw [if_neg h3] at h
            simp at h

theorem lexTag_le : ∀ (fuel : Nat) (s : Chars) (tok : HTok) (r : Chars),
    lexTag fuel s = some (tok, r) → r.length ≤ s.length := by
  intro fuel s tok r h
  cases s with
  | nil => simp [lexTag] at h
  | cons c rest =>
    rw [lexTag] at h
    try dsimp only [] at h
    by_cases h1 : c = '/'
    · rw [if_pos h1] at h
      cases htw : rest.takeWhile isTagChar with
      | nil => rw [htw] at h; simp at h
      | cons d dt =>
        rw [htw] at h
        dsimp only [] at h
        cases hdw : (rest.dropWhile isTagChar).dropWhile (fun d => d != '>') with
        | nil => rw [hdw] at h; simp at h
        | cons g r3 =>
          rw [hdw] at h
          by_cases hg : g = '>'
          · subst hg
            simp only [] at h
            cases h
            have l1 : r.length < (rest.dropWhile isTagChar).length := dw_cons_len hdw
            have l2 := dw_len isTagChar rest
            simp only [List.length_cons]
            omega
          · rw [show (match g :: r3 with
                | '>' :: r3 => some (HTok.hclose (lowerTag (d :: dt)), r3)
                | _ => none) = none from by
                cases r3 <;> simp [hg]] at h
            simp at h
    · rw [if_neg h1] at h
      cases htw : (c :: rest).takeWhile isTagChar with
      | nil => rw [htw] at h; simp at h
      | cons d dt =>
        rw [htw] at h
        dsimp only [] at h
        cases hrec : lexAttrs fuel ((c :: rest).dropWhile isTagChar) with
        | none => rw [hrec] at h; simp at h
        | some p =>
          rw [hrec] at h
          cases p with
          | mk attrs2 r2 =>
            dsimp only [] at h
            cases h
            have hle := lexAttrs_le _ _ _ _ hrec
            have hdw := dw_len isTagChar (c :: rest)
            omega

theorem dropWhile_lt_cons_lt (c : Char) (rest : Chars) (hc : ¬c = '<') :
    (List.dropWhile (fun d => d != '<') (c :: rest)).length < (c :: rest).length := by
  rw [List.dropWhile_cons_of_pos (by simp [hc])]
  have := dw_len (fun d => d != '<') rest
  simp only [List.length_cons]
  omega

/-- Top-level fragment lexer: text runs, tags, and literal `<` fallback. -/
def lexHtml : Chars → List HTok
  | [] => []
  | c :: rest =>
    if hc : c = '<' then
      match htag : lexTag rest.length rest with
      | some (tok, rest') => tok :: lexHtml rest'
      | none => HTok.htext ['<'] :: lexHtml rest
    else
      HTok.htext (unescape ((c :: rest).takeWhile (fun d => d != '<'))) ::
        lexHtml ((c :: rest).dropWhile (fun d => d != '<'))
termination_by s => s.length
decreasing_by
  · have := lexTag_le _ _ _ _ htag
    simp only [List.length_cons]
    omega
  · simp only [List.length_cons]
    omega
  · exact dropWhile_lt_cons_lt _ _ (by assumption)

/-- Open-element stack entry of the fragment tree builder. -/
structure Frame where
  tag : Chars
  attrs : List (Chars × Chars)
  started : Bool
  rev : List HNode

def voidTags : List Chars :=
  ["area", "base", "br", "col", "embed", "hr", "img", "input", "link", "meta",
    "source", "track", "wbr"].map String.toList

def isVoid (t : Chars) : Bool := voidTags.contains t

/-- Insert a text run, coalescing with a preceding text node. -/
def insertText (s : Chars) (acc : List HNode) : List HNode :=
  match acc with
  | HNode.text t :: acc2 => HNode.text (t ++ s) :: acc2
  | _ => HNode.text s :: acc

def insNode (n : HNode) : List Frame × List HNode → List Frame × List HNode
  | (fr :: stack, acc) => ({ fr with rev := n :: fr.rev } :: stack, acc)
  | ([], acc) => ([], n :: acc)

def insText (s : Chars) : List Frame × List HNode → List Frame × List HNode
  | (fr :: stack, acc) => ({ fr with rev := insertText s fr.rev } :: stack, acc)
  | ([], acc) => ([], insertText s acc)

/-- Fragment parsing marks script elements as already started, so they can
never run when the fragment is inserted into the document. -/
def mkStarted (fragment : Bool) (tag : Chars) : Bool :=
  if tag = "script".toList then fragment else true

def closeNode (fr : Frame) : HNode :=
  HNode.elem fr.tag fr.attrs fr.started fr.rev.reverse

/-- Close open elements until (and including) the one with the given tag. -/
def popUntil (tag : Chars) : List Frame → List HNode → List Frame × List HNode
  | [], acc => ([], acc)
  | fr :: stack, acc =>
    if fr.tag = tag then insNode (closeNode fr) (stack, acc)
    else
      match stack with
      | fr2 :: stack2 =>
        popUntil tag ({ fr2 with rev := closeNode fr :: fr2.rev } :: stack2) acc
      | [] => ([], closeNode fr :: acc)
termination_by s _ => s.length
decreasing_by
  all_goals simp only [List.length_cons]
  all_goals omega

def buildStep (fragment : Bool) (st : List Frame × List HNode) : HTok → List Frame × List HNode
  | HTok.htext s => insText s st
  | HTok.hopen tag attrs =>
    if isVoid tag then insNode (HNode.elem tag attrs (mkStarted fragment tag) []) st
    else ({ tag := tag, attrs := attrs, started := mkStarted fragment tag, rev := [] } :: st.1,
      st.2)
  | HTok.hclose tag =>
    if isVoid tag then st
    else if st.1.any (fun fr => fr.tag == tag) then popUntil tag st.1 st.2
    else st

/-- At end of input every open element is closed. -/
def finishStack : List Frame → List HNode → List HNode
  | [], acc => acc.reverse
  | fr :: stack, acc =>
    match stack with
    | fr2 :: stack2 =>
      finishStack ({ fr2 with rev := closeNode fr :: fr2.rev } :: stack2) acc
    | [] => finishStack [] (closeNode fr :: acc)
termination_by s _ => s.length
decreasing_by
  all_goals simp only [List.length_cons]
  all_goals omega

def buildHtml (fragment : Bool) (toks : List HTok) : List HNode :=
  match toks.foldl (buildStep fragment) ([], []) with
  | (stack, acc) => finishStack stack acc

def parseHtml (fragment : Bool) (s : Chars) : List HNode :=
  buildHtml fragment (lexHtml s)

def serializeAttr (a : Chars × Chars) : Chars :=
  ' ' :: (a.1 ++ '=' :: '"' :: (escapeAttr a.2 ++ ['"']))

mutual
/-- innerHTML serialization of one node. -/
def serializeNode : HNode → Chars
  | HNode.text s => escapeText s
  | HNode.elem tag attrs _ children =>
    '<' :: (tag ++ attrs.flatMap serializeAttr ++ ['>'] ++
      (if isVoid tag then [] else serializeList children ++ ('<' :: '/' :: (tag ++ ['>']))))

def serializeList : List HNode → Chars
  | [] => []
  | n :: ns => serializeNode n ++ serializeList ns
end

/-- `sanitizeHtml` (App.tsx 399-407): innerHTML round-trip through a detached div. -/
def sanitizeHtml (html : Chars) : Chars := serializeList (parseHtml true html)

mutual
/-- Number of script elements that would execute (not marked already-started). -/
def scriptCount : HNode → Nat
  | HNode.text _ => 0
  | HNode.elem tag _ stAlready children =>
    (if tag = "script".toList ∧ stAlready = false then 1 else 0) + scriptCountList children

def scriptCountList : List HNode → Nat
  | [] => 0
  | n :: ns => scriptCount n + scriptCountList ns
end

mutual
/-- Every script element in the tree is marked already-started. -/
def nodeStarted : HNode → Bool
  | HNode.text _ => true
  | HNode.elem _ _ strt children => strt && listStarted children

def listStarted : List HNode → Bool
  | [] => true
  | n :: ns => nodeStarted n && listStarted ns
end

theorem mkStarted_true (tag : Chars) : mkStarted true tag = true := by
  unfold mkStarted
  split <;> rfl

theorem listStarted_append (a b : List HNode) :
    listStarted (a ++ b) = (listStarted a && listStarted b) := by
  induction a with
  | nil => simp [listStarted]
  | cons n ns ih => simp [listStarted, ih, Bool.and_assoc]

theorem listStarted_reverse (l : List HNode) :
    listStarted l.reverse = listStarted l := by
  induction l with
  | nil => rfl
  | cons n ns ih =>
    rw [List.reverse_cons, listStarted_append, ih]
    simp [listStarted, Bool.and_comm]

def framesStarted : List Frame → Bool
  | [] => true
  | fr :: stack => fr.started && listStarted fr.rev && framesStarted stack

def stStarted (st : List Frame × List HNode) : Bool :=
  framesStarted st.1 && listStarted st.2

theorem insertText_started (s : Chars) (acc : List HNode)
    (h : listStarted acc = true) : listStarted (insertText s acc) = true := by
  cases acc with
  | nil => simp [insertText, listStarted, nodeStarted]
  | cons n acc2 =>
    cases n with
    | text t =>
      simp only [insertText, listStarted, nodeStarted] at *
      exact h
    | elem tag attrs strt children =>
      simp only [insertText, listStarted, nodeStarted, Bool.true_and] at *
      exact h

theorem insNode_started (n : HNode) (st : List Frame × List HNode)
    (hn : nodeStarted n = true) (hst : stStarted st = true) :
    stStarted (insNode n st) = true := by
  cases st with
  | mk stack acc =>
    cases stack with
    | nil =>
      simp only [insNode, stStarted, framesStarted, listStarted, Bool.true_and] at *
      simp [hn, hst]
    | cons fr stack2 =>
      simp only [insNode, stStarted, framesStarted, listStarted, Bool.and_eq_true] at *
      exact ⟨⟨⟨hst.1.1.1, by simp [hn, hst.1.1.2]⟩, hst.1.2⟩, hst.2⟩

theorem insText_started (s : Chars) (st : List Frame × List HNode)
    (hst : stStarted st = true) : stStarted (insText s st) = true := by
  cases st with
  | mk stack acc =>
    cases stack with
    | nil =>
      simp only [insText, stStarted, framesStarted, Bool.true_and] at *
      exact insertText_started s acc hst
    | cons fr stack2 =>
      simp only [insText, stStarted, framesStarted, Bool.and_eq_true] at *
      exact ⟨⟨⟨hst.1.1.1, insertText_started s fr.rev hst.1.1.2⟩, hst.1.2⟩, hst.2⟩

theorem closeNode_started (fr : Frame) (h1 : fr.started = true)
    (h2 : listStarted fr.rev = true) : nodeStarted (closeNode fr) = true := by
  simp [closeNode, nodeStarted, h1, listStarted_reverse, h2]

theorem popUntil_started_aux : ∀ (n : Nat) (tag : Chars) (stack : List Frame)
    (acc : List HNode), stack.length ≤ n → framesStarted stack = true →
    listStarted acc = true → stStarted (popUntil tag stack acc) = true := by
  intro n
  induction n with
  | zero =>
    intro tag stack acc hlen h1 h2
    cases stack with
    | nil => simp [popUntil, stStarted, framesStarted, h2]
    | cons fr stack2 => simp at hlen
  | succ n ih =>
    intro tag stack acc hlen h1 h2
    cases stack with
    | nil => simp [popUntil, stStarted, framesStarted, h2]
    | cons fr stack2 =>
      rw [popUntil.eq_def]
      dsimp only []
      simp only [framesStarted, Bool.and_eq_true] at h1
      have hcl : nodeStarted (closeNode fr) = true :=
        closeNode_started fr h1.1.1 h1.1.2
      by_cases ht : fr.tag = tag
      · rw [if_pos ht]
        apply insNode_started _ _ hcl
        simp [stStarted, h1.2, h2]
      · rw [if_neg ht]
        cases stack2 with
        | nil =>
          simp [stStarted, framesStarted, listStarted, hcl, h2]
        | cons fr2 stack3 =>
          simp only [framesStarted, Bool.and_eq_true] at h1
          apply ih
          · simp only [List.length_cons] at hlen ⊢
            omega
          · simp only [framesStarted, Bool.and_eq_true]
            refine ⟨⟨h1.2.1.1, ?_⟩, h1.2.2⟩
            simp [listStarted, hcl, h1.2.1.2]
          · exact h2

theorem buildStep_started (st : List Frame × List HNode) (tok : HTok)
    (hst : stStarted st = true) : stStarted (buildStep true st tok) = true := by
  cases tok with
  | htext s => exact insText_started s st hst
  | hopen tag attrs =>
    rw [buildStep]
    by_cases hv : isVoid tag = true
    · rw [if_pos hv]
      apply insNode_started _ _ _ hst
      simp [nodeStarted, mkStarted_true, listStarted]
    · rw [if_neg hv]
      simp only [stStarted, framesStarted, Bool.and_eq_true] at *
      exact ⟨⟨⟨mkStarted_true tag, rfl⟩, hst.1⟩, hst.2⟩
  | hclose tag =>
    rw [buildStep]
    by_cases hv : isVoid tag = true
    · rw [if_pos hv]
      exact hst
    · rw [if_neg hv]
      by_cases ha : st.1.any (fun fr => fr.tag == tag) = true
      · rw [if_pos ha]
        simp only [stStarted, Bool.and_eq_true] at hst
        exact popUntil_started_aux st.1.length tag st.1 st.2 le_rfl hst.1 hst.2
      · rw [if_neg ha]
        exact hst

theorem foldl_buildStep_started (toks : List HTok) :
    ∀ (st : List Frame × List HNode), stStarted st = true →
    stStarted (toks.foldl (buildStep true) st) = true := by
  induction toks with
  | nil => intro st h; exact h
  | cons tok toks ih =>
    intro st h
    exact ih _ (buildStep_started st tok h)

theorem finishStack_started_aux : ∀ (n : Nat) (stack : List Frame)
    (acc : List HNode), stack.length ≤ n → framesStarted stack = true →
    listStarted acc = true → listStarted (finishStack stack acc) = true := by
  intro n
  induction n with
  | zero =>
    intro stack acc hlen h1 h2
    cases stack with
    | nil => simp [finishStack, listStarted_reverse, h2]
    | cons fr stack2 => simp at hlen
  | succ n ih =>
    intro stack acc hlen h1 h2
    cases stack with
    | nil => simp [finishStack, listStarted_reverse, h2]
    | cons fr stack2 =>
      rw [finishStack.eq_def]
      dsimp only []
      simp only [framesStarted, Bool.and_eq_true] at h1
      have hcl : nodeStarted (closeNode fr) = true :=
        closeNode_started fr h1.1.1 h1.1.2
      cases stack2 with
      | nil =>
        apply ih
        · simp
        · rfl
        · simp [listStarted, hcl, h2]
      | cons fr2 stack3 =>
        simp only [framesStarted, Bool.and_eq_true] at h1
        apply ih
        · simp only [List.length_cons] at hlen ⊢
          omega
        · simp only [framesStarted, Bool.and_eq_true]
          refine ⟨⟨h1.2.1.1, ?_⟩, h1.2.2⟩
          simp [listStarted, hcl, h1.2.1.2]
        · exact h2

theorem parseHtml_fragment_started (s : Chars) :
    listStarted (parseHtml true s) = true := by
  unfold parseHtml buildHtml
  have h := foldl_buildStep_started (lexHtml s) ([], []) (by rfl)
  cases hst : (lexHtml s).foldl (buildStep true) ([], []) with
  | mk stack acc =>
    rw [hst] at h
    simp only [stStarted, Bool.and_eq_true] at h
    exact finishStack_started_aux stack.length stack acc le_rfl h.1 h.2

mutual
theorem scriptCount_zero : ∀ (n : HNode), nodeStarted n = true → scriptCount n = 0
  | HNode.text _, _ => rfl
  | HNode.elem tag attrs strt children, h => by
    have h1 : strt = true ∧ listStarted children = true := by
      simpa [nodeStarted, Bool.and_eq_true] using h
    have h2 := scriptCountList_zero children h1.2
    rw [scriptCount, h2]
    simp [h1.1]

theorem scriptCountList_zero : ∀ (ns : List HNode), listStarted ns = true →
    scriptCountList ns = 0
  | [], _ => rfl
  | n :: ns, h => by
    have h1 : nodeStarted n = true ∧ listStarted ns = true := by
      simpa [listStarted, Bool.and_eq_true] using h
    rw [scriptCountList, scriptCount_zero n h1.1, scriptCountList_zero ns h1.2]
end

theorem sanitize_no_executable_script (x : Chars) :
    scriptCountList (parseHtml true x) = 0 :=
  scriptCountList_zero _ (parseHtml_fragment_started x)

theorem toNat_ofNat_valid (n : Nat) (h : n < 55296) : (Char.ofNat n).toNat = n := by
  rw [Char.ofNat, dif_pos (Or.inl (show n < 55296 from h))]
  rfl

theorem toLower_toNat (c : Char) : c.toLower.toNat =
    if 65 ≤ c.toNat ∧ c.toNat ≤ 90 then c.toNat + 32 else c.toNat := by
  rw [Char.toLower]
  split
  · rename_i h
    have hv : c.toNat + 32 < 55296 := by omega
    rw [toNat_ofNat_valid _ hv]
  · rfl

theorem toLower_eq_self {c : Char} (h : ¬(65 ≤ c.toNat ∧ c.toNat ≤ 90)) :
    c.toLower = c := by
  rw [Char.toLower]
  split
  · rename_i h2
    exact absurd h2 h
  · rfl

theorem char_eq_of_toNat {c d : Char} (h : c.toNat = d.toNat) : c = d :=
  Char.ext (UInt32.ext h)

theorem char_ne_of_toNat {c d : Char} (h : c.toNat ≠ d.toNat) : c ≠ d :=
  fun he => h (he ▸ rfl)


theorem isUpper_iff (c : Char) : c.isUpper = true ↔ (65 ≤ c.toNat ∧ c.toNat ≤ 90) := by
  simp only [Char.isUpper, Bool.and_eq_true, decide_eq_true_eq]
  exact Iff.rfl

theorem isLower_iff (c : Char) : c.isLower = true ↔ (97 ≤ c.toNat ∧ c.toNat ≤ 122) := by
  simp only [Char.isLower, Bool.and_eq_true, decide_eq_true_eq]
  exact Iff.rfl

theorem isDigit_iff (c : Char) : c.isDigit = true ↔ (48 ≤ c.toNat ∧ c.toNat ≤ 57) := by
  simp only [Char.isDigit, Bool.and_eq_true, decide_eq_true_eq]
  exact Iff.rfl

theorem char_eq_45 (c : Char) : c = '-' ↔ c.toNat = 45 :=
  ⟨fun he => he ▸ (by decide), fun hn => char_eq_of_toNat (by rw [hn]; decide)⟩

theorem char_eq_95 (c : Char) : c = '_' ↔ c.toNat = 95 :=
  ⟨fun he => he ▸ (by decide), fun hn => char_eq_of_toNat (by rw [hn]; decide)⟩

theorem isTagChar_iff (c : Char) : isTagChar c = true ↔
    ((65 ≤ c.toNat ∧ c.toNat ≤ 90) ∨ (97 ≤ c.toNat ∧ c.toNat ≤ 122) ∨
      (48 ≤ c.toNat ∧ c.toNat ≤ 57)) := by
  have h1 : isTagChar c = true ↔ ((c.isUpper = true ∨ c.isLower = true) ∨ c.isDigit = true) := by
    simp [isTagChar, Char.isAlpha]
  rw [h1, isUpper_iff, isLower_iff, isDigit_iff]
  tauto

theorem isAttrNameChar_iff (c : Char) : isAttrNameChar c = true ↔
    ((65 ≤ c.toNat ∧ c.toNat ≤ 90) ∨ (97 ≤ c.toNat ∧ c.toNat ≤ 122) ∨
      (48 ≤ c.toNat ∧ c.toNat ≤ 57) ∨ c.toNat = 45 ∨ c.toNat = 95) := by
  have h0 : isAttrNameChar c = ((isTagChar c || (c == '-')) || (c == '_')) := rfl
  have h1 : isAttrNameChar c = true ↔
      ((isTagChar c = true ∨ c = '-') ∨ c = '_') := by
    rw [h0]
    simp [Bool.or_eq_true]
  rw [h1, isTagChar_iff, char_eq_45, char_eq_95]
  tauto

/-- Tag-name characters as innerHTML serializes them: lowercase letters and digits. -/
def validTagChar (c : Char) : Bool :=
  decide (97 ≤ c.toNat ∧ c.toNat ≤ 122) || decide (48 ≤ c.toNat ∧ c.toNat ≤ 57)

def validAttrChar (c : Char) : Bool :=
  validTagChar c || decide (c.toNat = 45) || decide (c.toNat = 95)

theorem validTagChar_iff (c : Char) : validTagChar c = true ↔
    ((97 ≤ c.toNat ∧ c.toNat ≤ 122) ∨ (48 ≤ c.toNat ∧ c.toNat ≤ 57)) := by
  simp [validTagChar]

theorem validAttrChar_iff (c : Char) : validAttrChar c = true ↔
    ((97 ≤ c.toNat ∧ c.toNat ≤ 122) ∨ (48 ≤ c.toNat ∧ c.toNat ≤ 57) ∨
      c.toNat = 45 ∨ c.toNat = 95) := by
  simp [validAttrChar, validTagChar]
  tauto

theorem isTagChar_toLower {c : Char} (h : isTagChar c = true) :
    validTagChar c.toLower = true := by
  rw [validTagChar_iff, toLower_toNat]
  rw [isTagChar_iff] at h
  split <;> omega

theorem validTagChar_toLower {c : Char} (h : validTagChar c = true) :
    c.toLower = c := by
  rw [validTagChar_iff] at h
  exact toLower_eq_self (by omega)

theorem validTagChar_isTagChar {c : Char} (h : validTagChar c = true) :
    isTagChar c = true := by
  rw [isTagChar_iff]
  rw [validTagChar_iff] at h
  omega

theorem isAttrNameChar_toLower {c : Char} (h : isAttrNameChar c = true) :
    validAttrChar c.toLower = true := by
  rw [validAttrChar_iff, toLower_toNat]
  rw [isAttrNameChar_iff] at h
  split <;> omega

theorem validAttrChar_toLower {c : Char} (h : validAttrChar c = true) :
    c.toLower = c := by
  rw [validAttrChar_iff] at h
  exact toLower_eq_self (by omega)

theorem validAttrChar_isAttrNameChar {c : Char} (h : validAttrChar c = true) :
    isAttrNameChar c = true := by
  rw [isAttrNameChar_iff]
  rw [validAttrChar_iff] at h
  omega

theorem validTagChar_validAttrChar {c : Char} (h : validTagChar c = true) :
    validAttrChar c = true := by
  simp [validAttrChar, h]

theorem validAttrChar_not_ws {c : Char} (h : validAttrChar c = true) :
    isHtmlWs c = false := by
  cases hw : isHtmlWs c
  · rfl
  · exfalso
    simp only [isHtmlWs, Bool.or_eq_true, beq_iff_eq] at hw
    rcases hw with (((hw | hw) | hw) | hw) | hw <;>
      (subst hw; revert h; decide)

theorem validAttrChar_ne (c : Char) (d : Char) (h : validAttrChar c = true)
    (hd : validAttrChar d = false) : c ≠ d := by
  intro he
  rw [he, hd] at h
  cases h

def validTag (t : Chars) : Bool := !t.isEmpty && t.all validTagChar

def validAttr (a : Chars × Chars) : Bool := !a.1.isEmpty && a.1.all validAttrChar

def isTextNode : HNode → Bool
  | HNode.text _ => true
  | _ => false

mutual
/-- Well-formed serialized tree: the exact image of the fragment parser. -/
def wfNode : HNode → Bool
  | HNode.text s => !s.isEmpty
  | HNode.elem tag attrs strt children =>
    validTag tag && attrs.all validAttr && strt &&
      (if isVoid tag then children.isEmpty else wfList children)

def wfList : List HNode → Bool
  | [] => true
  | [n] => wfNode n
  | n :: m :: ns => wfNode n && !(isTextNode n && isTextNode m) && wfList (m :: ns)
end

mutual
/-- The token stream that the tree builder receives for this tree. -/
def tokensOfNode : HNode → List HTok
  | HNode.text s => [HTok.htext s]
  | HNode.elem tag attrs _ children =>
    if isVoid tag then [HTok.hopen tag attrs]
    else HTok.hopen tag attrs :: (tokensOfList children ++ [HTok.hclose tag])

def tokensOfList : List HNode → List HTok
  | [] => []
  | n :: ns => tokensOfNode n ++ tokensOfList ns
end

theorem takeWhile_append_all {p : Char → Bool} : ∀ (a b : Chars),
    (∀ c ∈ a, p c = true) → (a ++ b).takeWhile p = a ++ b.takeWhile p := by
  intro a
  induction a with
  | nil => intro b h; rfl
  | cons c a ih =>
    intro b h
    rw [List.cons_append, List.takeWhile_cons_of_pos (h c (by simp)),
      ih b (fun d hd => h d (by simp [hd]))]
    rfl

theorem dropWhile_append_all {p : Char → Bool} : ∀ (a b : Chars),
    (∀ c ∈ a, p c = true) → (a ++ b).dropWhile p = b.dropWhile p := by
  intro a
  induction a with
  | nil => intro b h; rfl
  | cons c a ih =>
    intro b h
    rw [List.cons_append, List.dropWhile_cons_of_pos (h c (by simp)),
      ih b (fun d hd => h d (by simp [hd]))]

theorem escapeTextChar_ne_nil (c : Char) : escapeTextChar c ≠ [] := by
  unfold escapeTextChar
  split
  · decide
  · split
    · decide
    · split
      · decide
      · simp

theorem escapeText_ne_nil {s : Chars} (h : s ≠ []) : escapeText s ≠ [] := by
  cases s with
  | nil => exact absurd rfl h
  | cons c cs =>
    show escapeTextChar c ++ escapeText cs ≠ []
    simp [escapeTextChar_ne_nil c]

theorem escapeTextChar_no_lt (c : Char) : ∀ d ∈ escapeTextChar c, (d != '<') = true := by
  intro d hd
  simp only [escapeTextChar] at hd
  by_cases h1 : c = '&'
  · rw [if_pos h1, show "&amp;".toList = ['&', 'a', 'm', 'p', ';'] from rfl] at hd
    simp at hd
    rcases hd with h | h | h | h | h <;> (subst h; decide)
  · rw [if_neg h1] at hd
    by_cases h2 : c = '<'
    · rw [if_pos h2, show "&lt;".toList = ['&', 'l', 't', ';'] from rfl] at hd
      simp at hd
      rcases hd with h | h | h | h <;> (subst h; decide)
    · rw [if_neg h2] at hd
      by_cases h3 : c = '>'
      · rw [if_pos h3, show "&gt;".toList = ['&', 'g', 't', ';'] from rfl] at hd
        simp at hd
        rcases hd with h | h | h | h <;> (subst h; decide)
      · rw [if_neg h3] at hd
        simp at hd
        subst hd
        simp [h2]

theorem escapeText_no_lt (s : Chars) : ∀ d ∈ escapeText s, (d != '<') = true := by
  induction s with
  | nil => intro d hd; simp [escapeText] at hd
  | cons c cs ih =>
    intro d hd
    rcases List.mem_append.mp hd with h | h
    · exact escapeTextChar_no_lt c d h
    · exact ih d h

theorem escapeAttrChar_no_quot (c : Char) : ∀ d ∈ escapeAttrChar c, (d != '"') = true := by
  intro d hd
  simp only [escapeAttrChar] at hd
  by_cases h1 : c = '&'
  · rw [if_pos h1, show "&amp;".toList = ['&', 'a', 'm', 'p', ';'] from rfl] at hd
    simp at hd
    rcases hd with h | h | h | h | h <;> (subst h; decide)
  · rw [if_neg h1] at hd
    by_cases h2 : c = '"'
    · rw [if_pos h2, show "&quot;".toList = ['&', 'q', 'u', 'o', 't', ';'] from rfl] at hd
      simp at hd
      rcases hd with h | h | h | h | h | h <;> (subst h; decide)
    · rw [if_neg h2] at hd
      simp at hd
      subst hd
      simp [h2]

theorem escapeAttr_no_quot (s : Chars) : ∀ d ∈ escapeAttr s, (d != '"') = true := by
  induction s with
  | nil => intro d hd; simp [escapeAttr] at hd
  | cons c cs ih =>
    intro d hd
    rcases List.mem_append.mp hd with h | h
    · exact escapeAttrChar_no_quot c d h
    · exact ih d h

theorem lowerTag_of_all {t : Chars} (h : ∀ c ∈ t, c.toLower = c) : lowerTag t = t := by
  unfold lowerTag
  induction t with
  | nil => rfl
  | cons c cs ih =>
    rw [List.map_cons, h c (by simp), ih]
    intro d hd
    exact h d (by simp [hd])

theorem flatAttrs_len (attrs : List (Chars × Chars)) :
    attrs.length ≤ (attrs.flatMap serializeAttr).length := by
  induction attrs with
  | nil => simp
  | cons a attrs ih =>
    rw [List.flatMap_cons, List.length_append]
    have : 1 ≤ (serializeAttr a).length := by
      simp [serializeAttr]
    simp only [List.length_cons]
    omega

theorem flatAttrs_shape (attrs : List (Chars × Chars)) :
    attrs.flatMap serializeAttr = [] ∨ ∃ t, attrs.flatMap serializeAttr = ' ' :: t := by
  cases attrs with
  | nil => exact Or.inl rfl
  | cons a attrs =>
    rw [List.flatMap_cons]
    exact Or.inr ⟨_, rfl⟩

theorem lexAttrs_ser : ∀ (attrs : List (Chars × Chars)) (fuel : Nat) (rest : Chars),
    attrs.length < fuel → attrs.all validAttr = true →
    lexAttrs fuel (attrs.flatMap serializeAttr ++ '>' :: rest) = some (attrs, rest) := by
  intro attrs
  induction attrs with
  | nil =>
    intro fuel rest hf _
    cases fuel with
    | zero => omega
    | succ n =>
      show lexAttrs (n + 1) ('>' :: rest) = some ([], rest)
      rw [lexAttrs]
      rw [List.dropWhile_cons_of_neg (by decide)]
      dsimp only []
      rw [if_pos rfl]
  | cons a attrs ih =>
    intro fuel rest hf hall
    cases fuel with
    | zero => simp at hf
    | succ n =>
      obtain ⟨name, v⟩ := a
      simp only [List.all_cons, Bool.and_eq_true] at hall
      have hva2 : name.isEmpty = false ∧ name.all validAttrChar = true := by
        have := hall.1
        simp only [validAttr, Bool.and_eq_true, Bool.not_eq_true'] at this
        exact this
      have hall_name : ∀ c ∈ name, validAttrChar c = true :=
        fun c hc => List.all_eq_true.mp hva2.2 c hc
      have hAN : ∀ c ∈ name, isAttrNameChar c = true :=
        fun c hc => validAttrChar_isAttrNameChar (hall_name c hc)
      obtain ⟨c0, name', hname⟩ : ∃ c0 name', name = c0 :: name' := by
        cases name with
        | nil => simp at hva2
        | cons c0 name' => exact ⟨c0, name', rfl⟩
      have hc0v : validAttrChar c0 = true := hall_name c0 (by rw [hname]; simp)
      have hinput : ((name, v) :: attrs).flatMap serializeAttr ++ '>' :: rest =
          ' ' :: (name ++ '=' :: '"' :: (escapeAttr v ++
            '"' :: (attrs.flatMap serializeAttr ++ '>' :: rest))) := by
        rw [List.flatMap_cons]
        simp [serializeAttr, List.append_assoc]
      rw [hinput, lexAttrs]
      rw [List.dropWhile_cons_of_pos (by decide)]
      rw [hname, List.cons_append]
      rw [List.dropWhile_cons_of_neg (by
        have := validAttrChar_not_ws hc0v
        simp [this])]
      dsimp only []
      rw [if_neg (validAttrChar_ne c0 '>' hc0v (by decide)),
        if_neg (validAttrChar_ne c0 '/' hc0v (by decide)),
        if_pos (validAttrChar_isAttrNameChar hc0v)]
      have hlist : c0 :: (name' ++ '=' :: '"' :: (escapeAttr v ++
          '"' :: (attrs.flatMap serializeAttr ++ '>' :: rest))) =
          name ++ '=' :: '"' :: (escapeAttr v ++
          '"' :: (attrs.flatMap serializeAttr ++ '>' :: rest)) := by
        rw [hname]
        rfl
      rw [hlist]
      have hTW : (name ++ '=' :: '"' :: (escapeAttr v ++
          '"' :: (attrs.flatMap serializeAttr ++ '>' :: rest))).takeWhile isAttrNameChar
          = name := by
        rw [takeWhile_append_all name _ hAN, List.takeWhile_cons_of_neg (by decide),
          List.append_nil]
      have hDW : (name ++ '=' :: '"' :: (escapeAttr v ++
          '"' :: (attrs.flatMap serializeAttr ++ '>' :: rest))).dropWhile isAttrNameChar
          = '=' :: '"' :: (escapeAttr v ++
          '"' :: (attrs.flatMap serializeAttr ++ '>' :: rest)) := by
        rw [dropWhile_append_all name _ hAN, List.dropWhile_cons_of_neg (by decide)]
      rw [hTW, hDW]
      rw [List.dropWhile_cons_of_neg (show ¬isHtmlWs '=' = true by decide)]
      simp only []
      rw [List.dropWhile_cons_of_neg (show ¬isHtmlWs '"' = true by decide)]
      simp only []
      have hYdw : (escapeAttr v ++ '"' :: (attrs.flatMap serializeAttr ++ '>' :: rest)).dropWhile
          (fun d => d != '"') = '"' :: (attrs.flatMap serializeAttr ++ '>' :: rest) := by
        rw [dropWhile_append_all _ _ (escapeAttr_no_quot v)]
        exact List.dropWhile_cons_of_neg (by decide)
      have hYtw : (escapeAttr v ++ '"' :: (attrs.flatMap serializeAttr ++ '>' :: rest)).takeWhile
          (fun d => d != '"') = escapeAttr v := by
        rw [takeWhile_append_all _ _ (escapeAttr_no_quot v), List.takeWhile_cons_of_neg (by decide),
          List.append_nil]
      rw [hYdw, hYtw]
      simp only []
      have hlen : attrs.length < n := by
        simp only [List.length_cons] at hf
        omega
      rw [ih n rest hlen hall.2]
      dsimp only []
      rw [unescape_escapeAttr, lowerTag_of_all (fun c hc => validAttrChar_toLower (hall_name c hc))]
      rw [hname]

theorem validTag_facts {t : Chars} (h : validTag t = true) :
    t ≠ [] ∧ ∀ c ∈ t, validTagChar c = true := by
  have h1 : t.isEmpty = false ∧ t.all validTagChar = true := by
    simpa [validTag, Bool.and_eq_true] using h
  constructor
  · intro he
    subst he
    simp at h1
  · exact fun c hc => List.all_eq_true.mp h1.2 c hc

theorem validTagChar_ne (c : Char) (d : Char) (h : validTagChar c = true)
    (hd : validTagChar d = false) : c ≠ d := by
  intro he
  rw [he, hd] at h
  cases h

theorem lexTag_open (fuel : Nat) (tag : Chars) (attrs : List (Chars × Chars)) (rest : Chars)
    (htag : validTag tag = true) (hattrs : attrs.all validAttr = true)
    (hfuel : attrs.length < fuel) :
    lexTag fuel (tag ++ (attrs.flatMap serializeAttr ++ '>' :: rest)) =
      some (HTok.hopen tag attrs, rest) := by
  obtain ⟨hne, hvalid⟩ := validTag_facts htag
  obtain ⟨t0, t', ht⟩ : ∃ t0 t', tag = t0 :: t' := by
    cases tag with
    | nil => exact absurd rfl hne
    | cons t0 t' => exact ⟨t0, t', rfl⟩
  subst ht
  have ht0 : validTagChar t0 = true := hvalid t0 (by simp)
  have hTC : ∀ c ∈ t0 :: t', isTagChar c = true :=
    fun c hc => validTagChar_isTagChar (hvalid c hc)
  have hXtw : (attrs.flatMap serializeAttr ++ '>' :: rest).takeWhile isTagChar = [] := by
    rcases flatAttrs_shape attrs with hsh | ⟨t2, hsh⟩
    · rw [hsh, List.nil_append]
      exact List.takeWhile_cons_of_neg (by decide)
    · rw [hsh, List.cons_append]
      exact List.takeWhile_cons_of_neg (by decide)
  have hXdw : (attrs.flatMap serializeAttr ++ '>' :: rest).dropWhile isTagChar =
      attrs.flatMap serializeAttr ++ '>' :: rest := by
    rcases flatAttrs_shape attrs with hsh | ⟨t2, hsh⟩
    · rw [hsh, List.nil_append]
      exact List.dropWhile_cons_of_neg (by decide)
    · rw [hsh, List.cons_append]
      exact List.dropWhile_cons_of_neg (by decide)
  have hTWt : ((t0 :: t') ++ (attrs.flatMap serializeAttr ++ '>' :: rest)).takeWhile isTagChar =
      t0 :: t' := by
    rw [takeWhile_append_all _ _ hTC, hXtw, List.append_nil]
  have hDWt : ((t0 :: t') ++ (attrs.flatMap serializeAttr ++ '>' :: rest)).dropWhile isTagChar =
      attrs.flatMap serializeAttr ++ '>' :: rest := by
    rw [dropWhile_append_all _ _ hTC, hXdw]
  rw [List.cons_append, lexTag]
  try dsimp only []
  rw [if_neg (validTagChar_ne t0 '/' ht0 (by decide))]
  rw [show t0 :: (t' ++ (attrs.flatMap serializeAttr ++ '>' :: rest)) =
    (t0 :: t') ++ (attrs.flatMap serializeAttr ++ '>' :: rest) from rfl]
  rw [hTWt, hDWt]
  dsimp only []
  rw [lexAttrs_ser attrs fuel rest hfuel hattrs]
  dsimp only []
  rw [lowerTag_of_all (fun c hc => validTagChar_toLower (hvalid c hc))]

theorem lexTag_close (fuel : Nat) (tag : Chars) (rest : Chars)
    (htag : validTag tag = true) :
    lexTag fuel ('/' :: (tag ++ '>' :: rest)) = some (HTok.hclose tag, rest) := by
  obtain ⟨hne, hvalid⟩ := validTag_facts htag
  obtain ⟨t0, t', ht⟩ : ∃ t0 t', tag = t0 :: t' := by
    cases tag with
    | nil => exact absurd rfl hne
    | cons t0 t' => exact ⟨t0, t', rfl⟩
  subst ht
  have hTC : ∀ c ∈ t0 :: t', isTagChar c = true :=
    fun c hc => validTagChar_isTagChar (hvalid c hc)
  have hTWt : ((t0 :: t') ++ '>' :: rest).takeWhile isTagChar = t0 :: t' := by
    rw [takeWhile_append_all _ _ hTC, List.takeWhile_cons_of_neg (by decide),
      List.append_nil]
  have hDWt : ((t0 :: t') ++ '>' :: rest).dropWhile isTagChar = '>' :: rest := by
    rw [dropWhile_append_all _ _ hTC, List.dropWhile_cons_of_neg (by decide)]
  rw [lexTag]
  try dsimp only []
  rw [if_pos rfl]
  rw [hTWt, hDWt]
  dsimp only []
  rw [List.dropWhile_cons_of_neg (by decide)]
  simp only []
  rw [lowerTag_of_all (fun c hc => validTagChar_toLower (hvalid c hc))]

theorem lexHtml_nil : lexHtml [] = [] := by
  rw [lexHtml]

theorem lexHtml_tag (rest0 : Chars) (tok : HTok) (rest' : Chars)
    (h : lexTag rest0.length rest0 = some (tok, rest')) :
    lexHtml ('<' :: rest0) = tok :: lexHtml rest' := by
  rw [lexHtml]
  split
  · split
    · rename_i tok2 rest2 heq
      rw [h] at heq
      cases heq
      rfl
    · rename_i heq
      rw [h] at heq
      cases heq
  · rename_i hcond
    simp at hcond

theorem lexHtml_text (s rest : Chars) (hs : s ≠ [])
    (hrest : rest = [] ∨ ∃ r2, rest = '<' :: r2) :
    lexHtml (escapeText s ++ rest) = HTok.htext s :: lexHtml rest := by
  obtain ⟨c, cs, hse⟩ : ∃ c cs, escapeText s = c :: cs := by
    cases hse : escapeText s with
    | nil => exact absurd hse (escapeText_ne_nil hs)
    | cons c cs => exact ⟨c, cs, rfl⟩
  have hc : ¬c = '<' := by
    have h2 := escapeText_no_lt s c (by rw [hse]; simp)
    simpa using h2
  have htw : (escapeText s ++ rest).takeWhile (fun d => d != '<') = escapeText s := by
    rw [takeWhile_append_all _ _ (escapeText_no_lt s)]
    rcases hrest with h2 | ⟨r2, h2⟩
    · rw [h2]
      simp
    · rw [h2, List.takeWhile_cons_of_neg (by decide), List.append_nil]
  have hdw : (escapeText s ++ rest).dropWhile (fun d => d != '<') = rest := by
    rw [dropWhile_append_all _ _ (escapeText_no_lt s)]
    rcases hrest with h2 | ⟨r2, h2⟩
    · rw [h2]
      simp
    · rw [h2, List.dropWhile_cons_of_neg (by decide)]
  rw [hse, List.cons_append, lexHtml, dif_neg hc]
  rw [show c :: (cs ++ rest) = (c :: cs) ++ rest from rfl, ← hse, htw, hdw,
    unescape_escapeText]

theorem serializeList_nil : serializeList [] = [] := by
  rw [serializeList]

theorem serializeList_cons (n : HNode) (ns : List HNode) :
    serializeList (n :: ns) = serializeNode n ++ serializeList ns := by
  rw [serializeList]

theorem serializeNode_text (s : Chars) : serializeNode (HNode.text s) = escapeText s := by
  rw [serializeNode]

theorem serializeNode_elem (tag : Chars) (attrs : List (Chars × Chars)) (strt : Bool)
    (children : List HNode) : serializeNode (HNode.elem tag attrs strt children) =
    '<' :: (tag ++ attrs.flatMap serializeAttr ++ ['>'] ++
      (if isVoid tag then [] else serializeList children ++ ('<' :: '/' :: (tag ++ ['>'])))) := by
  rw [serializeNode]

theorem tokensOfList_nil : tokensOfList [] = [] := by
  rw [tokensOfList]

theorem tokensOfList_cons (n : HNode) (ns : List HNode) :
    tokensOfList (n :: ns) = tokensOfNode n ++ tokensOfList ns := by
  rw [tokensOfList]

theorem tokensOfNode_text (s : Chars) : tokensOfNode (HNode.text s) = [HTok.htext s] := by
  rw [tokensOfNode]

theorem tokensOfNode_elem (tag : Chars) (attrs : List (Chars × Chars)) (strt : Bool)
    (children : List HNode) : tokensOfNode (HNode.elem tag attrs strt children) =
    (if isVoid tag then [HTok.hopen tag attrs]
      else HTok.hopen tag attrs :: (tokensOfList children ++ [HTok.hclose tag])) := by
  rw [tokensOfNode]

theorem wfList_nil : wfList [] = true := by
  rw [wfList]

theorem wfNode_text_ne {s : Chars} (h : wfNode (HNode.text s) = true) : s ≠ [] := by
  rw [wfNode] at h
  intro he
  subst he
  simp at h

theorem wfNode_elem_facts {tag : Chars} {attrs : List (Chars × Chars)} {strt : Bool}
    {children : List HNode} (h : wfNode (HNode.elem tag attrs strt children) = true) :
    validTag tag = true ∧ attrs.all validAttr = true ∧ strt = true ∧
      (isVoid tag = true → children = []) ∧ (isVoid tag = false → wfList children = true) := by
  rw [wfNode] at h
  simp only [Bool.and_eq_true] at h
  refine ⟨h.1.1.1, h.1.1.2, h.1.2, ?_, ?_⟩
  · intro hv
    have h2 := h.2
    rw [if_pos hv] at h2
    cases children with
    | nil => rfl
    | cons m ms => simp at h2
  · intro hv
    have h2 := h.2
    rw [if_neg (by simp [hv])] at h2
    exact h2

theorem wfList_cons_wfNode {n : HNode} {ns : List HNode} (h : wfList (n :: ns) = true) :
    wfNode n = true := by
  cases ns with
  | nil => rw [wfList] at h; exact h
  | cons m ns2 =>
    rw [wfList] at h
    simp only [Bool.and_eq_true] at h
    exact h.1.1

theorem wfList_cons_tail {n : HNode} {ns : List HNode} (h : wfList (n :: ns) = true) :
    wfList ns = true := by
  cases ns with
  | nil => exact wfList_nil
  | cons m ns2 =>
    rw [wfList] at h
    simp only [Bool.and_eq_true] at h
    exact h.2

theorem wfList_cons_adj {n m : HNode} {ns : List HNode}
    (h : wfList (n :: m :: ns) = true) : (isTextNode n && isTextNode m) = false := by
  rw [wfList] at h
  simp only [Bool.and_eq_true] at h
  have h2 := h.1.2
  cases hb : (isTextNode n && isTextNode m)
  · rfl
  · rw [hb] at h2
    simp at h2

theorem lex_serialize : ∀ (k : Nat) (ns : List HNode) (rest : Chars),
    sizeOf ns ≤ k → wfList ns = true →
    (rest = [] ∨ ∃ r2, rest = '<' :: r2) →
    lexHtml (serializeList ns ++ rest) = tokensOfList ns ++ lexHtml rest := by
  intro k
  induction k with
  | zero =>
    intro ns rest hk hwf hrest
    cases ns with
    | nil => simp at hk
    | cons n ns' => simp at hk
  | succ k ih =>
    intro ns rest hk hwf hrest
    cases ns with
    | nil =>
      rw [serializeList_nil, tokensOfList_nil, List.nil_append, List.nil_append]
    | cons n ns' =>
      have hkc : sizeOf ns' ≤ k := by
        simp only [List.cons.sizeOf_spec] at hk
        have : 1 ≤ sizeOf n := by
          cases n <;> simp <;> omega
        omega
      have hwf' : wfList ns' = true := wfList_cons_tail hwf
      cases n with
      | text s =>
        have hs : s ≠ [] := wfNode_text_ne (wfList_cons_wfNode hwf)
        have hrest2 : serializeList ns' ++ rest = [] ∨
            ∃ r2, serializeList ns' ++ rest = '<' :: r2 := by
          cases ns' with
          | nil =>
            rw [serializeList_nil, List.nil_append]
            exact hrest
          | cons m ns2 =>
            cases m with
            | text t =>
              have := wfList_cons_adj hwf
              simp [isTextNode] at this
            | elem tag2 attrs2 strt2 children2 =>
              rw [serializeList_cons, serializeNode_elem]
              exact Or.inr ⟨_, rfl⟩
        rw [serializeList_cons, serializeNode_text, List.append_assoc,
          lexHtml_text s _ hs hrest2, tokensOfList_cons, tokensOfNode_text,
          ih ns' rest hkc hwf' hrest]
        rfl
      | elem tag attrs strt children =>
        obtain ⟨hvt, hva, hstrt, hvoidnil, hnonvoid⟩ :=
          wfNode_elem_facts (wfList_cons_wfNode hwf)
        have hflat : attrs.length ≤ (attrs.flatMap serializeAttr).length :=
          flatAttrs_len attrs
        by_cases hv : isVoid tag = true
        · have hch : children = [] := hvoidnil hv
          subst hch
          have hser : serializeList (HNode.elem tag attrs strt [] :: ns') ++ rest =
              '<' :: (tag ++ (attrs.flatMap serializeAttr ++
                '>' :: (serializeList ns' ++ rest))) := by
            rw [serializeList_cons, serializeNode_elem, if_pos hv]
            simp [List.append_assoc]
          rw [hser]
          rw [lexHtml_tag _ _ _ (lexTag_open _ tag attrs _ hvt hva (by
            simp only [List.length_append, List.length_cons]
            omega))]
          rw [ih ns' rest hkc hwf' hrest, tokensOfList_cons, tokensOfNode_elem, if_pos hv]
          rfl
        · have hwfch : wfList children = true := hnonvoid (by simp [hv])
          have hkch : sizeOf children ≤ k := by
            simp only [List.cons.sizeOf_spec, HNode.elem.sizeOf_spec] at hk
            omega
          have hser : serializeList (HNode.elem tag attrs strt children :: ns') ++ rest =
              '<' :: (tag ++ (attrs.flatMap serializeAttr ++
                '>' :: (serializeList children ++
                  ('<' :: ('/' :: (tag ++ '>' :: (serializeList ns' ++ rest))))))) := by
            rw [serializeList_cons, serializeNode_elem, if_neg (by simp [hv])]
            simp [List.append_assoc]
          rw [hser]
          rw [lexHtml_tag _ _ _ (lexTag_open _ tag attrs _ hvt hva (by
            simp only [List.length_append, List.length_cons]
            omega))]
          rw [ih children _ hkch hwfch (Or.inr ⟨_, rfl⟩)]
          rw [lexHtml_tag _ _ _ (lexTag_close _ tag _ hvt)]
          rw [ih ns' rest hkc hwf' hrest]
          rw [tokensOfList_cons, tokensOfNode_elem, if_neg (by simp [hv])]
          simp [List.append_assoc]

theorem lexHtml_serializeList (ns : List HNode) (h : wfList ns = true) :
    lexHtml (serializeList ns) = tokensOfList ns := by
  have h2 := lex_serialize (sizeOf ns) ns [] le_rfl h (Or.inl rfl)
  rw [List.append_nil] at h2
  rw [h2, lexHtml_nil, List.append_nil]

def insPoint (st : List Frame × List HNode) : List HNode :=
  match st with
  | (fr :: _, _) => fr.rev
  | ([], acc) => acc

def headNotText (l : List HNode) : Bool :=
  match l with
  | HNode.text _ :: _ => false
  | _ => true

/-- Insert finished nodes, in order, at the current insertion point. -/
def insAll (ns : List HNode) (st : List Frame × List HNode) : List Frame × List HNode :=
  match st with
  | (fr :: stack, acc) => ({ fr with rev := ns.reverse ++ fr.rev } :: stack, acc)
  | ([], acc) => ([], ns.reverse ++ acc)

def okStart (ns : List HNode) (st : List Frame × List HNode) : Bool :=
  match ns with
  | HNode.text _ :: _ => headNotText (insPoint st)
  | _ => true

theorem insAll_nil (st : List Frame × List HNode) : insAll [] st = st := by
  cases st with
  | mk stack acc =>
    cases stack with
    | nil => rfl
    | cons fr stack2 => rfl

theorem insAll_cons (n : HNode) (ns : List HNode) (st : List Frame × List HNode) :
    insAll (n :: ns) st = insAll ns (insAll [n] st) := by
  cases st with
  | mk stack acc =>
    cases stack with
    | nil =>
      simp [insAll]
    | cons fr stack2 =>
      simp [insAll]

theorem insNode_eq_insAll (n : HNode) (st : List Frame × List HNode) :
    insNode n st = insAll [n] st := by
  cases st with
  | mk stack acc =>
    cases stack with
    | nil => rfl
    | cons fr stack2 => rfl

theorem insText_eq_insAll (s : Chars) (st : List Frame × List HNode)
    (h : headNotText (insPoint st) = true) :
    insText s st = insAll [HNode.text s] st := by
  cases st with
  | mk stack acc =>
    cases stack with
    | nil =>
      show ([], insertText s acc) = ([], [HNode.text s].reverse ++ acc)
      cases acc with
      | nil => rfl
      | cons m acc2 =>
        cases m with
        | text t => simp [insPoint, headNotText] at h
        | elem t2 a2 s2 c2 => rfl
    | cons fr stack2 =>
      show ({ fr with rev := insertText s fr.rev } :: stack2, acc) = _
      cases hrev : fr.rev with
      | nil => simp [insAll, insertText, hrev]
      | cons m rev2 =>
        cases m with
        | text t =>
          simp only [insPoint] at h
          rw [hrev] at h
          simp [headNotText] at h
        | elem t2 a2 s2 c2 =>
          simp [insAll, insertText, hrev]

theorem headNotText_insAll_elem (n : HNode) (st : List Frame × List HNode)
    (h : isTextNode n = false) :
    headNotText (insPoint (insAll [n] st)) = true := by
  cases st with
  | mk stack acc =>
    cases stack with
    | nil =>
      cases n with
      | text s => simp [isTextNode] at h
      | elem t a s2 c => rfl
    | cons fr stack2 =>
      cases n with
      | text s => simp [isTextNode] at h
      | elem t a s2 c => rfl

theorem okStart_of_adj {m : HNode} {ns2 : List HNode} (n : HNode)
    (st : List Frame × List HNode) (hadj : (isTextNode n && isTextNode m) = false) :
    okStart (m :: ns2) (insAll [n] st) = true := by
  cases m with
  | elem t a s2 c => rfl
  | text t =>
    show headNotText (insPoint (insAll [n] st)) = true
    have hn : isTextNode n = false := by
      cases hb : isTextNode n
      · rfl
      · rw [hb] at hadj
        simp [isTextNode] at hadj
    exact headNotText_insAll_elem n st hn

theorem build_tokens : ∀ (k : Nat) (ns : List HNode) (toks : List HTok)
    (st : List Frame × List HNode),
    sizeOf ns ≤ k → wfList ns = true → okStart ns st = true →
    List.foldl (buildStep true) st (tokensOfList ns ++ toks) =
      List.foldl (buildStep true) (insAll ns st) toks := by
  intro k
  induction k with
  | zero =>
    intro ns toks st hk hwf hok
    cases ns with
    | nil => simp at hk
    | cons n ns' => simp at hk
  | succ k ih =>
    intro ns toks st hk hwf hok
    cases ns with
    | nil =>
      rw [tokensOfList_nil, List.nil_append, insAll_nil]
    | cons n ns' =>
      have hkc : sizeOf ns' ≤ k := by
        simp only [List.cons.sizeOf_spec] at hk
        have : 1 ≤ sizeOf n := by
          cases n <;> simp <;> omega
        omega
      have hwf' : wfList ns' = true := wfList_cons_tail hwf
      have hadjOk : ∀ st2 : List Frame × List HNode,
          okStart ns' (insAll [n] st2) = true := by
        intro st2
        cases ns' with
        | nil => rfl
        | cons m ns2 =>
          exact okStart_of_adj n st2 (wfList_cons_adj hwf)
      cases n with
      | text s =>
        rw [tokensOfList_cons, tokensOfNode_text, List.append_assoc]
        rw [show List.foldl (buildStep true) st ([HTok.htext s] ++
          (tokensOfList ns' ++ toks)) = List.foldl (buildStep true)
          (insText s st) (tokensOfList ns' ++ toks) from rfl]
        rw [insText_eq_insAll s st hok]
        rw [ih ns' toks _ hkc hwf' (hadjOk st)]
        rw [← insAll_cons]
      | elem tag attrs strt children =>
        obtain ⟨hvt, hva, hstrt, hvoidnil, hnonvoid⟩ :=
          wfNode_elem_facts (wfList_cons_wfNode hwf)
        subst hstrt
        by_cases hv : isVoid tag = true
        · have hch : children = [] := hvoidnil hv
          subst hch
          rw [tokensOfList_cons, tokensOfNode_elem, if_pos hv, List.append_assoc]
          rw [show List.foldl (buildStep true) st ([HTok.hopen tag attrs] ++
            (tokensOfList ns' ++ toks)) = List.foldl (buildStep true)
            (buildStep true st (HTok.hopen tag attrs)) (tokensOfList ns' ++ toks) from rfl]
          rw [show buildStep true st (HTok.hopen tag attrs) =
            insNode (HNode.elem tag attrs (mkStarted true tag) []) st from by
            rw [buildStep, if_pos hv]]
          rw [mkStarted_true, insNode_eq_insAll]
          rw [ih ns' toks _ hkc hwf' (hadjOk st)]
          rw [← insAll_cons]
        · have hwfch : wfList children = true := hnonvoid (by simp [hv])
          have hkch : sizeOf children ≤ k := by
            simp only [List.cons.sizeOf_spec, HNode.elem.sizeOf_spec] at hk
            omega
          rw [tokensOfList_cons, tokensOfNode_elem, if_neg (by simp [hv])]
          rw [show HTok.hopen tag attrs :: (tokensOfList children ++ [HTok.hclose tag]) ++
            tokensOfList ns' ++ toks = HTok.hopen tag attrs ::
            (tokensOfList children ++ (HTok.hclose tag :: (tokensOfList ns' ++ toks))) from by
            simp [List.append_assoc]]
          rw [show List.foldl (buildStep true) st (HTok.hopen tag attrs ::
            (tokensOfList children ++ (HTok.hclose tag :: (tokensOfList ns' ++ toks)))) =
            List.foldl (buildStep true) (buildStep true st (HTok.hopen tag attrs))
            (tokensOfList children ++ (HTok.hclose tag :: (tokensOfList ns' ++ toks))) from rfl]
          rw [show buildStep true st (HTok.hopen tag attrs) =
            ({ tag := tag, attrs := attrs, started := mkStarted true tag, rev := [] } :: st.1,
              st.2) from by
            rw [buildStep, if_neg (by simp [hv])]]
          rw [ih children _ _ hkch hwfch (by
            cases children with
            | nil => rfl
            | cons m cs =>
              cases m with
              | text t => rfl
              | elem t2 a2 s2 c2 => rfl)]
          rw [show insAll children
            ({ tag := tag, attrs := attrs, started := mkStarted true tag, rev := [] } :: st.1,
              st.2) =
            ({ tag := tag, attrs := attrs, started := mkStarted true tag,
                rev := children.reverse } :: st.1, st.2) from by
            simp [insAll]]
          rw [show List.foldl (buildStep true)
            ({ tag := tag, attrs := attrs, started := mkStarted true tag,
                rev := children.reverse } :: st.1, st.2)
            (HTok.hclose tag :: (tokensOfList ns' ++ toks)) =
            List.foldl (buildStep true) (buildStep true
              ({ tag := tag, attrs := attrs, started := mkStarted true tag,
                  rev := children.reverse } :: st.1, st.2) (HTok.hclose tag))
              (tokensOfList ns' ++ toks) from rfl]
          rw [show buildStep true
            ({ tag := tag, attrs := attrs, started := mkStarted true tag,
                rev := children.reverse } :: st.1, st.2) (HTok.hclose tag) =
            insAll [HNode.elem tag attrs true children] st from by
            rw [buildStep, if_neg (by simp [hv])]
            rw [if_pos (by simp)]
            rw [popUntil.eq_def]
            dsimp only []
            rw [if_pos rfl]
            rw [show closeNode { tag := tag, attrs := attrs, started := mkStarted true tag, rev := children.reverse } = HNode.elem tag attrs true children from by
              simp [closeNode, mkStarted_true]]
            rw [insNode_eq_insAll]]
          rw [ih ns' toks _ hkc hwf' (hadjOk st)]
          rw [← insAll_cons]

theorem buildHtml_tokens (ns : List HNode) (h : wfList ns = true) :
    buildHtml true (tokensOfList ns) = ns := by
  unfold buildHtml
  have h2 := build_tokens (sizeOf ns) ns [] ([], []) le_rfl h (by
    cases ns with
    | nil => rfl
    | cons n ns' =>
      cases n with
      | text s => rfl
      | elem t a s2 c => rfl)
  rw [List.append_nil] at h2
  rw [h2]
  show finishStack (insAll ns ([], [])).1 (insAll ns ([], [])).2 = ns
  rw [show insAll ns ([], []) = ([], ns.reverse ++ []) from rfl, List.append_nil]
  rw [finishStack]
  exact List.reverse_reverse ns

theorem unescape_cons_shape (c : Char) (rest : Chars) :
    ∃ d t, unescape (c :: rest) = d :: t := by
  rw [unescape]
  split
  · split
    · exact ⟨_, _, rfl⟩
    · split
      · exact ⟨_, _, rfl⟩
      · split
        · exact ⟨_, _, rfl⟩
        · split
          · exact ⟨_, _, rfl⟩
          · exact ⟨_, _, rfl⟩
  · exact ⟨_, _, rfl⟩

theorem lexHtml_cons_text (c : Char) (rest : Chars) (hc : ¬c = '<') :
    lexHtml (c :: rest) = HTok.htext (unescape ((c :: rest).takeWhile (fun d => d != '<'))) ::
      lexHtml ((c :: rest).dropWhile (fun d => d != '<')) := by
  rw [lexHtml, dif_neg hc]

theorem lexHtml_tag_none (rest : Chars) (h : lexTag rest.length rest = none) :
    lexHtml ('<' :: rest) = HTok.htext ['<'] :: lexHtml rest := by
  rw [lexHtml]
  split
  · split
    · rename_i tok2 rest2 heq
      rw [h] at heq
      cases heq
    · rfl
  · rename_i hcond
    simp at hcond

def tokOk : HTok → Bool
  | HTok.htext s => !s.isEmpty
  | HTok.hopen tag attrs => validTag tag && attrs.all validAttr
  | HTok.hclose tag => validTag tag

theorem lowerTag_tag_valid {t : Chars} (hne : t ≠ []) (h : ∀ c ∈ t, isTagChar c = true) :
    validTag (lowerTag t) = true := by
  simp only [validTag, Bool.and_eq_true, Bool.not_eq_true']
  constructor
  · cases t with
    | nil => exact absurd rfl hne
    | cons c cs => rfl
  · rw [List.all_eq_true]
    intro d hd
    rw [lowerTag, List.mem_map] at hd
    obtain ⟨e, he, hde⟩ := hd
    rw [← hde]
    exact isTagChar_toLower (h e he)

theorem lowerTag_attr_valid {t : Chars} (hne : t ≠ [])
    (h : ∀ c ∈ t, isAttrNameChar c = true) (v : Chars) :
    validAttr (lowerTag t, v) = true := by
  simp only [validAttr, Bool.and_eq_true, Bool.not_eq_true']
  constructor
  · cases t with
    | nil => exact absurd rfl hne
    | cons c cs => rfl
  · rw [List.all_eq_true]
    intro d hd
    rw [lowerTag, List.mem_map] at hd
    obtain ⟨e, he, hde⟩ := hd
    rw [← hde]
    exact isAttrNameChar_toLower (h e he)

theorem mem_takeWhile_p {p : Char → Bool} : ∀ {l : Chars} {x : Char},
    x ∈ l.takeWhile p → p x = true := by
  intro l
  induction l with
  | nil => intro x hx; simp at hx
  | cons c cs ih =>
    intro x hx
    by_cases hc : p c = true
    · rw [List.takeWhile_cons_of_pos hc] at hx
      rcases List.mem_cons.mp hx with h | h
      · rw [h]
        exact hc
      · exact ih h
    · rw [List.takeWhile_cons_of_neg (by simpa using hc)] at hx
      simp at hx

theorem takeWhile_attrName_valid {c : Char} (rest : Chars) (h3 : isAttrNameChar c = true)
    (v : Chars) : validAttr (lowerTag ((c :: rest).takeWhile isAttrNameChar), v) = true := by
  apply lowerTag_attr_valid
  · rw [List.takeWhile_cons_of_pos h3]
    simp
  · intro d hd
    exact mem_takeWhile_p hd

theorem lexAttrs_ok : ∀ (fuel : Nat) (s : Chars) (attrs : List (Chars × Chars)) (r : Chars),
    lexAttrs fuel s = some (attrs, r) → attrs.all validAttr = true := by
  intro fuel
  induction fuel with
  | zero =>
    intro s attrs r h
    simp [lexAttrs] at h
  | succ n ih =>
    intro s attrs r h
    rw [lexAttrs] at h
    cases hds : s.dropWhile isHtmlWs with
    | nil =>
      rw [hds] at h
      simp at h
    | cons c rest =>
      rw [hds] at h
      dsimp only [] at h
      by_cases h1 : c = '>'
      · rw [if_pos h1] at h
        cases h
        rfl
      · rw [if_neg h1] at h
        by_cases h2 : c = '/'
        · rw [if_pos h2] at h
          cases rest with
          | nil => simp at h
          | cons d rest2 =>
            by_cases hd : d = '>'
            · subst hd
              simp only [] at h
              cases h
              rfl
            · rw [show (match d :: rest2 with
                  | '>' :: rest2 => some (([] : List (Chars × Chars)), rest2)
                  | _ => none) = none from by
                  cases rest2 <;> simp [hd]] at h
              simp at h
        · rw [if_neg h2] at h
          by_cases h3 : isAttrNameChar c = true
          · rw [if_pos h3] at h
            cases hr3 : ((c :: rest).dropWhile isAttrNameChar).dropWhile isHtmlWs with
            | nil =>
              rw [hr3] at h
              dsimp only [] at h
              cases hrec : lexAttrs n ([] : Chars) with
              | none => rw [hrec] at h; simp at h
              | some p =>
                rw [hrec] at h
                cases p with
                | mk a2 r2 =>
                  cases h
                  rw [List.all_cons, Bool.and_eq_true]
                  exact ⟨takeWhile_attrName_valid rest h3 [], ih _ _ _ hrec⟩
            | cons e r4 =>
              rw [hr3] at h
              by_cases he : e = '='
              · subst he
                simp only [] at h
                cases hr5 : r4.dropWhile isHtmlWs with
                | nil => rw [hr5] at h; simp at h
                | cons f r6 =>
                  rw [hr5] at h
                  by_cases hf : f = '"'
                  · subst hf
                    simp only [] at h
                    cases hr6 : r6.dropWhile (fun d => d != '"') with
                    | nil => rw [hr6] at h; simp at h
                    | cons g r7 =>
                      rw [hr6] at h
                      by_cases hg : g = '"'
                      · subst hg
                        simp only [] at h
                        cases hrec : lexAttrs n r7 with
                        | none => rw [hrec] at h; simp at h
                        | some p =>
                          rw [hrec] at h
                          cases p with
                          | mk a2 r2 =>
                            cases h
                            rw [List.all_cons, Bool.and_eq_true]
                            exact ⟨takeWhile_attrName_valid rest h3 _, ih _ _ _ hrec⟩
                      · rw [show (match g :: r7 with
                            | '"' :: r7 =>
                              match lexAttrs n r7 with
                              | some (attrs, rest') =>
                                some ((lowerTag ((c :: rest).takeWhile isAttrNameChar),
                                  unescape (r6.takeWhile (fun d => d != '"'))) :: attrs, rest')
                              | none => none
                            | _ => none) = none from by
                            cases r7 <;> simp [hg]] at h
                        simp at h
                  · rw [show (match f :: r6 with
                        | '"' :: r6 =>
                          match r6.dropWhile (fun d => d != '"') with
                          | '"' :: r7 =>
                            match lexAttrs n r7 with
                            | some (attrs, rest') =>
                              some ((lowerTag ((c :: rest).takeWhile isAttrNameChar),
                                unescape (r6.takeWhile (fun d => d != '"'))) :: attrs, rest')
                            | none => none
                          | _ => none
                        | _ => none) = none from by
                        cases r6 <;> simp [hf]] at h
                    simp at h
              · have hstep : (match e :: r4 with
                    | '=' :: r4 =>
                      match r4.dropWhile isHtmlWs with
                      | '"' :: r6 =>
                        match r6.dropWhile (fun d => d != '"') with
                        | '"' :: r7 =>
                          match lexAttrs n r7 with
                          | some (attrs, rest') =>
                            some ((lowerTag ((c :: rest).takeWhile isAttrNameChar),
                              unescape (r6.takeWhile (fun d => d != '"'))) :: attrs, rest')
                          | none => none
                        | _ => none
                      | _ => none
                    | r3 =>
                      match lexAttrs n r3 with
                      | some (attrs, rest') =>
                        some ((lowerTag ((c :: rest).takeWhile isAttrNameChar), []) :: attrs, rest')
                      | none => none) =
                    (match lexAttrs n (e :: r4) with
                      | some (attrs, rest') =>
                        some ((lowerTag ((c :: rest).takeWhile isAttrNameChar), []) :: attrs, rest')
                      | none => none) := by
                  cases r4 <;> simp [he]
                rw [hstep] at h
                cases hrec : lexAttrs n (e :: r4) with
                | none => rw [hrec] at h; simp at h
                | some p =>
                  rw [hrec] at h
                  cases p with
                  | mk a2 r2 =>
                    cases h
                    rw [List.all_cons, Bool.and_eq_true]
                    exact ⟨takeWhile_attrName_valid rest h3 [], ih _ _ _ hrec⟩
          · rw [if_neg h3] at h
            simp at h

theorem lexTag_ok : ∀ (fuel : Nat) (s : Chars) (tok : HTok) (r : Chars),
    lexTag fuel s = some (tok, r) → tokOk tok = true := by
  intro fuel s tok r h
  cases s with
  | nil => simp [lexTag] at h
  | cons c rest =>
    rw [lexTag] at h
    try dsimp only [] at h
    by_cases h1 : c = '/'
    · rw [if_pos h1] at h
      cases htw : rest.takeWhile isTagChar with
      | nil => rw [htw] at h; simp at h
      | cons d dt =>
        rw [htw] at h
        dsimp only [] at h
        cases hdw : (rest.dropWhile isTagChar).dropWhile (fun d => d != '>') with
        | nil => rw [hdw] at h; simp at h
        | cons g r3 =>
          rw [hdw] at h
          by_cases hg : g = '>'
          · subst hg
            simp only [] at h
            cases h
            show validTag (lowerTag (d :: dt)) = true
            rw [← htw]
            apply lowerTag_tag_valid
            · rw [htw]
              simp
            · intro e he
              exact mem_takeWhile_p he
          · rw [show (match g :: r3 with
                | '>' :: r3 => some (HTok.hclose (lowerTag (d :: dt)), r3)
                | _ => none) = none from by
                cases r3 <;> simp [hg]] at h
            simp at h
    · rw [if_neg h1] at h
      cases htw : (c :: rest).takeWhile isTagChar with
      | nil => rw [htw] at h; simp at h
      | cons d dt =>
        rw [htw] at h
        dsimp only [] at h
        cases hrec : lexAttrs fuel ((c :: rest).dropWhile isTagChar) with
        | none => rw [hrec] at h; simp at h
        | some p =>
          rw [hrec] at h
          cases p with
          | mk attrs2 r2 =>
            dsimp only [] at h
            cases h
            show (validTag (lowerTag (d :: dt)) && attrs2.all validAttr) = true
            rw [← htw, Bool.and_eq_true]
            constructor
            · apply lowerTag_tag_valid
              · rw [htw]
                simp
              · intro e he
                exact mem_takeWhile_p he
            · exact lexAttrs_ok _ _ _ _ hrec

theorem lexHtml_tokens_ok : ∀ (k : Nat) (s : Chars), s.length ≤ k →
    (lexHtml s).all tokOk = true := by
  intro k
  induction k with
  | zero =>
    intro s hk
    cases s with
    | nil => rw [lexHtml_nil]; rfl
    | cons c rest => simp at hk
  | succ k ih =>
    intro s hk
    cases s with
    | nil => rw [lexHtml_nil]; rfl
    | cons c rest =>
      simp only [List.length_cons] at hk
      by_cases hc : c = '<'
      · subst hc
        cases htag : lexTag rest.length rest with
        | none =>
          rw [lexHtml_tag_none rest htag, List.all_cons]
          rw [ih rest (by omega)]
          rfl
        | some p =>
          cases p with
          | mk tok rest' =>
            rw [lexHtml_tag rest tok rest' htag, List.all_cons, Bool.and_eq_true]
            constructor
            · exact lexTag_ok _ _ _ _ htag
            · exact ih rest' (by
                have := lexTag_le _ _ _ _ htag
                omega)
      · rw [lexHtml_cons_text c rest hc, List.all_cons, Bool.and_eq_true]
        constructor
        · rw [List.takeWhile_cons_of_pos (by simp [hc])]
          obtain ⟨d, t, hdt⟩ := unescape_cons_shape c (rest.takeWhile (fun d => d != '<'))
          rw [hdt]
          rfl
        · apply ih
          rw [List.dropWhile_cons_of_pos (by simp [hc])]
          have := dw_len (fun d => d != '<') rest
          omega

def bOk (x y : HNode) : Bool := !(isTextNode x && isTextNode y)

def edgeOk : Option HNode → Option HNode → Bool
  | some x, some y => bOk x y
  | _, _ => true

theorem wfList_singleton (n : HNode) : wfList [n] = wfNode n := by
  rw [wfList]

theorem wfList_cons_iff (n : HNode) (l : List HNode) : wfList (n :: l) = true ↔
    (wfNode n = true ∧ wfList l = true ∧ edgeOk (some n) l.head? = true) := by
  cases l with
  | nil =>
    rw [wfList_singleton]
    simp [wfList_nil, edgeOk]
  | cons m l2 =>
    rw [wfList]
    constructor
    · intro h
      simp only [Bool.and_eq_true] at h
      exact ⟨h.1.1, h.2, h.1.2⟩
    · intro h
      simp only [Bool.and_eq_true]
      exact ⟨⟨h.1, h.2.2⟩, h.2.1⟩

theorem edgeOk_swap (a b : Option HNode) : edgeOk a b = edgeOk b a := by
  cases a with
  | none => cases b <;> rfl
  | some x =>
    cases b with
    | none => rfl
    | some y =>
      show bOk x y = bOk y x
      rw [bOk, bOk, Bool.and_comm]

theorem wfList_append_iff : ∀ (a b : List HNode), wfList (a ++ b) = true ↔
    (wfList a = true ∧ wfList b = true ∧ edgeOk a.getLast? b.head? = true) := by
  intro a
  induction a with
  | nil =>
    intro b
    simp [wfList_nil, edgeOk]
  | cons n a' ih =>
    intro b
    rw [List.cons_append, wfList_cons_iff, ih b, wfList_cons_iff]
    cases a' with
    | nil =>
      rw [List.nil_append, show ([n] : List HNode).getLast? = some n from rfl,
        show ([] : List HNode).getLast? = none from rfl,
        show ([] : List HNode).head? = none from rfl,
        show edgeOk none b.head? = true from by cases b.head? <;> rfl,
        show edgeOk (some n) none = true from rfl, wfList_nil]
      tauto
    | cons m a'' =>
      rw [show ((m :: a'') ++ b).head? = some m from rfl]
      rw [show (n :: m :: a'').getLast? = (m :: a'').getLast? from List.getLast?_cons_cons]
      rw [show (m :: a'').head? = some m from rfl]
      tauto

theorem wfList_reverse_iff : ∀ (l : List HNode), wfList l.reverse = true ↔ wfList l = true := by
  intro l
  induction l with
  | nil => simp
  | cons n l' ih =>
    rw [List.reverse_cons, wfList_append_iff, wfList_singleton, wfList_cons_iff]
    rw [List.getLast?_reverse]
    constructor
    · intro h
      refine ⟨h.2.1, ih.mp h.1, ?_⟩
      rw [edgeOk_swap]
      rw [show ([n] : List HNode).head? = some n from rfl] at h
      exact h.2.2
    · intro h
      refine ⟨ih.mpr h.2.1, h.1, ?_⟩
      rw [show ([n] : List HNode).head? = some n from rfl, edgeOk_swap]
      exact h.2.2

def frWf (fr : Frame) : Bool :=
  validTag fr.tag && fr.attrs.all validAttr && fr.started && !isVoid fr.tag && wfList fr.rev

def stWf (st : List Frame × List HNode) : Bool :=
  st.1.all frWf && wfList st.2

theorem bOk_left_elem {n : HNode} (h : isTextNode n = false) (y : HNode) :
    bOk n y = true := by
  rw [bOk, h]
  rfl

theorem edgeOk_left_elem {n : HNode} (h : isTextNode n = false) (y : Option HNode) :
    edgeOk (some n) y = true := by
  cases y with
  | none => rfl
  | some m => exact bOk_left_elem h m

theorem insertText_wf {s : Chars} {acc : List HNode} (hs : s ≠ [])
    (h : wfList acc = true) : wfList (insertText s acc) = true := by
  cases acc with
  | nil =>
    show wfList [HNode.text s] = true
    rw [wfList_singleton, wfNode]
    simpa using hs
  | cons m acc2 =>
    cases m with
    | text t =>
      show wfList (HNode.text (t ++ s) :: acc2) = true
      rw [wfList_cons_iff] at h ⊢
      obtain ⟨h1, h2, h3⟩ := h
      have ht : t ≠ [] := by
        intro he
        subst he
        rw [wfNode] at h1
        simp at h1
      refine ⟨?_, h2, ?_⟩
      · rw [wfNode]
        cases t with
        | nil => exact absurd rfl ht
        | cons t0 t' => rfl
      · cases hh : acc2.head? with
        | none => rfl
        | some y =>
          rw [hh] at h3
          exact h3
    | elem t2 a2 s2 c2 =>
      show wfList (HNode.text s :: HNode.elem t2 a2 s2 c2 :: acc2) = true
      rw [wfList_cons_iff]
      refine ⟨?_, h, rfl⟩
      rw [wfNode]
      simpa using hs

theorem insText_wf (s : Chars) (st : List Frame × List HNode) (hs : s ≠ [])
    (h : stWf st = true) : stWf (insText s st) = true := by
  cases st with
  | mk stack acc =>
    cases stack with
    | nil =>
      simp only [insText, stWf, List.all_nil, Bool.true_and] at *
      exact insertText_wf hs h
    | cons fr stack2 =>
      simp only [insText, stWf, List.all_cons, Bool.and_eq_true] at *
      refine ⟨⟨?_, h.1.2⟩, h.2⟩
      have hfr := h.1.1
      simp only [frWf, Bool.and_eq_true] at hfr ⊢
      exact ⟨hfr.1, insertText_wf hs hfr.2⟩

theorem insNode_wf (n : HNode) (st : List Frame × List HNode) (hn : wfNode n = true)
    (hnt : isTextNode n = false) (h : stWf st = true) : stWf (insNode n st) = true := by
  cases st with
  | mk stack acc =>
    cases stack with
    | nil =>
      simp only [insNode, stWf, List.all_nil, Bool.true_and] at *
      rw [wfList_cons_iff]
      exact ⟨hn, h, edgeOk_left_elem hnt _⟩
    | cons fr stack2 =>
      simp only [insNode, stWf, List.all_cons, Bool.and_eq_true] at *
      refine ⟨⟨?_, h.1.2⟩, h.2⟩
      have hfr := h.1.1
      simp only [frWf, Bool.and_eq_true] at hfr ⊢
      refine ⟨hfr.1, ?_⟩
      rw [wfList_cons_iff]
      exact ⟨hn, hfr.2, edgeOk_left_elem hnt _⟩

theorem closeNode_wf (fr : Frame) (h : frWf fr = true) :
    wfNode (closeNode fr) = true ∧ isTextNode (closeNode fr) = false := by
  simp only [frWf, Bool.and_eq_true] at h
  constructor
  · rw [closeNode, wfNode]
    simp only [Bool.and_eq_true]
    refine ⟨⟨⟨h.1.1.1.1, h.1.1.1.2⟩, h.1.1.2⟩, ?_⟩
    rw [if_neg (by
      have := h.1.2
      simp only [Bool.not_eq_true'] at this
      simp [this])]
    exact (wfList_reverse_iff fr.rev).mpr h.2
  · rfl

theorem popUntil_wf : ∀ (k : Nat) (tag : Chars) (stack : List Frame) (acc : List HNode),
    stack.length ≤ k → stack.all frWf = true → wfList acc = true →
    stWf (popUntil tag stack acc) = true := by
  intro k
  induction k with
  | zero =>
    intro tag stack acc hlen h1 h2
    cases stack with
    | nil => simp [popUntil, stWf, h2]
    | cons fr stack2 => simp at hlen
  | succ k ih =>
    intro tag stack acc hlen h1 h2
    cases stack with
    | nil => simp [popUntil, stWf, h2]
    | cons fr stack2 =>
      rw [popUntil.eq_def]
      dsimp only []
      simp only [List.all_cons, Bool.and_eq_true] at h1
      obtain ⟨hclw, hclt⟩ := closeNode_wf fr h1.1
      by_cases ht : fr.tag = tag
      · rw [if_pos ht]
        apply insNode_wf _ _ hclw hclt
        simp [stWf, h1.2, h2]
      · rw [if_neg ht]
        cases stack2 with
        | nil =>
          simp only [stWf, List.all_nil, Bool.true_and]
          rw [wfList_cons_iff]
          exact ⟨hclw, h2, edgeOk_left_elem hclt _⟩
        | cons fr2 stack3 =>
          simp only [List.all_cons, Bool.and_eq_true] at h1
          apply ih
          · simp only [List.length_cons] at hlen ⊢
            omega
          · simp only [List.all_cons, Bool.and_eq_true]
            refine ⟨?_, h1.2.2⟩
            have hfr2 := h1.2.1
            simp only [frWf, Bool.and_eq_true] at hfr2 ⊢
            refine ⟨hfr2.1, ?_⟩
            rw [wfList_cons_iff]
            exact ⟨hclw, hfr2.2, edgeOk_left_elem hclt _⟩
          · exact h2

theorem buildStep_wf (st : List Frame × List HNode) (tok : HTok)
    (htok : tokOk tok = true) (h : stWf st = true) : stWf (buildStep true st tok) = true := by
  cases tok with
  | htext s =>
    have hs : s ≠ [] := by
      intro he
      subst he
      simp [tokOk] at htok
    exact insText_wf s st hs h
  | hopen tag attrs =>
    have htok2 : validTag tag = true ∧ attrs.all validAttr = true := by
      simpa [tokOk, Bool.and_eq_true] using htok
    rw [buildStep]
    by_cases hv : isVoid tag = true
    · rw [if_pos hv]
      refine insNode_wf _ _ ?_ rfl h
      rw [wfNode]
      simp only [Bool.and_eq_true]
      refine ⟨⟨⟨htok2.1, htok2.2⟩, mkStarted_true tag⟩, ?_⟩
      rw [if_pos hv]
      rfl
    · rw [if_neg hv]
      simp only [stWf, List.all_cons, Bool.and_eq_true] at h ⊢
      refine ⟨⟨?_, h.1⟩, h.2⟩
      simp only [frWf, Bool.and_eq_true]
      refine ⟨⟨⟨⟨htok2.1, htok2.2⟩, mkStarted_true tag⟩, by simp [hv]⟩, wfList_nil⟩
  | hclose tag =>
    rw [buildStep]
    by_cases hv : isVoid tag = true
    · rw [if_pos hv]
      exact h
    · rw [if_neg hv]
      by_cases ha : st.1.any (fun fr => fr.tag == tag) = true
      · rw [if_pos ha]
        simp only [stWf, Bool.and_eq_true] at h
        exact popUntil_wf st.1.length tag st.1 st.2 le_rfl h.1 h.2
      · rw [if_neg ha]
        exact h

theorem foldl_buildStep_wf : ∀ (toks : List HTok) (st : List Frame × List HNode),
    toks.all tokOk = true → stWf st = true →
    stWf (toks.foldl (buildStep true) st) = true := by
  intro toks
  induction toks with
  | nil => intro st _ h; exact h
  | cons tok toks ih =>
    intro st hall h
    simp only [List.all_cons, Bool.and_eq_true] at hall
    exact ih _ hall.2 (buildStep_wf st tok hall.1 h)

theorem finishStack_wf : ∀ (k : Nat) (stack : List Frame) (acc : List HNode),
    stack.length ≤ k → stack.all frWf = true → wfList acc = true →
    wfList (finishStack stack acc) = true := by
  intro k
  induction k with
  | zero =>
    intro stack acc hlen h1 h2
    cases stack with
    | nil =>
      rw [finishStack]
      exact (wfList_reverse_iff acc).mpr h2
    | cons fr stack2 => simp at hlen
  | succ k ih =>
    intro stack acc hlen h1 h2
    cases stack with
    | nil =>
      rw [finishStack]
      exact (wfList_reverse_iff acc).mpr h2
    | cons fr stack2 =>
      rw [finishStack.eq_def]
      dsimp only []
      simp only [List.all_cons, Bool.and_eq_true] at h1
      obtain ⟨hclw, hclt⟩ := closeNode_wf fr h1.1
      cases stack2 with
      | nil =>
        apply ih
        · simp
        · rfl
        · rw [wfList_cons_iff]
          exact ⟨hclw, h2, edgeOk_left_elem hclt _⟩
      | cons fr2 stack3 =>
        simp only [List.all_cons, Bool.and_eq_true] at h1
        apply ih
        · simp only [List.length_cons] at hlen ⊢
          omega
        · simp only [List.all_cons, Bool.and_eq_true]
          refine ⟨?_, h1.2.2⟩
          have hfr2 := h1.2.1
          simp only [frWf, Bool.and_eq_true] at hfr2 ⊢
          refine ⟨hfr2.1, ?_⟩
          rw [wfList_cons_iff]
          exact ⟨hclw, hfr2.2, edgeOk_left_elem hclt _⟩
        · exact h2

theorem wf_parse (x : Chars) : wfList (parseHtml true x) = true := by
  unfold parseHtml buildHtml
  have h := foldl_buildStep_wf (lexHtml x) ([], [])
    (lexHtml_tokens_ok x.length x le_rfl) (by rfl)
  cases hst : (lexHtml x).foldl (buildStep true) ([], []) with
  | mk stack acc =>
    rw [hst] at h
    simp only [stWf, Bool.and_eq_true] at h
    exact finishStack_wf stack.length stack acc le_rfl h.1 h.2

theorem parseHtml_serialize_parse (x : Chars) :
    parseHtml true (serializeList (parseHtml true x)) = parseHtml true x := by
  have hwf : wfList (parseHtml true x) = true := wf_parse x
  show buildHtml true (lexHtml (serializeList (parseHtml true x))) = parseHtml true x
  rw [lexHtml_serializeList _ hwf, buildHtml_tokens _ hwf]

theorem sanitizeHtml_idem (x : Chars) : sanitizeHtml (sanitizeHtml x) = sanitizeHtml x := by
  show serializeList (parseHtml true (serializeList (parseHtml true x))) =
    serializeList (parseHtml true x)
  rw [parseHtml_serialize_parse]

/-- `formatMessageText` (App.tsx 538-550): markdown rendering and auto-linking
(`renderMessage`) followed by `sanitizeHtml`. -/
def formatMessageText (s : Chars) : Chars := sanitizeHtml (renderMessage s)

/-- C1: for every input string s, the composed pipeline sanitize(render(s)) -
parseMarkdown, the bare-URL auto-linking step, and sanitizeHtml - produces an HTML
string containing no executable script element: fragment-parsing the output string
(which is how the app and the sanitizer itself interpret it) yields a tree whose
script elements are all marked already-started, so the count of executable script
elements is zero, even when s contains script tags or closing-tag sequences. -/
theorem C1_sanitized_output_no_executable_script (s : Chars) :
    scriptCountList (parseHtml true (formatMessageText s)) = 0 :=
  sanitize_no_executable_script (formatMessageText s)

/-- C2: the sanitizer is idempotent: for every input string x,
sanitize(sanitize(x)) equals sanitize(x), where sanitize is the
parse-into-detached-tree-then-reserialize round trip of `sanitizeHtml`. -/
theorem C2_sanitizeHtml_idempotent (x : Chars) :
    sanitizeHtml (sanitizeHtml x) = sanitizeHtml x :=
  sanitizeHtml_idem x
